import Mathlib

/-!
Verification of the log-clustering agent's core logic: the pattern
normalizer, the deduplicator, the cluster-classifier post-processing,
the fix-decision filter, and the retrying oracle client.  Definitions
are shallow embeddings of the Python sources in `scripts/agent/src`.
-/

set_option maxHeartbeats 1000000

/-! ## Character classes (ASCII semantics of the regex classes used) -/

def isDigitC (c : Char) : Bool := '0' ≤ c && c ≤ '9'

def isHexC (c : Char) : Bool :=
  isDigitC c || ('a' ≤ c && c ≤ 'f') || ('A' ≤ c && c ≤ 'F')

def isWordC (c : Char) : Bool :=
  ('a' ≤ c && c ≤ 'z') || ('A' ≤ c && c ≤ 'Z') || isDigitC c || c = '_'

def isSpaceC (c : Char) : Bool :=
  c = ' ' || c = '\t' || c = '\n' || c = '\r' || c = '\x0b' || c = '\x0c'

/-- Length of the maximal run of characters satisfying `p` at the head. -/
def runLen (p : Char → Bool) : List Char → Nat
  | [] => 0
  | c :: cs => if p c then runLen p cs + 1 else 0

/-- The character at the head of `l` is a non-word character (or `l` is empty);
this is the `\b`-after-a-word-character test of the regexes. -/
def nonWordAt (l : List Char) : Bool :=
  match l with
  | [] => true
  | c :: _ => !isWordC c

/-! ## The five volatile-field matchers of `log_analyzer.py`

Each matcher receives the flag `pw` (the character just before the current
position is a word character) and the text from the current position, and
returns the length of the regex match starting exactly here, if any.
These encode Python's leftmost/greedy matching of the five compiled
patterns `HEX_PATTERN`, `SEQ_PATTERN`, `TIMESTAMP_PATTERN`,
`HASH_PATTERN`, `NUMBER_PATTERN`. -/

def matchHex (_pw : Bool) (l : List Char) : Option Nat :=
  match l with
  | c₁ :: c₂ :: rest =>
      if c₁ = '0' && c₂ = 'x' then
        (if runLen isHexC rest = 0 then none else some (2 + runLen isHexC rest))
      else none
  | _ => none

def matchSeq (_pw : Bool) (l : List Char) : Option Nat :=
  match l with
  | c₁ :: c₂ :: c₃ :: c₄ :: rest =>
      if c₁ = 's' && c₂ = 'e' && c₃ = 'q' && c₄ = '=' then
        (if runLen isDigitC rest = 0 then none else some (4 + runLen isDigitC rest))
      else none
  | _ => none

/-- Shape of `\d{4}-\d{2}-\d{2}[T ]\d{2}:\d{2}:\d{2}`: one character
predicate per matched character. -/
def tsShape : List (Char → Bool) :=
  [isDigitC, isDigitC, isDigitC, isDigitC, (· = '-'),
   isDigitC, isDigitC, (· = '-'), isDigitC, isDigitC,
   (fun c => c = 'T' || c = ' '),
   isDigitC, isDigitC, (· = ':'), isDigitC, isDigitC, (· = ':'),
   isDigitC, isDigitC]

def matchesShape : List (Char → Bool) → List Char → Bool
  | [], _ => true
  | _ :: _, [] => false
  | p :: ps, c :: cs => p c && matchesShape ps cs

def matchTs (_pw : Bool) (l : List Char) : Option Nat :=
  if matchesShape tsShape l then some 19 else none

/-- `\b[0-9a-fA-F]{40,64}\b`: with a greedy bounded repetition over word
characters, a match at this position exists exactly when the maximal hex
run here has length in `[40, 64]`, the previous character is not a word
character, and the character after the run is not a word character. -/
def matchHash (pw : Bool) (l : List Char) : Option Nat :=
  if pw then none else
    if 40 ≤ runLen isHexC l && runLen isHexC l ≤ 64
        && nonWordAt (l.drop (runLen isHexC l))
    then some (runLen isHexC l) else none

/-- `\b\d{6,}\b`: the maximal digit run here must have length at least 6
and be delimited by non-word characters on both sides. -/
def matchNum (pw : Bool) (l : List Char) : Option Nat :=
  if pw then none else
    if 6 ≤ runLen isDigitC l && nonWordAt (l.drop (runLen isDigitC l))
    then some (runLen isDigitC l) else none

/-! ## The substitution engine (Python `re.sub` on these patterns)

`re.sub` scans left to right; at each position it tries the pattern, and
on a match emits the replacement and resumes after the matched text.
`\b` at the resume point refers to the last character of the original
matched text, which we thread through as `pw`.  The `fuel` argument is
an upper bound on the list length, making the recursion structural. -/

def substF (M : Bool → List Char → Option Nat) (rep : List Char) :
    Nat → Bool → List Char → List Char
  | 0, _, l => l
  | _ + 1, _, [] => []
  | fuel + 1, pw, c :: cs =>
    match M pw (c :: cs) with
    | some (n + 1) =>
        rep ++ substF M rep fuel (isWordC ((c :: cs).getD n c)) (cs.drop n)
    | _ => c :: substF M rep fuel (isWordC c) cs

def subst (M : Bool → List Char → Option Nat) (rep : List Char)
    (l : List Char) : List Char :=
  substF M rep l.length false l

/-- Python `str.strip()` on ASCII whitespace. -/
def stripL (l : List Char) : List Char :=
  ((l.dropWhile isSpaceC).reverse.dropWhile isSpaceC).reverse

def pass1 (l : List Char) : List Char := subst matchHex "<hex>".data l
def pass2 (l : List Char) : List Char := subst matchSeq "seq=<N>".data l
def pass3 (l : List Char) : List Char := subst matchTs "<timestamp>".data l
def pass4 (l : List Char) : List Char := subst matchHash "<hash>".data l
def pass5 (l : List Char) : List Char := subst matchNum "<N>".data l

/-- `_normalize_message` from `log_analyzer.py`: the five substitutions in
source order, then strip. -/
def normalizeL (l : List Char) : List Char :=
  stripL (pass5 (pass4 (pass3 (pass2 (pass1 l)))))

def normalizeMessage (s : String) : String :=
  ⟨normalizeL s.data⟩

example : normalizeMessage "ledger 0xABC123 closed" = "ledger <hex> closed" := by decide
example : normalizeMessage "fetch seq=12345 failed" = "fetch seq=<N> failed" := by decide
example : normalizeMessage "at 2024-01-02T03:04:05 boot" = "at <timestamp> boot" := by decide
example : normalizeMessage "at 2024-01-02 03:04:05 boot" = "at <timestamp> boot" := by decide
example :
    normalizeMessage "hash 00112233445566778899aabbccddeeff0011223344556677 missing"
      = "hash <hash> missing" := by decide
example : normalizeMessage "node 1234567 up" = "node <N> up" := by decide
example : normalizeMessage "node 12345 up" = "node 12345 up" := by decide
example : normalizeMessage "  spaced  " = "spaced" := by decide
example : normalizeMessage "a123456" = "a123456" := by decide
example : normalizeMessage "2024-01-02T03:04:05123456" = "<timestamp><N>" := by decide

/-! ## Data model (`models.py`) -/

structure LogEntry where
  timestamp : String
  hostname : String
  service_type : String
  module : String
  level : String
  message : String
deriving DecidableEq, Repr

structure LogCluster where
  slug : String
  title : String
  summary : String
  module : String
  severity : String
  sample_messages : List String
  occurrence_count : Int
  needs_fix : Bool
  skip_reason : Option String
deriving DecidableEq, Repr

/-! ## The deduplicator (`_deduplicate_messages` in `log_analyzer.py`)

The Python loop keeps a `Counter` and a `samples` dict, both in key
insertion order; we model them as association lists in insertion order. -/

def MAX_SAMPLES_PER_PATTERN : Nat := 5

/-- `counter[key] += 1` on an insertion-ordered association list. -/
def bumpCount (k : String) : List (String × Nat) → List (String × Nat)
  | [] => [(k, 1)]
  | (k₁, n) :: rest =>
      if k₁ = k then (k₁, n + 1) :: rest else (k₁, n) :: bumpCount k rest

/-- The sample-retention step: create the key's list when absent, then
append the raw message while fewer than 5 samples are kept. -/
def addSample (k : String) (msg : String) :
    List (String × List String) → List (String × List String)
  | [] => [(k, [msg])]
  | (k₁, ms) :: rest =>
      if k₁ = k then
        (k₁, if ms.length < MAX_SAMPLES_PER_PATTERN then ms ++ [msg] else ms) :: rest
      else (k₁, ms) :: addSample k msg rest

def dedupStep (st : List (String × Nat) × List (String × List String))
    (e : LogEntry) : List (String × Nat) × List (String × List String) :=
  let k := normalizeMessage e.message
  (bumpCount k st.1, addSample k e.message st.2)

def dedupLoop (entries : List LogEntry) :
    List (String × Nat) × List (String × List String) :=
  entries.foldl dedupStep ([], [])

/-- Stable insertion for an insertion sort under a strict comparison:
the new element goes after every earlier element it does not beat. -/
def insertOrd (lt : α → α → Bool) (x : α) : List α → List α
  | [] => [x]
  | y :: ys => if lt x y then x :: y :: ys else y :: insertOrd lt x ys

/-- Stable sort under a strict comparison, as Python `sorted` (ties keep
their original order). -/
def sortOrd (lt : α → α → Bool) (l : List α) : List α :=
  l.foldl (fun acc x => insertOrd lt x acc) []

/-- `Counter.most_common()`: the items sorted by descending count; the
sort is stable, so equal counts keep insertion (first-seen) order. -/
def mostCommon (l : List (String × Nat)) : List (String × Nat) :=
  sortOrd (fun a b => b.2 < a.2) l

structure DedupPattern where
  normalized : String
  count : Nat
  samples : List String
  module : String
  level : String
deriving DecidableEq, Repr

def findModule (entries : List LogEntry) (k : String) : String :=
  ((entries.find? fun e => normalizeMessage e.message = k).map (·.module)).getD "unknown"

def findLevel (entries : List LogEntry) (k : String) : String :=
  ((entries.find? fun e => normalizeMessage e.message = k).map (·.level)).getD "unknown"

def lookupSamples (k : String) : List (String × List String) → List String
  | [] => []
  | (k₁, ms) :: rest => if k₁ = k then ms else lookupSamples k rest

/-- `_deduplicate_messages`: group by normalized key, order the groups by
`most_common`, and read module/level from the first matching entry. -/
def deduplicateMessages (entries : List LogEntry) : List DedupPattern :=
  let st := dedupLoop entries
  (mostCommon st.1).map fun kc =>
    { normalized := kc.1
      count := kc.2
      samples := lookupSamples kc.1 st.2
      module := findModule entries kc.1
      level := findLevel entries kc.1 }

/-! ## Classifier post-processing (`LogAnalyzer.cluster_logs`) -/

def MAX_CLUSTERS : Nat := 3

/-- `{"fatal": 0, "error": 1, "warning": 2}.get(severity, 3)`. -/
def severityRank (s : String) : Nat :=
  if s = "fatal" then 0 else if s = "error" then 1 else
  if s = "warning" then 2 else 3

/-- Strict order on the Python sort key `(rank, -occurrence_count)`. -/
def clusterKeyLt (a b : LogCluster) : Bool :=
  severityRank a.severity < severityRank b.severity ||
    (severityRank a.severity = severityRank b.severity &&
      b.occurrence_count < a.occurrence_count)

/-- Python `sorted` with the key above: stable ascending sort. -/
def sortClusters (cs : List LogCluster) : List LogCluster :=
  sortOrd clusterKeyLt cs

/-- The classifier's handling of the oracle's cluster list:
`sorted(result.clusters, key=...)[:MAX_CLUSTERS]`. -/
def clusterPost (oracleClusters : List LogCluster) : List LogCluster :=
  (sortClusters oracleClusters).take MAX_CLUSTERS

/-! ## State store rows and the fix-decision filter (`state.py`, `main.py`) -/

structure PatternRow where
  slug : String
  branch : String
  pr_url : String
  status : String
  summary : String
  sample_messages : List String
deriving DecidableEq, Repr

/-- `StateManager.get_open_patterns`: rows whose status is not `closed`,
projected to slug/summary/samples. -/
def getOpenPatterns (store : List PatternRow) : List (String × String × List String) :=
  (store.filter fun r => r.status ≠ "closed").map fun r =>
    (r.slug, r.summary, r.sample_messages)

def existingSlugs (store : List PatternRow) : List String :=
  (getOpenPatterns store).map (·.1)

/-- The deterministic branch name `agent-{environment}/{slug}`. -/
def branchName (environment slug : String) : String :=
  "agent-" ++ environment ++ "/" ++ slug

/-- `fixable = [c for c in clusters if c.needs_fix and c.slug not in existing_slugs]`. -/
def fixableClusters (clusters : List LogCluster) (store : List PatternRow) :
    List LogCluster :=
  clusters.filter fun c => c.needs_fix && !(existingSlugs store).contains c.slug

/-- The safety-net loop in `run`: drop clusters whose branch already
exists remotely or already has an open PR; `branchExists` and `prExists`
abstract the two `GitHubOps` queries. -/
def newFixableLoop (branchExists prExists : String → Bool) (environment : String) :
    List LogCluster → List LogCluster
  | [] => []
  | c :: rest =>
      if branchExists (branchName environment c.slug) then
        newFixableLoop branchExists prExists environment rest
      else if prExists (branchName environment c.slug) then
        newFixableLoop branchExists prExists environment rest
      else c :: newFixableLoop branchExists prExists environment rest

/-- The clusters the per-cluster remediation loop iterates over:
`new_fixable[: config.max_prs_per_run]`. -/
def remediatedClusters (branchExists prExists : String → Bool)
    (environment : String) (maxPrsPerRun : Nat)
    (clusters : List LogCluster) (store : List PatternRow) : List LogCluster :=
  (newFixableLoop branchExists prExists environment
      (fixableClusters clusters store)).take maxPrsPerRun

/-! ## The retrying oracle client (`OpenAIClient.create`) -/

def RETRY_DELAYS : List Nat := [2, 5, 15]

/-- One run of the retry loop body over the enumerated delays.  `f k` is
the outcome of attempt `k`; the result pairs what `create` does (returns
the validated value, raises the last error, or — were the delay list
empty — falls through returning `None`) with the list of sleeps made. -/
def retryLoop (f : Nat → Except String String) (total : Nat) :
    List (Nat × Nat) → Option (Except String String) × List Nat
  | [] => (none, [])
  | (att, delay) :: rest =>
      match f att with
      | .ok a => (some (.ok a), [])
      | .error e =>
          if att = total then (some (.error e), [])
          else
            let r := retryLoop f total rest
            (r.1, delay :: r.2)

/-- `OpenAIClient.create` with the attempt outcomes abstracted:
`for attempt, delay in enumerate(RETRY_DELAYS, start=1): ...`. -/
def createWithRetries (f : Nat → Except String String) :
    Option (Except String String) × List Nat :=
  retryLoop f RETRY_DELAYS.length
    (RETRY_DELAYS.enum.map fun p => (p.1 + 1, p.2))

example :
    createWithRetries (fun _ => .error "boom") = (some (.error "boom"), [2, 5]) := rfl
example :
    createWithRetries (fun k => if k = 2 then .ok "v" else .error "e")
      = (some (.ok "v"), [2]) := rfl

/-! ## Generic facts about the stable insertion sort -/

theorem insertOrd_perm (lt : α → α → Bool) (x : α) (l : List α) :
    (insertOrd lt x l).Perm (x :: l) := by
  induction l with
  | nil => simp [insertOrd]
  | cons y ys ih =>
      simp only [insertOrd]
      cases h : lt x y with
      | true => simp
      | false =>
          exact ((ih.cons y).trans (List.Perm.swap x y ys)).symm.symm

theorem mem_insertOrd (lt : α → α → Bool) (x a : α) (l : List α) :
    a ∈ insertOrd lt x l ↔ a ∈ x :: l :=
  (insertOrd_perm lt x l).mem_iff

theorem sortOrd_perm_aux (lt : α → α → Bool) :
    ∀ (l acc : List α),
      (l.foldl (fun acc x => insertOrd lt x acc) acc).Perm (acc ++ l) := by
  intro l
  induction l with
  | nil => intro acc; simp
  | cons x xs ih =>
      intro acc
      have h1 := ih (insertOrd lt x acc)
      have h2 : (insertOrd lt x acc ++ xs).Perm (acc ++ x :: xs) :=
        ((insertOrd_perm lt x acc).append_right xs).trans
          List.perm_middle.symm
      exact (List.foldl_cons .. ▸ h1).trans h2

theorem sortOrd_perm (lt : α → α → Bool) (l : List α) :
    (sortOrd lt l).Perm l := by
  simpa using sortOrd_perm_aux lt l []

/-- Strict-weak-order style hypotheses for the comparison. -/
def LtAsymm (lt : α → α → Bool) : Prop :=
  ∀ x y, lt x y = true → lt y x = false

def LtTrans2 (lt : α → α → Bool) : Prop :=
  ∀ x y z, lt x z = true → lt x y = true ∨ lt y z = true

theorem insertOrd_pairwise (lt : α → α → Bool) (ha : LtAsymm lt)
    (ht : LtTrans2 lt) (x : α) (l : List α)
    (hl : l.Pairwise fun a b => lt b a = false) :
    (insertOrd lt x l).Pairwise fun a b => lt b a = false := by
  induction l with
  | nil => simp [insertOrd]
  | cons y ys ih =>
      rw [List.pairwise_cons] at hl
      simp only [insertOrd]
      cases h : lt x y with
      | true =>
          simp only [if_pos rfl]
          refine List.pairwise_cons.mpr ⟨?_, List.pairwise_cons.mpr hl⟩
          intro z hz
          rcases List.mem_cons.mp hz with rfl | hz'
          · exact ha x z h
          · by_contra hc
            have hzx : lt z x = true := by
              cases hzc : lt z x
              · exact absurd hzc hc
              · rfl
            rcases ht z y x hzx with h1 | h1
            · rw [hl.1 z hz'] at h1; exact Bool.false_ne_true h1
            · rw [ha x y h] at h1; exact Bool.false_ne_true h1
      | false =>
          rw [if_neg Bool.false_ne_true]
          refine List.pairwise_cons.mpr ⟨?_, ih hl.2⟩
          intro z hz
          rcases List.mem_cons.mp ((mem_insertOrd lt x z ys).mp hz) with rfl | hz'
          · exact h
          · exact hl.1 z hz'

theorem sortOrd_pairwise_aux (lt : α → α → Bool) (ha : LtAsymm lt)
    (ht : LtTrans2 lt) :
    ∀ (l acc : List α), acc.Pairwise (fun a b => lt b a = false) →
      (l.foldl (fun acc x => insertOrd lt x acc) acc).Pairwise
        fun a b => lt b a = false := by
  intro l
  induction l with
  | nil => intro acc hacc; simpa using hacc
  | cons x xs ih =>
      intro acc hacc
      rw [List.foldl_cons]
      exact ih (insertOrd lt x acc) (insertOrd_pairwise lt ha ht x acc hacc)

theorem sortOrd_pairwise (lt : α → α → Bool) (ha : LtAsymm lt)
    (ht : LtTrans2 lt) (l : List α) :
    (sortOrd lt l).Pairwise fun a b => lt b a = false :=
  sortOrd_pairwise_aux lt ha ht l [] (by simp)

theorem insertOrd_filter (lt : α → α → Bool) (p : α → Bool)
    (ht : LtTrans2 lt) (hc : ∀ x y, p x = true → p y = true → lt x y = false)
    (x : α) (l : List α) (hl : l.Pairwise fun a b => lt b a = false) :
    (insertOrd lt x l).filter p =
      if p x then l.filter p ++ [x] else l.filter p := by
  induction l with
  | nil => cases h : p x <;> simp [insertOrd, List.filter, h]
  | cons y ys ih =>
      rw [List.pairwise_cons] at hl
      simp only [insertOrd]
      cases h : lt x y with
      | true =>
          rw [if_pos rfl]
          cases hp : p x with
          | false => simp [List.filter_cons, hp]
          | true =>
              have hnil : (y :: ys).filter p = [] := by
                rw [List.filter_eq_nil_iff]
                intro z hz hpz
                rcases List.mem_cons.mp hz with rfl | hz'
                · rw [hc x z hp hpz] at h
                  exact Bool.false_ne_true h
                · rcases ht x z y h with h1 | h1
                  · rw [hc x z hp hpz] at h1
                    exact Bool.false_ne_true h1
                  · rw [hl.1 z hz'] at h1
                    exact Bool.false_ne_true h1
              simp [List.filter_cons, hp, hnil]
      | false =>
          rw [if_neg Bool.false_ne_true]
          rw [List.filter_cons, List.filter_cons, ih hl.2]
          cases hp : p x <;> cases hpy : p y <;> simp [hp, hpy]

theorem sortOrd_filter_aux (lt : α → α → Bool) (p : α → Bool)
    (ha : LtAsymm lt) (ht : LtTrans2 lt)
    (hc : ∀ x y, p x = true → p y = true → lt x y = false) :
    ∀ (l acc : List α), acc.Pairwise (fun a b => lt b a = false) →
      (l.foldl (fun acc x => insertOrd lt x acc) acc).filter p =
        acc.filter p ++ l.filter p := by
  intro l
  induction l with
  | nil => intro acc _; simp
  | cons x xs ih =>
      intro acc hacc
      rw [List.foldl_cons,
        ih (insertOrd lt x acc) (insertOrd_pairwise lt ha ht x acc hacc),
        insertOrd_filter lt p ht hc x acc hacc, List.filter_cons]
      cases hp : p x <;> simp

theorem sortOrd_filter (lt : α → α → Bool) (p : α → Bool)
    (ha : LtAsymm lt) (ht : LtTrans2 lt)
    (hc : ∀ x y, p x = true → p y = true → lt x y = false) (l : List α) :
    (sortOrd lt l).filter p = l.filter p := by
  simpa using sortOrd_filter_aux lt p ha ht hc l [] (by simp)

/-! Side conditions for the two comparators used by the program. -/

theorem cntLt_asymm : LtAsymm (fun a b : String × Nat => b.2 < a.2) := by
  intro x y h
  simp only [decide_eq_true_eq] at h
  simp only [decide_eq_false_iff_not]
  omega

theorem cntLt_trans2 : LtTrans2 (fun a b : String × Nat => b.2 < a.2) := by
  intro x y z h
  simp only [decide_eq_true_eq] at h ⊢
  omega

theorem clusterKeyLt_asymm : LtAsymm clusterKeyLt := by
  intro x y h
  simp only [clusterKeyLt, Bool.or_eq_true, Bool.and_eq_true,
    decide_eq_true_eq] at h
  simp only [clusterKeyLt, Bool.or_eq_false_iff, Bool.and_eq_false_iff,
    decide_eq_false_iff_not]
  omega

theorem clusterKeyLt_trans2 : LtTrans2 clusterKeyLt := by
  intro x y z h
  simp only [clusterKeyLt, Bool.or_eq_true, Bool.and_eq_true,
    decide_eq_true_eq] at h ⊢
  omega

/-! ## Specification view of the deduplicator state -/

def entryKey (e : LogEntry) : String := normalizeMessage e.message

/-- First occurrence of each element, in first-seen order. -/
def keepFirst : List String → List String
  | [] => []
  | k :: ks => k :: (keepFirst ks).filter (fun k₁ => k₁ ≠ k)

def firstSeenKeys (entries : List LogEntry) : List String :=
  keepFirst (entries.map entryKey)

def countKey (entries : List LogEntry) (k : String) : Nat :=
  (entries.filter fun e => entryKey e = k).length

def samplesKey (entries : List LogEntry) (k : String) : List String :=
  ((entries.filter fun e => entryKey e = k).map (·.message)).take
    MAX_SAMPLES_PER_PATTERN

def counterSpec (entries : List LogEntry) : List (String × Nat) :=
  (firstSeenKeys entries).map fun k => (k, countKey entries k)

def samplesSpec (entries : List LogEntry) : List (String × List String) :=
  (firstSeenKeys entries).map fun k => (k, samplesKey entries k)

theorem mem_keepFirst (a : String) : ∀ l : List String, a ∈ keepFirst l ↔ a ∈ l := by
  intro l
  induction l with
  | nil => simp [keepFirst]
  | cons k ks ih =>
      by_cases hak : a = k
      · subst hak; simp [keepFirst]
      · simp [keepFirst, hak, ih]

theorem keepFirst_nodup : ∀ l : List String, (keepFirst l).Nodup := by
  intro l
  induction l with
  | nil => simp [keepFirst]
  | cons k ks ih =>
      rw [keepFirst, List.nodup_cons]
      constructor
      · intro hmem
        have := List.of_mem_filter hmem
        simp at this
      · exact ih.filter _

theorem keepFirst_append_singleton (k : String) :
    ∀ l : List String, keepFirst (l ++ [k]) =
      if k ∈ l then keepFirst l else keepFirst l ++ [k] := by
  intro l
  induction l with
  | nil => simp [keepFirst]
  | cons k₁ l₁ ih =>
      by_cases hmem : k ∈ l₁
      · rw [List.cons_append, keepFirst, ih, if_pos hmem, keepFirst,
          if_pos (List.mem_cons.mpr (Or.inr hmem))]
      · by_cases hk : k = k₁
        · subst hk
          rw [List.cons_append, keepFirst, ih, if_neg hmem,
            if_pos (List.mem_cons.mpr (Or.inl rfl)), List.filter_append,
            keepFirst]
          simp
        · rw [List.cons_append, keepFirst, ih, if_neg hmem,
            List.filter_append, keepFirst]
          have : k ∉ (k₁ :: l₁) := by
            simp [hk, hmem]
          rw [if_neg this]
          simp [hk]

theorem bumpCount_map (k : String) :
    ∀ (ks : List String) (g : String → Nat), ks.Nodup →
      bumpCount k (ks.map fun k₁ => (k₁, g k₁)) =
        if k ∈ ks then
          ks.map fun k₁ => (k₁, if k₁ = k then g k₁ + 1 else g k₁)
        else (ks.map fun k₁ => (k₁, g k₁)) ++ [(k, 1)] := by
  intro ks
  induction ks with
  | nil => intro g _; simp [bumpCount]
  | cons k₁ ks₁ ih =>
      intro g hn
      rw [List.nodup_cons] at hn
      by_cases h : k₁ = k
      · subst h
        rw [List.map_cons, bumpCount, if_pos rfl,
          if_pos (List.mem_cons.mpr (Or.inl rfl)), List.map_cons, if_pos rfl]
        have : ∀ k₂ ∈ ks₁, (fun k₃ => (k₃, if k₃ = k₁ then g k₃ + 1 else g k₃)) k₂
            = (fun k₃ => (k₃, g k₃)) k₂ := by
          intro k₂ hk₂
          have : k₂ ≠ k₁ := fun hh => hn.1 (hh ▸ hk₂)
          simp [this]
        rw [List.map_congr_left this]
      · rw [List.map_cons, bumpCount, if_neg h, ih g hn.2]
        by_cases hmem : k ∈ ks₁
        · rw [if_pos hmem, if_pos (List.mem_cons.mpr (Or.inr hmem)),
            List.map_cons, if_neg h]
        · have : k ∉ k₁ :: ks₁ := by
            intro hc
            rcases List.mem_cons.mp hc with hc | hc
            · exact h hc.symm
            · exact hmem hc
          rw [if_neg hmem, if_neg this]
          simp

theorem addSample_map (k msg : String) :
    ∀ (ks : List String) (g : String → List String), ks.Nodup →
      addSample k msg (ks.map fun k₁ => (k₁, g k₁)) =
        if k ∈ ks then
          ks.map fun k₁ => (k₁, if k₁ = k then
            (if (g k₁).length < MAX_SAMPLES_PER_PATTERN then g k₁ ++ [msg] else g k₁)
            else g k₁)
        else (ks.map fun k₁ => (k₁, g k₁)) ++ [(k, [msg])] := by
  intro ks
  induction ks with
  | nil => intro g _; simp [addSample]
  | cons k₁ ks₁ ih =>
      intro g hn
      rw [List.nodup_cons] at hn
      by_cases h : k₁ = k
      · subst h
        rw [List.map_cons, addSample, if_pos rfl,
          if_pos (List.mem_cons.mpr (Or.inl rfl)), List.map_cons, if_pos rfl]
        have : ∀ k₂ ∈ ks₁, (fun k₃ => (k₃, if k₃ = k₁ then
            (if (g k₃).length < MAX_SAMPLES_PER_PATTERN then g k₃ ++ [msg] else g k₃)
            else g k₃)) k₂ = (fun k₃ => (k₃, g k₃)) k₂ := by
          intro k₂ hk₂
          have : k₂ ≠ k₁ := fun hh => hn.1 (hh ▸ hk₂)
          simp [this]
        rw [List.map_congr_left this]
      · rw [List.map_cons, addSample, if_neg h, ih g hn.2]
        by_cases hmem : k ∈ ks₁
        · rw [if_pos hmem, if_pos (List.mem_cons.mpr (Or.inr hmem)),
            List.map_cons, if_neg h]
        · have : k ∉ k₁ :: ks₁ := by
            intro hc
            rcases List.mem_cons.mp hc with hc | hc
            · exact h hc.symm
            · exact hmem hc
          rw [if_neg hmem, if_neg this]
          simp

theorem countKey_snoc (p : List LogEntry) (x : LogEntry) (k : String) :
    countKey (p ++ [x]) k = countKey p k + if entryKey x = k then 1 else 0 := by
  rw [countKey, countKey, List.filter_append, List.length_append]
  congr 1
  by_cases h : entryKey x = k <;> simp [List.filter_cons, h]

theorem countKey_eq_zero (p : List LogEntry) (k : String)
    (h : k ∉ p.map entryKey) : countKey p k = 0 := by
  rw [countKey, List.length_eq_zero, List.filter_eq_nil_iff]
  intro e he
  simp only [decide_eq_true_eq]
  intro hk
  exact h (List.mem_map.mpr ⟨e, he, hk⟩)

theorem samplesKey_snoc (p : List LogEntry) (x : LogEntry) (k : String) :
    samplesKey (p ++ [x]) k =
      if entryKey x = k then
        (if (samplesKey p k).length < MAX_SAMPLES_PER_PATTERN
          then samplesKey p k ++ [x.message] else samplesKey p k)
      else samplesKey p k := by
  have hsp : samplesKey p k =
      ((p.filter fun e => entryKey e = k).map (·.message)).take
        MAX_SAMPLES_PER_PATTERN := rfl
  by_cases h : entryKey x = k
  · have hsx : samplesKey (p ++ [x]) k =
        (((p.filter fun e => entryKey e = k).map (·.message)) ++ [x.message]).take
          MAX_SAMPLES_PER_PATTERN := by
      simp [samplesKey, List.filter_append, h]
    rw [if_pos h, hsx, hsp, List.take_append_eq_append_take]
    by_cases hlt : ((p.filter fun e => entryKey e = k).map (·.message)).length
        < MAX_SAMPLES_PER_PATTERN
    · rw [if_pos (by rw [List.length_take]; omega)]
      congr 1
      exact List.take_of_length_le (by simp at hlt ⊢; omega)
    · rw [if_neg (by rw [List.length_take]; omega)]
      have h0 : MAX_SAMPLES_PER_PATTERN
          - ((p.filter fun e => entryKey e = k).map (·.message)).length = 0 := by
        omega
      rw [h0, List.take_zero, List.append_nil]
  · rw [if_neg h, hsp, samplesKey, List.filter_append]
    have hx : List.filter (fun e => decide (entryKey e = k)) [x] = [] := by
      simp [h]
    rw [hx, List.append_nil]

theorem dedupStep_spec (p : List LogEntry) (x : LogEntry) :
    dedupStep (counterSpec p, samplesSpec p) x =
      (counterSpec (p ++ [x]), samplesSpec (p ++ [x])) := by
  have hnd : (firstSeenKeys p).Nodup := keepFirst_nodup _
  have hkeys : firstSeenKeys (p ++ [x]) =
      if entryKey x ∈ p.map entryKey then firstSeenKeys p
      else firstSeenKeys p ++ [entryKey x] := by
    rw [firstSeenKeys, List.map_append, List.map_cons, List.map_nil,
      keepFirst_append_singleton]
    rfl
  have hmemiff : entryKey x ∈ firstSeenKeys p ↔ entryKey x ∈ p.map entryKey :=
    mem_keepFirst _ _
  rw [dedupStep]
  have hcnt : bumpCount (normalizeMessage x.message) (counterSpec p)
      = counterSpec (p ++ [x]) := by
    show bumpCount (entryKey x) (counterSpec p) = counterSpec (p ++ [x])
    rw [counterSpec, bumpCount_map (entryKey x) _ _ hnd, counterSpec, hkeys]
    by_cases hmem : entryKey x ∈ p.map entryKey
    · rw [if_pos (hmemiff.mpr hmem), if_pos hmem]
      refine List.map_congr_left ?_
      intro k₁ _
      by_cases hk : k₁ = entryKey x
      · subst hk
        rw [if_pos rfl, countKey_snoc, if_pos rfl]
      · rw [if_neg hk, countKey_snoc,
          if_neg (fun hh => hk hh.symm), Nat.add_zero]
    · rw [if_neg (fun hc => hmem (hmemiff.mp hc)), if_neg hmem,
        List.map_append]
      congr 1
      · refine List.map_congr_left ?_
        intro k₁ hk₁
        have hk : k₁ ≠ entryKey x := by
          intro hh
          exact hmem (hh ▸ (mem_keepFirst k₁ _).mp hk₁)
        rw [countKey_snoc, if_neg (fun hh => hk hh.symm), Nat.add_zero]
      · rw [List.map_cons, List.map_nil, countKey_snoc, if_pos rfl,
          countKey_eq_zero p _ hmem]
  have hsam : addSample (normalizeMessage x.message) x.message (samplesSpec p)
      = samplesSpec (p ++ [x]) := by
    show addSample (entryKey x) x.message (samplesSpec p) = samplesSpec (p ++ [x])
    rw [samplesSpec, addSample_map (entryKey x) x.message _ _ hnd,
      samplesSpec, hkeys]
    by_cases hmem : entryKey x ∈ p.map entryKey
    · rw [if_pos (hmemiff.mpr hmem), if_pos hmem]
      refine List.map_congr_left ?_
      intro k₁ _
      by_cases hk : k₁ = entryKey x
      · subst hk
        rw [if_pos rfl, samplesKey_snoc, if_pos rfl]
      · rw [if_neg hk, samplesKey_snoc, if_neg (fun hh => hk hh.symm)]
    · rw [if_neg (fun hc => hmem (hmemiff.mp hc)), if_neg hmem,
        List.map_append]
      congr 1
      · refine List.map_congr_left ?_
        intro k₁ hk₁
        have hk : k₁ ≠ entryKey x := by
          intro hh
          exact hmem (hh ▸ (mem_keepFirst k₁ _).mp hk₁)
        rw [samplesKey_snoc, if_neg (fun hh => hk hh.symm)]
      · rw [List.map_cons, List.map_nil, samplesKey_snoc, if_pos rfl]
        have h0 : samplesKey p (entryKey x) = [] := by
          rw [samplesKey]
          have : (p.filter fun e => entryKey e = entryKey x) = [] := by
            rw [List.filter_eq_nil_iff]
            intro e he
            simp only [decide_eq_true_eq]
            intro hk
            exact hmem (List.mem_map.mpr ⟨e, he, hk⟩)
          rw [this]
          rfl
        rw [h0]
        rfl
  exact congrArg₂ Prod.mk hcnt hsam

theorem dedupLoop_go :
    ∀ (xs p : List LogEntry),
      xs.foldl dedupStep (counterSpec p, samplesSpec p) =
        (counterSpec (p ++ xs), samplesSpec (p ++ xs)) := by
  intro xs
  induction xs with
  | nil => intro p; simp
  | cons x xs ih =>
      intro p
      rw [List.foldl_cons, dedupStep_spec, ih (p ++ [x])]
      simp

theorem dedupLoop_spec (entries : List LogEntry) :
    dedupLoop entries = (counterSpec entries, samplesSpec entries) := by
  have h := dedupLoop_go entries []
  rw [List.nil_append] at h
  exact h

theorem lookupSamples_map :
    ∀ (ks : List String) (g : String → List String), ks.Nodup →
      ∀ k ∈ ks, lookupSamples k (ks.map fun k₁ => (k₁, g k₁)) = g k := by
  intro ks
  induction ks with
  | nil => intro g _ k hk; simp at hk
  | cons k₁ ks₁ ih =>
      intro g hn k hk
      rw [List.nodup_cons] at hn
      rw [List.map_cons, lookupSamples]
      rcases List.mem_cons.mp hk with rfl | hk'
      · rw [if_pos rfl]
      · have : k₁ ≠ k := fun hh => hn.1 (hh ▸ hk')
        rw [if_neg this]
        exact ih g hn.2 k hk'

/-- The record built for one key/count pair of `most_common`. -/
def mkDedup (entries : List LogEntry) (kc : String × Nat) : DedupPattern :=
  { normalized := kc.1
    count := kc.2
    samples := lookupSamples kc.1 (samplesSpec entries)
    module := findModule entries kc.1
    level := findLevel entries kc.1 }

/-- The deduplicator, rewritten through the specification view of its
accumulated state. -/
theorem deduplicateMessages_eq (entries : List LogEntry) :
    deduplicateMessages entries =
      (mostCommon (counterSpec entries)).map (mkDedup entries) := by
  rw [deduplicateMessages, dedupLoop_spec]
  rfl

theorem filter_map_comm (f : α → β) (p : β → Bool) :
    ∀ l : List α, (l.map f).filter p = (l.filter fun a => p (f a)).map f := by
  intro l
  induction l with
  | nil => simp
  | cons a l ih =>
      rw [List.map_cons, List.filter_cons, List.filter_cons]
      cases h : p (f a) <;> simp [h, ih]

theorem firstSeenKeys_perm {e₁ e₂ : List LogEntry} (h : e₁.Perm e₂) :
    (firstSeenKeys e₁).Perm (firstSeenKeys e₂) := by
  rw [firstSeenKeys, firstSeenKeys,
    List.perm_ext_iff_of_nodup (keepFirst_nodup _) (keepFirst_nodup _)]
  intro k
  rw [mem_keepFirst, mem_keepFirst]
  exact (h.map entryKey).mem_iff

theorem countKey_congr {e₁ e₂ : List LogEntry} (h : e₁.Perm e₂) :
    countKey e₁ = countKey e₂ := by
  funext k
  rw [countKey, countKey]
  exact (h.filter _).length_eq

/-- C4: `deduplicate` orders its groups by descending occurrence count with
ties kept in first-seen key order, returns `[]` on empty input, and on
`[A, A, B, A]` with distinct keys yields the count-3 group before the
count-1 group. -/
theorem claim_C4_dedup_order (entries : List LogEntry) :
    List.Pairwise (fun a b => b.count ≤ a.count) (deduplicateMessages entries)
    ∧ (∀ c : Nat,
        ((deduplicateMessages entries).filter fun q => q.count = c).map (·.normalized)
          = (firstSeenKeys entries).filter fun k => countKey entries k = c)
    ∧ deduplicateMessages [] = []
    ∧ deduplicateMessages
        [⟨"t1", "h", "v", "mA", "error", "alpha"⟩,
         ⟨"t2", "h", "v", "mA", "error", "alpha"⟩,
         ⟨"t3", "h", "v", "mB", "warning", "beta"⟩,
         ⟨"t4", "h", "v", "mC", "error", "alpha"⟩]
        = [⟨"alpha", 3, ["alpha", "alpha", "alpha"], "mA", "error"⟩,
           ⟨"beta", 1, ["beta"], "mB", "warning"⟩] := by
  refine ⟨?_, ?_, by decide, by decide⟩
  · rw [deduplicateMessages_eq]
    have hs := sortOrd_pairwise (fun a b : String × Nat => b.2 < a.2)
      cntLt_asymm cntLt_trans2 (counterSpec entries)
    refine List.Pairwise.map _ ?_ hs
    intro a b hab
    simp only [decide_eq_false_iff_not, not_lt] at hab
    exact hab
  · intro c
    rw [deduplicateMessages_eq, filter_map_comm, List.map_map]
    have h1 : (fun kc : String × Nat =>
        decide ((mkDedup entries kc).count = c)) = fun kc : String × Nat =>
          decide (kc.2 = c) := rfl
    have h2 : ((fun q : DedupPattern => q.normalized) ∘ mkDedup entries)
        = fun kc : String × Nat => kc.1 := rfl
    rw [h1, h2]
    have hstable : (mostCommon (counterSpec entries)).filter
        (fun kc : String × Nat => decide (kc.2 = c))
          = (counterSpec entries).filter fun kc : String × Nat => decide (kc.2 = c) :=
      sortOrd_filter (fun a b : String × Nat => b.2 < a.2) _
        cntLt_asymm cntLt_trans2
        (by
          intro x y hx hy
          simp only [decide_eq_true_eq] at hx hy
          simp only [decide_eq_false_iff_not]
          omega) (counterSpec entries)
    rw [hstable, counterSpec, filter_map_comm, List.map_map]
    have h3 : ((fun kc : String × Nat => kc.1) ∘ fun k => (k, countKey entries k))
        = fun k : String => k := rfl
    rw [h3]
    exact List.map_id _

/-- C7: each group keeps at most 5 samples — exactly the first 5 raw
messages of its key in input order — and takes module and level from the
first entry observed for the key. -/
theorem claim_C7_samples (entries : List LogEntry) :
    ∀ q ∈ deduplicateMessages entries,
      q.samples = ((entries.filter fun e => entryKey e = q.normalized).map
          (·.message)).take 5
      ∧ q.samples.length ≤ 5
      ∧ ∃ e, entries.find? (fun e₁ => entryKey e₁ = q.normalized) = some e
          ∧ q.module = e.module ∧ q.level = e.level := by
  intro q hq
  rw [deduplicateMessages_eq] at hq
  rcases List.mem_map.mp hq with ⟨kc, hkc, rfl⟩
  have hkc₁ : kc ∈ counterSpec entries :=
    (sortOrd_perm _ (counterSpec entries)).mem_iff.mp hkc
  rcases List.mem_map.mp hkc₁ with ⟨k, hk, rfl⟩
  have hnd : (firstSeenKeys entries).Nodup := keepFirst_nodup _
  have hsam : lookupSamples k (samplesSpec entries) = samplesKey entries k := by
    rw [samplesSpec]
    exact lookupSamples_map (firstSeenKeys entries) _ hnd k hk
  refine ⟨?_, ?_, ?_⟩
  · show lookupSamples k (samplesSpec entries) = _
    rw [hsam, samplesKey]
    rfl
  · show (lookupSamples k (samplesSpec entries)).length ≤ 5
    rw [hsam, samplesKey, List.length_take, MAX_SAMPLES_PER_PATTERN]
    omega
  · have hex : ∃ e ∈ entries, entryKey e = k := by
      have : k ∈ entries.map entryKey := (mem_keepFirst k _).mp hk
      rcases List.mem_map.mp this with ⟨e, he, hke⟩
      exact ⟨e, he, hke⟩
    have hsome : (entries.find? fun e₁ => decide (entryKey e₁ = k)).isSome := by
      rw [List.find?_isSome]
      rcases hex with ⟨e, he, hke⟩
      exact ⟨e, he, by simp [hke]⟩
    rcases Option.isSome_iff_exists.mp hsome with ⟨e, he⟩
    refine ⟨e, he, ?_, ?_⟩
    · show findModule entries k = e.module
      rw [findModule]
      have : (entries.find? fun e₁ => normalizeMessage e₁.message = k) = some e := he
      rw [this]
      rfl
    · show findLevel entries k = e.level
      rw [findLevel]
      have : (entries.find? fun e₁ => normalizeMessage e₁.message = k) = some e := he
      rw [this]
      rfl

/-- C7 at a concrete input: six entries share one key, only the first
five messages are retained, in input order. -/
theorem claim_C7_samples_witness :
    let entries : List LogEntry :=
      [⟨"t1", "h", "v", "m", "error", "one"⟩,
       ⟨"t2", "h", "v", "m", "error", "one"⟩,
       ⟨"t3", "h", "v", "m", "error", "one"⟩,
       ⟨"t4", "h", "v", "m", "error", "one"⟩,
       ⟨"t5", "h", "v", "m", "error", "one"⟩,
       ⟨"t6", "h", "v", "m", "error", "one"⟩]
    let q : DedupPattern := ⟨"one", 6, ["one", "one", "one", "one", "one"], "m", "error"⟩
    q.samples = ((entries.filter fun e => entryKey e = q.normalized).map
        (·.message)).take 5
    ∧ q.samples.length ≤ 5
    ∧ ∃ e, entries.find? (fun e₁ => entryKey e₁ = q.normalized) = some e
        ∧ q.module = e.module ∧ q.level = e.level := by
  intro entries q
  exact claim_C7_samples entries q (by decide)

/-- C8: the multiset of (normalized key, occurrence count) pairs produced
by `deduplicate` is invariant under permutation of the input entries. -/
theorem claim_C8_perm_invariant (e₁ e₂ : List LogEntry) (h : e₁.Perm e₂) :
    ((deduplicateMessages e₁).map fun q => (q.normalized, q.count)).Perm
      ((deduplicateMessages e₂).map fun q => (q.normalized, q.count)) := by
  have hpair : ∀ entries : List LogEntry,
      ((deduplicateMessages entries).map fun q => (q.normalized, q.count))
        = mostCommon (counterSpec entries) := by
    intro entries
    rw [deduplicateMessages_eq, List.map_map]
    have hfn : ((fun q : DedupPattern => (q.normalized, q.count)) ∘ mkDedup entries)
        = fun kc : String × Nat => kc := rfl
    rw [hfn]
    exact List.map_id _
  rw [hpair, hpair]
  have hperm : (counterSpec e₁).Perm (counterSpec e₂) := by
    rw [counterSpec, counterSpec, ← countKey_congr h]
    exact (firstSeenKeys_perm h).map _
  exact ((sortOrd_perm _ _).trans hperm).trans (sortOrd_perm _ _).symm

/-- C6: the classifier hands back the oracle's clusters sorted by severity
rank ascending (fatal=0, error=1, warning=2, other=3), then occurrence
count descending, truncated to at most 3; with equal counts the
severities `[warning, fatal, error]` come out `[fatal, error, warning]`. -/
theorem claim_C6_classifier_sort (cs : List LogCluster) :
    (clusterPost cs).length ≤ 3
    ∧ (sortClusters cs).Perm cs
    ∧ clusterPost cs = (sortClusters cs).take 3
    ∧ List.Pairwise (fun a b =>
        severityRank a.severity < severityRank b.severity
        ∨ (severityRank a.severity = severityRank b.severity
            ∧ b.occurrence_count ≤ a.occurrence_count)) (clusterPost cs)
    ∧ clusterPost
        [⟨"w", "", "", "", "warning", [], 7, false, none⟩,
         ⟨"f", "", "", "", "fatal", [], 7, false, none⟩,
         ⟨"e", "", "", "", "error", [], 7, false, none⟩]
      = [⟨"f", "", "", "", "fatal", [], 7, false, none⟩,
         ⟨"e", "", "", "", "error", [], 7, false, none⟩,
         ⟨"w", "", "", "", "warning", [], 7, false, none⟩] := by
  refine ⟨?_, sortOrd_perm _ _, rfl, ?_, by decide⟩
  · rw [clusterPost]
    exact List.length_take_le _ _
  · have hp := sortOrd_pairwise clusterKeyLt clusterKeyLt_asymm
      clusterKeyLt_trans2 cs
    have hp₂ : (clusterPost cs).Pairwise fun a b => clusterKeyLt b a = false :=
      hp.sublist (List.take_sublist _ _)
    refine hp₂.imp ?_
    intro a b hab
    simp only [clusterKeyLt, Bool.or_eq_false_iff, Bool.and_eq_false_iff,
      decide_eq_false_iff_not] at hab
    omega

/-- C9: the oracle client makes `len(RETRY_DELAYS) = 3` attempts with the
strictly increasing delay table `[2, 5, 15]`, returning the first
schema-conforming result and raising the final error when every attempt
fails; the sleeps actually performed before attempts 2 and 3 are 2s and
5s. -/
theorem claim_C9_retry (f : Nat → Except String String) :
    RETRY_DELAYS = [2, 5, 15]
    ∧ List.Chain' (· < ·) RETRY_DELAYS
    ∧ (∀ v, f 1 = .ok v → createWithRetries f = (some (.ok v), []))
    ∧ (∀ e v, f 1 = .error e → f 2 = .ok v →
        createWithRetries f = (some (.ok v), [2]))
    ∧ (∀ e₁ e₂ v, f 1 = .error e₁ → f 2 = .error e₂ → f 3 = .ok v →
        createWithRetries f = (some (.ok v), [2, 5]))
    ∧ (∀ e₁ e₂ e₃, f 1 = .error e₁ → f 2 = .error e₂ → f 3 = .error e₃ →
        createWithRetries f = (some (.error e₃), [2, 5])) := by
  refine ⟨rfl, by simp [RETRY_DELAYS, List.chain'_cons], ?_, ?_, ?_, ?_⟩
  · intro v h1
    show retryLoop f 3 [(1, 2), (2, 5), (3, 15)] = _
    simp [retryLoop, h1]
  · intro e v h1 h2
    show retryLoop f 3 [(1, 2), (2, 5), (3, 15)] = _
    simp [retryLoop, h1, h2]
  · intro e₁ e₂ v h1 h2 h3
    show retryLoop f 3 [(1, 2), (2, 5), (3, 15)] = _
    simp [retryLoop, h1, h2, h3]
  · intro e₁ e₂ e₃ h1 h2 h3
    show retryLoop f 3 [(1, 2), (2, 5), (3, 15)] = _
    simp [retryLoop, h1, h2, h3]

/-- C9 at a concrete outcome function: every attempt fails, the client
raises the last error after sleeping 2s and 5s. -/
theorem claim_C9_retry_witness :
    createWithRetries (fun _ => .error "bad json")
      = (some (.error "bad json"), [2, 5]) :=
  (claim_C9_retry fun _ => .error "bad json").2.2.2.2.2
    "bad json" "bad json" "bad json" rfl rfl rfl

/-! ## Facts about the fix-decision filter -/

theorem newFixableLoop_eq_filter (bE pE : String → Bool) (env : String) :
    ∀ l : List LogCluster, newFixableLoop bE pE env l
      = l.filter fun c => !bE (branchName env c.slug)
          && !pE (branchName env c.slug) := by
  intro l
  induction l with
  | nil => rfl
  | cons c rest ih =>
      simp only [newFixableLoop, List.filter_cons]
      cases hb : bE (branchName env c.slug) <;>
        cases hp : pE (branchName env c.slug) <;> simp [hb, hp, ih]

theorem mem_existingSlugs (store : List PatternRow) (s : String) :
    s ∈ existingSlugs store ↔ ∃ r ∈ store, r.slug = s ∧ r.status ≠ "closed" := by
  rw [existingSlugs, getOpenPatterns, List.map_map]
  simp only [List.mem_map, List.mem_filter, Function.comp]
  constructor
  · rintro ⟨r, ⟨hr, hst⟩, rfl⟩
    exact ⟨r, hr, rfl, by simpa using hst⟩
  · rintro ⟨r, hr, rfl, hst⟩
    exact ⟨r, ⟨hr, by simpa using hst⟩, rfl⟩

/-- C1: a cluster whose slug sits in the persisted store with status other
than `closed` is never in the eligible-for-remediation set, whatever the
live branch and PR existence checks return. -/
theorem claim_C1_idempotency_guard (bE pE : String → Bool) (env : String)
    (cap : Nat) (clusters : List LogCluster) (store : List PatternRow)
    (c : LogCluster)
    (h : ∃ r ∈ store, r.slug = c.slug ∧ r.status ≠ "closed") :
    c ∉ fixableClusters clusters store
    ∧ c ∉ newFixableLoop bE pE env (fixableClusters clusters store)
    ∧ c ∉ remediatedClusters bE pE env cap clusters store := by
  have hslug : c.slug ∈ existingSlugs store := (mem_existingSlugs store c.slug).mpr h
  have h1 : c ∉ fixableClusters clusters store := by
    intro hc
    have hcond := List.of_mem_filter hc
    rw [Bool.and_eq_true, Bool.not_eq_true'] at hcond
    have hcontains : (existingSlugs store).contains c.slug = true :=
      List.elem_iff.mpr hslug
    rw [hcond.2] at hcontains
    exact Bool.false_ne_true hcontains
  have h2 : c ∉ newFixableLoop bE pE env (fixableClusters clusters store) := by
    intro hc
    rw [newFixableLoop_eq_filter] at hc
    exact h1 (List.mem_of_mem_filter hc)
  have h3 : c ∉ remediatedClusters bE pE env cap clusters store := by
    intro hc
    rw [remediatedClusters] at hc
    exact h2 (List.take_subset _ _ hc)
  exact ⟨h1, h2, h3⟩

/-- C1 at a concrete input: the slug is open in the store, no live branch
or PR exists, and the cluster is still excluded everywhere. -/
theorem claim_C1_idempotency_guard_witness :
    let store : List PatternRow :=
      [⟨"dup-slug", "agent-prod/dup-slug", "u", "open", "s", []⟩]
    let c : LogCluster := ⟨"dup-slug", "t", "s", "m", "error", [], 4, true, none⟩
    c ∉ fixableClusters [c] store
    ∧ c ∉ newFixableLoop (fun _ => false) (fun _ => false) "prod"
        (fixableClusters [c] store)
    ∧ c ∉ remediatedClusters (fun _ => false) (fun _ => false) "prod" 3 [c] store := by
  intro store c
  exact claim_C1_idempotency_guard (fun _ => false) (fun _ => false) "prod" 3 [c]
    store c ⟨⟨"dup-slug", "agent-prod/dup-slug", "u", "open", "s", []⟩,
      by decide, rfl, by decide⟩

/-- C5: the safety-net loop drops exactly the clusters whose deterministic
branch name already exists or has an open PR, and the remediated list is
the first `max_prs_per_run` survivors in rank order; with 5 eligible
clusters and a cap of 3, exactly the first 3 are processed. -/
theorem claim_C5_branch_pr_filter (bE pE : String → Bool) (env : String)
    (cap : Nat) (clusters : List LogCluster) (store : List PatternRow) :
    newFixableLoop bE pE env (fixableClusters clusters store)
      = (fixableClusters clusters store).filter
          (fun c => !bE (branchName env c.slug) && !pE (branchName env c.slug))
    ∧ (∀ c ∈ remediatedClusters bE pE env cap clusters store,
        bE (branchName env c.slug) = false ∧ pE (branchName env c.slug) = false)
    ∧ remediatedClusters bE pE env cap clusters store
        = ((fixableClusters clusters store).filter
            (fun c => !bE (branchName env c.slug)
              && !pE (branchName env c.slug))).take cap
    ∧ remediatedClusters (fun _ => false) (fun _ => false) "prod" 3
        [⟨"s1", "", "", "", "fatal", [], 9, true, none⟩,
         ⟨"s2", "", "", "", "fatal", [], 8, true, none⟩,
         ⟨"s3", "", "", "", "error", [], 7, true, none⟩,
         ⟨"s4", "", "", "", "error", [], 6, true, none⟩,
         ⟨"s5", "", "", "", "warning", [], 5, true, none⟩] []
      = [⟨"s1", "", "", "", "fatal", [], 9, true, none⟩,
         ⟨"s2", "", "", "", "fatal", [], 8, true, none⟩,
         ⟨"s3", "", "", "", "error", [], 7, true, none⟩] := by
  refine ⟨newFixableLoop_eq_filter bE pE env _, ?_, ?_, by decide⟩
  · intro c hc
    rw [remediatedClusters] at hc
    have hmem := List.take_subset _ _ hc
    rw [newFixableLoop_eq_filter] at hmem
    have hcond := List.of_mem_filter hmem
    rw [Bool.and_eq_true, Bool.not_eq_true', Bool.not_eq_true'] at hcond
    exact hcond
  · rw [remediatedClusters, newFixableLoop_eq_filter]

/-- C5 at a concrete input: the first ranked survivor has no existing
branch and no open PR. -/
theorem claim_C5_branch_pr_filter_witness :
    (fun _ => false : String → Bool) (branchName "prod" "s1") = false
    ∧ (fun _ => false : String → Bool) (branchName "prod" "s1") = false :=
  (claim_C5_branch_pr_filter (fun _ => false) (fun _ => false) "prod" 3
      [⟨"s1", "", "", "", "fatal", [], 9, true, none⟩] []).2.1
    ⟨"s1", "", "", "", "fatal", [], 9, true, none⟩ (by decide)

/-- C8 at a concrete pair of permuted inputs. -/
theorem claim_C8_perm_invariant_witness :
    let e₁ : List LogEntry :=
      [⟨"t1", "h", "v", "m", "error", "aa"⟩, ⟨"t2", "h", "v", "m", "warning", "bb"⟩]
    let e₂ : List LogEntry :=
      [⟨"t2", "h", "v", "m", "warning", "bb"⟩, ⟨"t1", "h", "v", "m", "error", "aa"⟩]
    ((deduplicateMessages e₁).map fun q => (q.normalized, q.count)).Perm
      ((deduplicateMessages e₂).map fun q => (q.normalized, q.count)) := by
  intro e₁ e₂
  exact claim_C8_perm_invariant e₁ e₂ (by decide)

/-! ## Recursion equations for the substitution engine -/

theorem substF_cons_some (M : Bool → List Char → Option Nat) (rep : List Char)
    (fuel : Nat) (pw : Bool) (c : Char) (cs : List Char) (n : Nat)
    (hM : M pw (c :: cs) = some (n + 1)) :
    substF M rep (fuel + 1) pw (c :: cs) =
      rep ++ substF M rep fuel (isWordC ((c :: cs).getD n c)) (cs.drop n) := by
  simp only [substF, hM]

theorem substF_cons_none (M : Bool → List Char → Option Nat) (rep : List Char)
    (fuel : Nat) (pw : Bool) (c : Char) (cs : List Char)
    (hM : M pw (c :: cs) = none) :
    substF M rep (fuel + 1) pw (c :: cs) = c :: substF M rep fuel (isWordC c) cs := by
  simp only [substF, hM]

theorem substF_fuel (M : Bool → List Char → Option Nat) (rep : List Char) :
    ∀ (f₁ : Nat) (l : List Char) (f₂ : Nat) (pw : Bool),
      l.length ≤ f₁ → l.length ≤ f₂ →
      substF M rep f₁ pw l = substF M rep f₂ pw l := by
  intro f₁
  induction f₁ with
  | zero =>
      intro l f₂ pw h1 _
      have hl : l = [] := List.length_eq_zero.mp (Nat.le_zero.mp h1)
      subst hl
      cases f₂ <;> rfl
  | succ g ih =>
      intro l f₂ pw h1 h2
      cases l with
      | nil => cases f₂ <;> rfl
      | cons c cs =>
          cases f₂ with
          | zero => simp at h2
          | succ g₂ =>
              cases hM : M pw (c :: cs) with
              | none =>
                  rw [substF_cons_none M rep g pw c cs hM,
                    substF_cons_none M rep g₂ pw c cs hM,
                    ih cs g₂ _ (by simpa using h1) (by simpa using h2)]
              | some n =>
                  cases n with
                  | zero =>
                      have e₁ : substF M rep (g + 1) pw (c :: cs)
                          = c :: substF M rep g (isWordC c) cs := by
                        simp only [substF, hM]
                      have e₂ : substF M rep (g₂ + 1) pw (c :: cs)
                          = c :: substF M rep g₂ (isWordC c) cs := by
                        simp only [substF, hM]
                      rw [e₁, e₂,
                        ih cs g₂ _ (by simpa using h1) (by simpa using h2)]
                  | succ m =>
                      rw [substF_cons_some M rep g pw c cs m hM,
                        substF_cons_some M rep g₂ pw c cs m hM,
                        ih (cs.drop m) g₂ _
                          (by rw [List.length_drop]; simp at h1; omega)
                          (by rw [List.length_drop]; simp at h2; omega)]

/-- The substitution scan from an arbitrary previous-character context. -/
def substP (M : Bool → List Char → Option Nat) (rep : List Char)
    (pw : Bool) (l : List Char) : List Char :=
  substF M rep l.length pw l

theorem subst_eq_substP (M : Bool → List Char → Option Nat) (rep l) :
    subst M rep l = substP M rep false l := rfl

theorem substP_cons_some (M : Bool → List Char → Option Nat) (rep : List Char)
    (pw : Bool) (c : Char) (cs : List Char) (n : Nat)
    (hM : M pw (c :: cs) = some (n + 1)) :
    substP M rep pw (c :: cs) =
      rep ++ substP M rep (isWordC ((c :: cs).getD n c)) (cs.drop n) := by
  rw [substP, show (c :: cs).length = cs.length + 1 from rfl,
    substF_cons_some M rep cs.length pw c cs n hM, substP,
    substF_fuel M rep cs.length (cs.drop n) (cs.drop n).length _
      (by rw [List.length_drop]; omega) (le_refl _)]

theorem substP_cons_none (M : Bool → List Char → Option Nat) (rep : List Char)
    (pw : Bool) (c : Char) (cs : List Char)
    (hM : M pw (c :: cs) = none) :
    substP M rep pw (c :: cs) = c :: substP M rep (isWordC c) cs := by
  rw [substP, show (c :: cs).length = cs.length + 1 from rfl,
    substF_cons_none M rep cs.length pw c cs hM, substP]

theorem matcher_nil_none (M : Bool → List Char → Option Nat)
    (hb : ∀ pw l n, M pw l = some n → 1 ≤ n ∧ n ≤ l.length) (pw : Bool) :
    M pw [] = none := by
  cases hM : M pw [] with
  | none => rfl
  | some n =>
      have := hb pw [] n hM
      simp at this
      omega

/-- Splitting a substitution scan at a space that no match can cross. -/
theorem substP_append_space (M : Bool → List Char → Option Nat) (rep : List Char)
    (ys : List Char)
    (hsp : ∀ pw xs, M pw (xs ++ ' ' :: ys) = M pw xs)
    (hb : ∀ pw l n, M pw l = some n → 1 ≤ n ∧ n ≤ l.length) :
    ∀ (bound : Nat) (xs : List Char) (pw : Bool), xs.length ≤ bound →
      substP M rep pw (xs ++ ' ' :: ys) =
        substP M rep pw xs ++ ' ' :: substP M rep false ys := by
  have hword : isWordC ' ' = false := rfl
  have base : ∀ pw : Bool, substP M rep pw (' ' :: ys)
      = ' ' :: substP M rep false ys := by
    intro pw
    have hnone : M pw (' ' :: ys) = none := by
      have := hsp pw []
      rw [List.nil_append] at this
      rw [this]
      exact matcher_nil_none M hb pw
    rw [substP_cons_none M rep pw ' ' ys hnone, hword]
  intro bound
  induction bound with
  | zero =>
      intro xs pw h
      have hl : xs = [] := List.length_eq_zero.mp (Nat.le_zero.mp h)
      subst hl
      rw [List.nil_append, base, substP]
      rfl
  | succ g ih =>
      intro xs pw h
      cases xs with
      | nil =>
          rw [List.nil_append, base, substP]
          rfl
      | cons c xs₁ =>
          have hM := hsp pw (c :: xs₁)
          cases hv : M pw (c :: xs₁) with
          | none =>
              have hn : M pw (c :: (xs₁ ++ ' ' :: ys)) = none := by
                rw [← List.cons_append, hM, hv]
              rw [List.cons_append, substP_cons_none M rep pw c _ hn,
                substP_cons_none M rep pw c xs₁ hv,
                ih xs₁ (isWordC c) (by simpa using h)]
              rfl
          | some n =>
              rcases hb pw (c :: xs₁) n hv with ⟨hn1, hn2⟩
              obtain ⟨m, rfl⟩ : ∃ m, n = m + 1 := ⟨n - 1, by omega⟩
              have hm : m ≤ xs₁.length := by
                simp at hn2
                omega
              have hs : M pw (c :: (xs₁ ++ ' ' :: ys)) = some (m + 1) := by
                rw [← List.cons_append, hM, hv]
              have hgetD : (c :: (xs₁ ++ ' ' :: ys)).getD m c
                  = (c :: xs₁).getD m c := by
                rw [show c :: (xs₁ ++ ' ' :: ys) = (c :: xs₁) ++ ' ' :: ys from rfl]
                rw [List.getD_eq_getD_get?, List.getD_eq_getD_get?,
                  List.get?_append (by simp; omega)]
              have hdrop : (xs₁ ++ ' ' :: ys).drop m = xs₁.drop m ++ ' ' :: ys := by
                rw [List.drop_append_eq_append_drop,
                  show m - xs₁.length = 0 from by omega, List.drop_zero]
              rw [List.cons_append, substP_cons_some M rep pw c _ m hs,
                substP_cons_some M rep pw c xs₁ m hv, hgetD, hdrop,
                ih (xs₁.drop m) _
                  (by rw [List.length_drop]; simp at h; omega)]
              rw [List.append_assoc]

/-! ## Run-length and shape helpers -/

theorem runLen_le_length (p : Char → Bool) : ∀ l : List Char, runLen p l ≤ l.length := by
  intro l
  induction l with
  | nil => simp [runLen]
  | cons c cs ih =>
      rw [runLen]
      cases h : p c <;> simp [h]
      omega

theorem runLen_append_space (p : Char → Bool) (hp : p ' ' = false) :
    ∀ xs ys, runLen p (xs ++ ' ' :: ys) = runLen p xs := by
  intro xs ys
  induction xs with
  | nil => simp [runLen, hp]
  | cons c cs ih =>
      rw [List.cons_append, runLen, runLen, ih]

theorem runLen_all (p : Char → Bool) :
    ∀ l : List Char, l.all p = true → runLen p l = l.length := by
  intro l
  induction l with
  | nil => simp [runLen]
  | cons c cs ih =>
      intro h
      rw [List.all_cons, Bool.and_eq_true] at h
      rw [runLen, if_pos h.1, ih h.2, List.length_cons]

theorem nonWordAt_append_space :
    ∀ l ys, nonWordAt (l ++ ' ' :: ys) = nonWordAt l := by
  intro l ys
  cases l with
  | nil => rfl
  | cons c cs => rfl

theorem matchesShape_append_split (B : List (Char → Bool)) :
    ∀ (A : List (Char → Bool)) (l : List Char),
      matchesShape (A ++ B) l = (matchesShape A l && matchesShape B (l.drop A.length)) := by
  intro A
  induction A with
  | nil => intro l; simp [matchesShape]
  | cons p A₁ ih =>
      intro l
      cases l with
      | nil =>
          rw [List.cons_append, matchesShape]
          cases B with
          | nil => simp [matchesShape]
          | cons q B₁ => simp [matchesShape]
      | cons c cs =>
          rw [List.cons_append, matchesShape, matchesShape, ih cs,
            List.length_cons, List.drop_succ_cons, Bool.and_assoc]

theorem matchesShape_length (ps : List (Char → Bool)) :
    ∀ l, matchesShape ps l = true → ps.length ≤ l.length := by
  induction ps with
  | nil => intro l _; simp
  | cons p ps₁ ih =>
      intro l h
      cases l with
      | nil => rw [matchesShape] at h; exact absurd h (by simp)
      | cons c cs =>
          rw [matchesShape, Bool.and_eq_true] at h
          have := ih cs h.2
          simp
          omega

theorem matchesShape_short (ps : List (Char → Bool)) (l : List Char)
    (h : l.length < ps.length) : matchesShape ps l = false := by
  cases hm : matchesShape ps l with
  | false => rfl
  | true =>
      have := matchesShape_length ps l hm
      omega

theorem matchesShape_append_long (ps : List (Char → Bool)) :
    ∀ (xs zs : List Char), ps.length ≤ xs.length →
      matchesShape ps (xs ++ zs) = matchesShape ps xs := by
  induction ps with
  | nil => intro xs zs _; simp [matchesShape]
  | cons p ps₁ ih =>
      intro xs zs h
      cases xs with
      | nil => simp at h
      | cons c cs =>
          rw [List.cons_append, matchesShape, matchesShape,
            ih cs zs (by simp at h; omega)]

theorem matchesShape_space_mem (ps : List (Char → Bool))
    (hps : ∀ p ∈ ps, p ' ' = false) :
    ∀ (xs ys : List Char), xs.length < ps.length →
      matchesShape ps (xs ++ ' ' :: ys) = false := by
  intro xs ys hlen
  have hsplit : ps = ps.take xs.length ++ ps.drop xs.length :=
    (List.take_append_drop _ _).symm
  rw [hsplit, matchesShape_append_split]
  have htl : (ps.take xs.length).length = xs.length :=
    List.length_take_of_le (by omega)
  rw [htl]
  have hdrop : (xs ++ ' ' :: ys).drop xs.length = ' ' :: ys := by
    rw [List.drop_append_eq_append_drop, List.drop_length,
      show xs.length - xs.length = 0 from by omega, List.drop_zero,
      List.nil_append]
  rw [hdrop]
  have hmem : ∃ p ps₁, ps.drop xs.length = p :: ps₁ ∧ p ∈ ps := by
    have h1 : xs.length < ps.length := hlen
    rw [List.drop_eq_getElem_cons h1]
    exact ⟨ps[xs.length], ps.drop (xs.length + 1), rfl, ps.getElem_mem h1⟩
  rcases hmem with ⟨p, ps₁, hd, hp⟩
  rw [hd, matchesShape, hps p hp, Bool.false_and, Bool.and_false]

/-! ## Space lemmas and bounds for the five matchers -/

theorem matchHex_append_space (pw : Bool) (xs ys : List Char) :
    matchHex pw (xs ++ ' ' :: ys) = matchHex pw xs := by
  have hx : (' ' = 'x') = False := by simp
  have h0 : (' ' = '0') = False := by simp
  have hhex : isHexC ' ' = false := by decide
  rcases xs with _ | ⟨c₁, _ | ⟨c₂, rest⟩⟩
  · rcases ys with _ | ⟨y, ys₁⟩ <;> simp [matchHex, h0]
  · simp [matchHex, hx]
  · simp only [List.cons_append, matchHex,
      runLen_append_space isHexC hhex rest ys]

theorem matchSeq_append_space (pw : Bool) (xs ys : List Char) :
    matchSeq pw (xs ++ ' ' :: ys) = matchSeq pw xs := by
  have hs : (' ' = 's') = False := by simp
  have he : (' ' = 'e') = False := by simp
  have hq : (' ' = 'q') = False := by simp
  have heq : (' ' = '=') = False := by simp
  have hdig : isDigitC ' ' = false := by decide
  rcases xs with _ | ⟨c₁, _ | ⟨c₂, _ | ⟨c₃, _ | ⟨c₄, rest⟩⟩⟩⟩
  · rcases ys with _ | ⟨y₁, _ | ⟨y₂, _ | ⟨y₃, ys₁⟩⟩⟩ <;> simp [matchSeq, hs]
  · rcases ys with _ | ⟨y₁, _ | ⟨y₂, ys₁⟩⟩ <;> simp [matchSeq, he]
  · rcases ys with _ | ⟨y₁, ys₁⟩ <;> simp [matchSeq, hq]
  · simp [matchSeq, heq]
  · simp only [List.cons_append, matchSeq,
      runLen_append_space isDigitC hdig rest ys]

theorem matchHash_append_space (pw : Bool) (xs ys : List Char) :
    matchHash pw (xs ++ ' ' :: ys) = matchHash pw xs := by
  have hhex : isHexC ' ' = false := by decide
  rw [matchHash, matchHash, runLen_append_space isHexC hhex xs ys]
  have hn : runLen isHexC xs ≤ xs.length := runLen_le_length _ _
  have hdrop : (xs ++ ' ' :: ys).drop (runLen isHexC xs)
      = xs.drop (runLen isHexC xs) ++ ' ' :: ys := by
    rw [List.drop_append_eq_append_drop,
      show runLen isHexC xs - xs.length = 0 from by omega, List.drop_zero]
  rw [hdrop, nonWordAt_append_space]

theorem matchNum_append_space (pw : Bool) (xs ys : List Char) :
    matchNum pw (xs ++ ' ' :: ys) = matchNum pw xs := by
  have hdig : isDigitC ' ' = false := by decide
  rw [matchNum, matchNum, runLen_append_space isDigitC hdig xs ys]
  have hn : runLen isDigitC xs ≤ xs.length := runLen_le_length _ _
  have hdrop : (xs ++ ' ' :: ys).drop (runLen isDigitC xs)
      = xs.drop (runLen isDigitC xs) ++ ' ' :: ys := by
    rw [List.drop_append_eq_append_drop,
      show runLen isDigitC xs - xs.length = 0 from by omega, List.drop_zero]
  rw [hdrop, nonWordAt_append_space]

/-- The first ten predicates of the timestamp shape. -/
def tsPre10 : List (Char → Bool) :=
  [isDigitC, isDigitC, isDigitC, isDigitC, (· = '-'),
   isDigitC, isDigitC, (· = '-'), isDigitC, isDigitC]

/-- The last eight predicates of the timestamp shape. -/
def tsTail8Shape : List (Char → Bool) :=
  [isDigitC, isDigitC, (· = ':'), isDigitC, isDigitC, (· = ':'),
   isDigitC, isDigitC]

theorem tsShape_decomp :
    tsShape = tsPre10 ++ (fun c => c = 'T' || c = ' ') :: tsTail8Shape := rfl

/-- The text ahead looks like `\d\d:\d\d:\d\d`, i.e. could complete a
timestamp match whose `[T ]` slot is the separating space. -/
def tsTail8 (l : List Char) : Bool := matchesShape tsTail8Shape l

theorem tsPre10_space : ∀ p ∈ tsPre10, p ' ' = false := by
  intro p hp
  fin_cases hp <;> decide

theorem tsTail8Shape_space : ∀ p ∈ tsTail8Shape, p ' ' = false := by
  intro p hp
  fin_cases hp <;> decide

theorem matchTs_append_space (ys : List Char) (hys : tsTail8 ys = false)
    (pw : Bool) (xs : List Char) :
    matchTs pw (xs ++ ' ' :: ys) = matchTs pw xs := by
  have hcond : matchesShape tsShape (xs ++ ' ' :: ys) = matchesShape tsShape xs := by
    by_cases hL : 19 ≤ xs.length
    · exact matchesShape_append_long tsShape xs (' ' :: ys)
        (by rw [show tsShape.length = 19 from rfl]; omega)
    · rw [matchesShape_short tsShape xs (by rw [show tsShape.length = 19 from rfl]; omega)]
      by_cases h10 : xs.length < 10
      · rw [tsShape_decomp, matchesShape_append_split]
        rw [matchesShape_space_mem tsPre10 tsPre10_space xs ys
          (by rw [show tsPre10.length = 10 from rfl]; omega)]
        rfl
      · by_cases heq10 : xs.length = 10
        · rw [tsShape_decomp, matchesShape_append_split]
          have hdrop : (xs ++ ' ' :: ys).drop tsPre10.length = ' ' :: ys := by
            rw [show tsPre10.length = 10 from rfl, ← heq10,
              List.drop_append_eq_append_drop, List.drop_length,
              show xs.length - xs.length = 0 from by omega, List.drop_zero,
              List.nil_append]
          rw [hdrop, matchesShape]
          have : tsTail8 ys = matchesShape tsTail8Shape ys := rfl
          rw [← this, hys]
          simp
        · -- 10 < xs.length < 19: the space falls into the tail-8 region
          rw [tsShape_decomp, matchesShape_append_split]
          have h11 : 10 < xs.length := by omega
          have hdrop : (xs ++ ' ' :: ys).drop tsPre10.length
              = xs.drop 10 ++ ' ' :: ys := by
            rw [show tsPre10.length = 10 from rfl,
              List.drop_append_eq_append_drop,
              show 10 - xs.length = 0 from by omega, List.drop_zero]
          rw [hdrop]
          have hcons : ∃ d rest, xs.drop 10 = d :: rest := by
            have hld : (xs.drop 10).length = xs.length - 10 := List.length_drop 10 xs
            cases hform : xs.drop 10 with
            | nil => rw [hform] at hld; simp at hld; omega
            | cons d rest => exact ⟨d, rest, rfl⟩
          rcases hcons with ⟨d, rest, hform⟩
          rw [hform, List.cons_append, matchesShape]
          have hrest : rest.length < tsTail8Shape.length := by
            have h1 : (xs.drop 10).length = xs.length - 10 := List.length_drop 10 xs
            rw [hform] at h1
            simp at h1
            rw [show tsTail8Shape.length = 8 from rfl]
            omega
          rw [matchesShape_space_mem tsTail8Shape tsTail8Shape_space rest ys hrest]
          simp
  rw [matchTs, matchTs, hcond]

theorem matchHex_bound (pw : Bool) (l : List Char) (n : Nat)
    (h : matchHex pw l = some n) : 1 ≤ n ∧ n ≤ l.length := by
  rcases l with _ | ⟨c₁, _ | ⟨c₂, rest⟩⟩
  · simp [matchHex] at h
  · simp [matchHex] at h
  · rw [matchHex] at h
    by_cases hc : (c₁ = '0' && c₂ = 'x') = true
    · rw [if_pos hc] at h
      by_cases hz : runLen isHexC rest = 0
      · rw [if_pos hz] at h
        simp at h
      · rw [if_neg hz] at h
        have hn : 2 + runLen isHexC rest = n := Option.some.inj h
        have hle := runLen_le_length isHexC rest
        simp only [List.length_cons]
        omega
    · rw [if_neg hc] at h
      simp at h

theorem matchSeq_bound (pw : Bool) (l : List Char) (n : Nat)
    (h : matchSeq pw l = some n) : 1 ≤ n ∧ n ≤ l.length := by
  rcases l with _ | ⟨c₁, _ | ⟨c₂, _ | ⟨c₃, _ | ⟨c₄, rest⟩⟩⟩⟩
  · simp [matchSeq] at h
  · simp [matchSeq] at h
  · simp [matchSeq] at h
  · simp [matchSeq] at h
  · rw [matchSeq] at h
    by_cases hc : (c₁ = 's' && c₂ = 'e' && c₃ = 'q' && c₄ = '=') = true
    · rw [if_pos hc] at h
      by_cases hz : runLen isDigitC rest = 0
      · rw [if_pos hz] at h
        simp at h
      · rw [if_neg hz] at h
        have hn : 4 + runLen isDigitC rest = n := Option.some.inj h
        have hle := runLen_le_length isDigitC rest
        simp only [List.length_cons]
        omega
    · rw [if_neg hc] at h
      simp at h

theorem matchTs_bound (pw : Bool) (l : List Char) (n : Nat)
    (h : matchTs pw l = some n) : 1 ≤ n ∧ n ≤ l.length := by
  rw [matchTs] at h
  by_cases hc : matchesShape tsShape l = true
  · rw [if_pos hc] at h
    have hlen := matchesShape_length tsShape l hc
    rw [show tsShape.length = 19 from rfl] at hlen
    have : n = 19 := (Option.some.inj h).symm
    omega
  · rw [if_neg hc] at h
    exact absurd h (by simp)

theorem matchHash_bound (pw : Bool) (l : List Char) (n : Nat)
    (h : matchHash pw l = some n) : 1 ≤ n ∧ n ≤ l.length := by
  rw [matchHash] at h
  cases pw with
  | true => exact absurd h (by simp)
  | false =>
      rw [if_neg Bool.false_ne_true] at h
      by_cases hc : (40 ≤ runLen isHexC l && runLen isHexC l ≤ 64
          && nonWordAt (l.drop (runLen isHexC l))) = true
      · rw [if_pos hc] at h
        have hle := runLen_le_length isHexC l
        simp only [Bool.and_eq_true, decide_eq_true_eq] at hc
        have : n = runLen isHexC l := (Option.some.inj h).symm
        omega
      · rw [if_neg hc] at h
        exact absurd h (by simp)

theorem matchNum_bound (pw : Bool) (l : List Char) (n : Nat)
    (h : matchNum pw l = some n) : 1 ≤ n ∧ n ≤ l.length := by
  rw [matchNum] at h
  cases pw with
  | true => exact absurd h (by simp)
  | false =>
      rw [if_neg Bool.false_ne_true] at h
      by_cases hc : (6 ≤ runLen isDigitC l
          && nonWordAt (l.drop (runLen isDigitC l))) = true
      · rw [if_pos hc] at h
        have hle := runLen_le_length isDigitC l
        simp only [Bool.and_eq_true, decide_eq_true_eq] at hc
        have : n = runLen isDigitC l := (Option.some.inj h).symm
        omega
      · rw [if_neg hc] at h
        exact absurd h (by simp)

/-! ## Message templates: literal words and volatile fields

A message class over which the volatile-field properties of the spec can
be stated: space-separated tokens, each either a fixed literal word or a
volatile field (hex literal, sequence marker, `T`-separated timestamp,
hash string, long digit run). -/

inductive Tok where
  | lit : List Char → Tok
  | hexTok : List Char → Tok
  | seqTok : List Char → Tok
  | tsTok : Char → Char → Char → Char → Char → Char → Char →
      Char → Char → Char → Char → Char → Char → Char → Tok
  | hashTok : List Char → Tok
  | numTok : List Char → Tok

/-- Characters allowed in a literal word: no digits, no space. -/
def litChar (c : Char) : Bool := !isDigitC c && !(c = ' ')

/-- Characters for the no-false-merging literal class: additionally no
hex letters and no strip-removable whitespace. -/
def plainChar (c : Char) : Bool := litChar c && !isHexC c && !isSpaceC c

def Tok.render : Tok → List Char
  | .lit s => s
  | .hexTok h => '0' :: 'x' :: h
  | .seqTok d => 's' :: 'e' :: 'q' :: '=' :: d
  | .tsTok a b c d e f g h i j k l m n =>
      [a, b, c, d, '-', e, f, '-', g, h, 'T', i, j, ':', k, l, ':', m, n]
  | .hashTok h => h
  | .numTok d => d

/-- Well-formedness of the volatile payloads.  The digit-run class
excludes lengths 40–64, which the hash pattern captures first. -/
def Tok.wfStrict : Tok → Bool
  | .lit s => decide (s ≠ []) && s.all litChar
  | .hexTok h => decide (h ≠ []) && h.all isHexC
  | .seqTok d => decide (d ≠ []) && d.all isDigitC
  | .tsTok a b c d e f g h i j k l m n =>
      [a, b, c, d, e, f, g, h, i, j, k, l, m, n].all isDigitC
  | .hashTok h => h.all isHexC && decide (40 ≤ h.length) && decide (h.length ≤ 64)
  | .numTok d => d.all isDigitC && decide (6 ≤ d.length)
      && (decide (d.length < 40) || decide (64 < d.length))

/-- The volatile classes exactly as the claim words them: a bare digit
run is any run of 6 or more digits. -/
def Tok.wfClaim : Tok → Bool
  | .numTok d => d.all isDigitC && decide (6 ≤ d.length)
  | t => t.wfStrict

/-- Same shape: equal constructors, equal literal words, payloads free. -/
def Tok.sameShape : Tok → Tok → Bool
  | .lit s, .lit t => s = t
  | .hexTok _, .hexTok _ => true
  | .seqTok _, .seqTok _ => true
  | .tsTok .., .tsTok .. => true
  | .hashTok _, .hashTok _ => true
  | .numTok _, .numTok _ => true
  | _, _ => false

/-- Same kinds: equal constructors, all contents free. -/
def Tok.kindEq : Tok → Tok → Bool
  | .lit _, .lit _ => true
  | .hexTok _, .hexTok _ => true
  | .seqTok _, .seqTok _ => true
  | .tsTok .., .tsTok .. => true
  | .hashTok _, .hashTok _ => true
  | .numTok _, .numTok _ => true
  | _, _ => false

def sameShapeL : List Tok → List Tok → Bool
  | [], [] => true
  | t₁ :: ts₁, t₂ :: ts₂ => t₁.sameShape t₂ && sameShapeL ts₁ ts₂
  | _, _ => false

def kindEqL : List Tok → List Tok → Bool
  | [], [] => true
  | t₁ :: ts₁, t₂ :: ts₂ => t₁.kindEq t₂ && kindEqL ts₁ ts₂
  | _, _ => false

/-- Join token texts, one space after each token. -/
def joinSp : List (List Char) → List Char
  | [] => []
  | x :: xs => x ++ ' ' :: joinSp xs

def renderToks (ts : List Tok) : List Char := joinSp (ts.map Tok.render)

/-! ## Identity of a substitution pass on texts it cannot match -/

theorem substP_id_of (M : Bool → List Char → Option Nat) (rep : List Char)
    (P : List Char → Prop)
    (hTail : ∀ c cs, P (c :: cs) → P cs)
    (hM : ∀ pw l, P l → M pw l = none) :
    ∀ (l : List Char) (pw : Bool), P l → substP M rep pw l = l := by
  intro l
  induction l with
  | nil => intro pw _; rfl
  | cons c cs ih =>
      intro pw hP
      rw [substP_cons_none M rep pw c cs (hM pw _ hP), ih _ (hTail c cs hP)]

theorem matchHex_none_noZero (pw : Bool) (l : List Char)
    (h : ∀ c ∈ l, (c = '0') = False) : matchHex pw l = none := by
  rcases l with _ | ⟨c₁, _ | ⟨c₂, rest⟩⟩
  · rfl
  · rfl
  · rw [matchHex, if_neg]
    simp only [Bool.and_eq_true, decide_eq_true_eq]
    rintro ⟨rfl, -⟩
    exact (h '0' (by simp)).mp rfl

theorem matchHex_none_noX (pw : Bool) (l : List Char)
    (h : ∀ c ∈ l, (c = 'x') = False) : matchHex pw l = none := by
  rcases l with _ | ⟨c₁, _ | ⟨c₂, rest⟩⟩
  · rfl
  · rfl
  · rw [matchHex, if_neg]
    simp only [Bool.and_eq_true, decide_eq_true_eq]
    rintro ⟨-, rfl⟩
    exact (h 'x' (by simp)).mp rfl

theorem runLen_zero_of_none (p : Char → Bool) (l : List Char)
    (h : ∀ c ∈ l, p c = false) : runLen p l = 0 := by
  cases l with
  | nil => rfl
  | cons c cs =>
      rw [runLen, if_neg]
      rw [h c (by simp)]
      simp

theorem matchSeq_none_noDigit (pw : Bool) (l : List Char)
    (h : ∀ c ∈ l, isDigitC c = false) : matchSeq pw l = none := by
  rcases l with _ | ⟨c₁, _ | ⟨c₂, _ | ⟨c₃, _ | ⟨c₄, rest⟩⟩⟩⟩
  · rfl
  · rfl
  · rfl
  · rfl
  · rw [matchSeq]
    by_cases hc : (c₁ = 's' && c₂ = 'e' && c₃ = 'q' && c₄ = '=') = true
    · rw [if_pos hc, if_pos (runLen_zero_of_none isDigitC rest
        (fun c hc₁ => h c (by simp [hc₁])))]
    · rw [if_neg hc]

theorem matchSeq_none_noS (pw : Bool) (l : List Char)
    (h : ∀ c ∈ l, (c = 's') = False) : matchSeq pw l = none := by
  rcases l with _ | ⟨c₁, _ | ⟨c₂, _ | ⟨c₃, _ | ⟨c₄, rest⟩⟩⟩⟩
  · rfl
  · rfl
  · rfl
  · rfl
  · rw [matchSeq, if_neg]
    simp only [Bool.and_eq_true, decide_eq_true_eq]
    rintro ⟨⟨⟨rfl, -⟩, -⟩, -⟩
    exact (h 's' (by simp)).mp rfl

theorem matchTs_none_noDigit (pw : Bool) (l : List Char)
    (h : ∀ c ∈ l, isDigitC c = false) : matchTs pw l = none := by
  rw [matchTs, if_neg]
  intro hms
  cases l with
  | nil => simp [tsShape, matchesShape] at hms
  | cons c cs =>
      rw [show tsShape = isDigitC :: tsShape.tail from rfl, matchesShape,
        Bool.and_eq_true] at hms
      rw [h c (by simp)] at hms
      exact Bool.false_ne_true hms.1

theorem matchTs_none_noDash (pw : Bool) (l : List Char)
    (h : ∀ c ∈ l, (c = '-') = False) : matchTs pw l = none := by
  rw [matchTs, if_neg]
  intro hms
  rcases l with _ | ⟨c₁, _ | ⟨c₂, _ | ⟨c₃, _ | ⟨c₄, _ | ⟨c₅, rest⟩⟩⟩⟩⟩
  · simp [tsShape, matchesShape] at hms
  · simp [tsShape, matchesShape] at hms
  · simp [tsShape, matchesShape] at hms
  · simp [tsShape, matchesShape] at hms
  · simp [tsShape, matchesShape] at hms
  · rw [show tsShape = isDigitC :: isDigitC :: isDigitC :: isDigitC ::
        (fun c => decide (c = '-')) :: tsShape.drop 5 from rfl] at hms
    rw [matchesShape, matchesShape, matchesShape, matchesShape, matchesShape,
      Bool.and_eq_true, Bool.and_eq_true, Bool.and_eq_true, Bool.and_eq_true,
      Bool.and_eq_true] at hms
    have h₅ := hms.2.2.2.2.1
    rw [decide_eq_true_eq] at h₅
    exact (h c₅ (by simp)).mp h₅

theorem matchNum_none_noDigit (pw : Bool) (l : List Char)
    (h : ∀ c ∈ l, isDigitC c = false) : matchNum pw l = none := by
  rw [matchNum]
  cases pw with
  | true => rw [if_pos rfl]
  | false =>
      rw [if_neg Bool.false_ne_true, if_neg]
      rw [runLen_zero_of_none isDigitC l h]
      simp

theorem matchHash_none_short (pw : Bool) (l : List Char)
    (h : l.length < 40) : matchHash pw l = none := by
  rw [matchHash]
  cases pw with
  | true => rw [if_pos rfl]
  | false =>
      rw [if_neg Bool.false_ne_true, if_neg]
      have := runLen_le_length isHexC l
      simp only [Bool.and_eq_true, decide_eq_true_eq]
      omega

theorem matchHash_none_noHex (pw : Bool) (l : List Char)
    (h : ∀ c ∈ l, isHexC c = false) : matchHash pw l = none := by
  rw [matchHash]
  cases pw with
  | true => rw [if_pos rfl]
  | false =>
      rw [if_neg Bool.false_ne_true, if_neg]
      rw [runLen_zero_of_none isHexC l h]
      simp

theorem hex_isWord (c : Char) (h : isHexC c = true) : isWordC c = true := by
  rw [isHexC, Bool.or_eq_true, Bool.or_eq_true] at h
  rw [isWordC]
  simp only [Bool.or_eq_true, Bool.and_eq_true, decide_eq_true_eq] at h ⊢
  rcases h with (h | h) | h
  · exact Or.inl (Or.inr h)
  · exact Or.inl (Or.inl (Or.inl ⟨h.1, le_trans h.2 (by decide)⟩))
  · exact Or.inl (Or.inl (Or.inr ⟨h.1, le_trans h.2 (by decide)⟩))

theorem digit_isHex (c : Char) (h : isDigitC c = true) : isHexC c = true := by
  rw [isHexC, h]
  rfl

theorem substP_hash_id_long (rep : List Char) :
    ∀ (l : List Char) (pw : Bool), l.all isHexC = true →
      (pw = true ∨ 64 < l.length) → substP matchHash rep pw l = l := by
  intro l
  induction l with
  | nil => intro pw _ _; rfl
  | cons c cs ih =>
      intro pw hall hcond
      rw [List.all_cons, Bool.and_eq_true] at hall
      have hnone : matchHash pw (c :: cs) = none := by
        rcases hcond with hpw | hlen
        · rw [matchHash, if_pos hpw]
        · rw [matchHash]
          cases pw with
          | true => rw [if_pos rfl]
          | false =>
              rw [if_neg Bool.false_ne_true, if_neg]
              rw [runLen_all isHexC (c :: cs)
                (by rw [List.all_cons, Bool.and_eq_true]; exact hall)]
              simp only [Bool.and_eq_true, decide_eq_true_eq]
              intro hc
              omega
      rw [substP_cons_none matchHash rep pw c cs hnone,
        ih (isWordC c) hall.2]
      left
      exact hex_isWord c hall.1

theorem substF_chars (M : Bool → List Char → Option Nat) (rep : List Char) :
    ∀ (fuel : Nat) (pw : Bool) (l : List Char) (c : Char),
      c ∈ substF M rep fuel pw l → c ∈ l ∨ c ∈ rep := by
  intro fuel
  induction fuel with
  | zero => intro pw l c h; exact Or.inl h
  | succ g ih =>
      intro pw l c h
      cases l with
      | nil => simp [substF] at h
      | cons a cs =>
          cases hM : M pw (a :: cs) with
          | none =>
              rw [substF_cons_none M rep g pw a cs hM] at h
              rcases List.mem_cons.mp h with rfl | h₁
              · exact Or.inl (by simp)
              · rcases ih _ cs c h₁ with h₂ | h₂
                · exact Or.inl (by simp [h₂])
                · exact Or.inr h₂
          | some n =>
              cases n with
              | zero =>
                  have e : substF M rep (g + 1) pw (a :: cs)
                      = a :: substF M rep g (isWordC a) cs := by
                    simp only [substF, hM]
                  rw [e] at h
                  rcases List.mem_cons.mp h with rfl | h₁
                  · exact Or.inl (by simp)
                  · rcases ih _ cs c h₁ with h₂ | h₂
                    · exact Or.inl (by simp [h₂])
                    · exact Or.inr h₂
              | succ m =>
                  rw [substF_cons_some M rep g pw a cs m hM] at h
                  rcases List.mem_append.mp h with h₁ | h₁
                  · exact Or.inr h₁
                  · rcases ih _ (cs.drop m) c h₁ with h₂ | h₂
                    · exact Or.inl (by simp [List.mem_of_mem_drop h₂])
                    · exact Or.inr h₂

theorem substP_chars (M : Bool → List Char → Option Nat) (rep : List Char)
    (pw : Bool) (l : List Char) (c : Char) (h : c ∈ substP M rep pw l) :
    c ∈ l ∨ c ∈ rep :=
  substF_chars M rep l.length pw l c h

/-! ## The replacement behaviour of each pass on its own volatile field -/

theorem substP_nil (M : Bool → List Char → Option Nat) (rep : List Char)
    (pw : Bool) : substP M rep pw [] = [] := rfl

theorem substP_hex_rep (rep : List Char) (h : List Char) (hne : h ≠ [])
    (hall : h.all isHexC = true) :
    substP matchHex rep false ('0' :: 'x' :: h) = rep := by
  have hM : matchHex false ('0' :: 'x' :: h) = some ((1 + h.length) + 1) := by
    rw [matchHex, if_pos (by simp), runLen_all isHexC h hall,
      if_neg (by simp [List.length_eq_zero]; exact hne)]
    congr 1
    omega
  rw [substP_cons_some matchHex rep false '0' ('x' :: h) (1 + h.length) hM]
  have hdrop : ('x' :: h).drop (1 + h.length) = [] := by
    apply List.drop_eq_nil_of_le
    simp
    omega
  rw [hdrop, substP_nil, List.append_nil]

theorem substP_seq_rep (rep : List Char) (d : List Char) (hne : d ≠ [])
    (hall : d.all isDigitC = true) :
    substP matchSeq rep false ('s' :: 'e' :: 'q' :: '=' :: d) = rep := by
  have hM : matchSeq false ('s' :: 'e' :: 'q' :: '=' :: d)
      = some ((3 + d.length) + 1) := by
    rw [matchSeq, if_pos (by simp), runLen_all isDigitC d hall,
      if_neg (by simp [List.length_eq_zero]; exact hne)]
    congr 1
    omega
  rw [substP_cons_some matchSeq rep false 's' ('e' :: 'q' :: '=' :: d)
    (3 + d.length) hM]
  have hdrop : ('e' :: 'q' :: '=' :: d).drop (3 + d.length) = [] := by
    apply List.drop_eq_nil_of_le
    simp
    omega
  rw [hdrop, substP_nil, List.append_nil]

theorem substP_ts_rep (rep : List Char)
    (a b c d e f g h i j k l m n : Char)
    (hd : [a, b, c, d, e, f, g, h, i, j, k, l, m, n].all isDigitC = true) :
    substP matchTs rep false
      [a, b, c, d, '-', e, f, '-', g, h, 'T', i, j, ':', k, l, ':', m, n]
      = rep := by
  simp only [List.all_cons, List.all_nil, Bool.and_eq_true, Bool.and_true] at hd
  obtain ⟨ha, hb, hc, hdd, he, hf, hg, hh, hi, hj, hk, hl, hm, hn⟩ := hd
  have hM : matchTs false
      [a, b, c, d, '-', e, f, '-', g, h, 'T', i, j, ':', k, l, ':', m, n]
      = some (18 + 1) := by
    rw [matchTs, if_pos]
    simp [tsShape, matchesShape, ha, hb, hc, hdd, he, hf, hg, hh, hi, hj,
      hk, hl, hm, hn]
  rw [substP_cons_some matchTs rep false a _ 18 hM]
  rw [show List.drop 18 [b, c, d, '-', e, f, '-', g, h, 'T', i, j, ':',
    k, l, ':', m, n] = [] from rfl, substP_nil, List.append_nil]

theorem substP_hash_rep (rep : List Char) (h : List Char)
    (hall : h.all isHexC = true) (h40 : 40 ≤ h.length) (h64 : h.length ≤ 64) :
    substP matchHash rep false h = rep := by
  cases h with
  | nil => simp at h40
  | cons c cs =>
      have hM : matchHash false (c :: cs) = some (cs.length + 1) := by
        rw [matchHash, if_neg Bool.false_ne_true,
          runLen_all isHexC (c :: cs) hall]
        rw [if_pos]
        · rw [List.length_cons]
        · have hdrop : (c :: cs).drop (c :: cs).length = ([] : List Char) :=
            List.drop_length _
          rw [List.length_cons] at *
          simp only [Bool.and_eq_true, decide_eq_true_eq]
          refine ⟨⟨by simp at h40; omega, by simp at h64; omega⟩, ?_⟩
          rw [show cs.length + 1 = (c :: cs).length from rfl, List.drop_length]
          rfl
      rw [substP_cons_some matchHash rep false c cs cs.length hM,
        List.drop_length, substP_nil, List.append_nil]

theorem substP_num_rep (rep : List Char) (d : List Char)
    (hall : d.all isDigitC = true) (h6 : 6 ≤ d.length) :
    substP matchNum rep false d = rep := by
  cases d with
  | nil => simp at h6
  | cons c cs =>
      have hM : matchNum false (c :: cs) = some (cs.length + 1) := by
        rw [matchNum, if_neg Bool.false_ne_true,
          runLen_all isDigitC (c :: cs) hall]
        rw [if_pos]
        · rw [List.length_cons]
        · simp only [Bool.and_eq_true, decide_eq_true_eq]
          refine ⟨by simp at h6 ⊢; omega, ?_⟩
          rw [List.drop_length]
          rfl
      rw [substP_cons_some matchNum rep false c cs cs.length hM,
        List.drop_length, substP_nil, List.append_nil]

/-! ## Per-token behaviour of each pass -/

def stage1Tok : Tok → List Char
  | .hexTok _ => "<hex>".data
  | t => t.render

def stage2Tok : Tok → List Char
  | .hexTok _ => "<hex>".data
  | .seqTok _ => "seq=<N>".data
  | t => t.render

def stage3Tok : Tok → List Char
  | .hexTok _ => "<hex>".data
  | .seqTok _ => "seq=<N>".data
  | .tsTok .. => "<timestamp>".data
  | t => t.render

def stage4Tok : Tok → List Char
  | .lit s => substP matchHash "<hash>".data false s
  | .hexTok _ => "<hex>".data
  | .seqTok _ => "seq=<N>".data
  | .tsTok .. => "<timestamp>".data
  | .hashTok _ => "<hash>".data
  | .numTok d => d

/-- What every token becomes after all five substitution passes. -/
def tokNorm : Tok → List Char
  | .lit s => substP matchHash "<hash>".data false s
  | .hexTok _ => "<hex>".data
  | .seqTok _ => "seq=<N>".data
  | .tsTok .. => "<timestamp>".data
  | .hashTok _ => "<hash>".data
  | .numTok _ => "<N>".data

theorem hexRep_chars : "<hex>".data = ['<', 'h', 'e', 'x', '>'] := rfl
theorem seqRep_chars : "seq=<N>".data = ['s', 'e', 'q', '=', '<', 'N', '>'] := rfl
theorem tsRep_chars :
    "<timestamp>".data = ['<', 't', 'i', 'm', 'e', 's', 't', 'a', 'm', 'p', '>'] := rfl
theorem hashRep_chars : "<hash>".data = ['<', 'h', 'a', 's', 'h', '>'] := rfl
theorem numRep_chars : "<N>".data = ['<', 'N', '>'] := rfl

theorem digit_ne_of (c x : Char) (hc : isDigitC c = true)
    (hx : isDigitC x = false) : (c = x) = False := by
  apply eq_false
  intro he
  rw [he, hx] at hc
  exact Bool.false_ne_true hc

theorem hex_ne_of (c x : Char) (hc : isHexC c = true)
    (hx : isHexC x = false) : (c = x) = False := by
  apply eq_false
  intro he
  rw [he, hx] at hc
  exact Bool.false_ne_true hc

theorem litChar_not_digit (c : Char) (h : litChar c = true) :
    isDigitC c = false := by
  rw [litChar, Bool.and_eq_true, Bool.not_eq_true'] at h
  exact h.1

theorem wf_lit {s : List Char} (h : Tok.wfStrict (.lit s) = true) :
    s ≠ [] ∧ ∀ c ∈ s, litChar c = true := by
  rw [Tok.wfStrict, Bool.and_eq_true, decide_eq_true_eq, List.all_eq_true] at h
  exact ⟨h.1, fun c hc => by simpa using h.2 c hc⟩

theorem wf_hex {h₁ : List Char} (h : Tok.wfStrict (.hexTok h₁) = true) :
    h₁ ≠ [] ∧ h₁.all isHexC = true := by
  rw [Tok.wfStrict, Bool.and_eq_true, decide_eq_true_eq] at h
  exact h

theorem wf_seq {d : List Char} (h : Tok.wfStrict (.seqTok d) = true) :
    d ≠ [] ∧ d.all isDigitC = true := by
  rw [Tok.wfStrict, Bool.and_eq_true, decide_eq_true_eq] at h
  exact h

theorem wf_hash {h₁ : List Char} (h : Tok.wfStrict (.hashTok h₁) = true) :
    h₁.all isHexC = true ∧ 40 ≤ h₁.length ∧ h₁.length ≤ 64 := by
  rw [Tok.wfStrict, Bool.and_eq_true, Bool.and_eq_true, decide_eq_true_eq,
    decide_eq_true_eq] at h
  exact ⟨h.1.1, h.1.2, h.2⟩

theorem wf_num {d : List Char} (h : Tok.wfStrict (.numTok d) = true) :
    d.all isDigitC = true ∧ 6 ≤ d.length ∧ (d.length < 40 ∨ 64 < d.length) := by
  rw [Tok.wfStrict, Bool.and_eq_true, Bool.and_eq_true, Bool.or_eq_true,
    decide_eq_true_eq, decide_eq_true_eq] at h
  refine ⟨h.1.1, h.1.2, ?_⟩
  rcases h.2 with h₂ | h₂
  · exact Or.inl (by simpa using h₂)
  · exact Or.inr (by simpa using h₂)

/-- Characters of a rendered timestamp payload: digits or the three
punctuation marks. -/
theorem ts_render_chars (a b c d e f g h i j k l m n : Char)
    (hd : [a, b, c, d, e, f, g, h, i, j, k, l, m, n].all isDigitC = true) :
    ∀ x ∈ Tok.render (.tsTok a b c d e f g h i j k l m n),
      isDigitC x = true ∨ x = '-' ∨ x = 'T' ∨ x = ':' := by
  simp only [List.all_cons, List.all_nil, Bool.and_eq_true, Bool.and_true] at hd
  obtain ⟨ha, hb, hc, hdd, he, hf, hg, hh, hi, hj, hk, hl, hm, hn⟩ := hd
  intro x hx
  rw [Tok.render] at hx
  simp only [List.mem_cons, List.not_mem_nil, or_false] at hx
  rcases hx with rfl | rfl | rfl | rfl | rfl | rfl | rfl | rfl | rfl | rfl |
    rfl | rfl | rfl | rfl | rfl | rfl | rfl | rfl | rfl
  · exact Or.inl ha
  · exact Or.inl hb
  · exact Or.inl hc
  · exact Or.inl hdd
  · exact Or.inr (Or.inl rfl)
  · exact Or.inl he
  · exact Or.inl hf
  · exact Or.inr (Or.inl rfl)
  · exact Or.inl hg
  · exact Or.inl hh
  · exact Or.inr (Or.inr (Or.inl rfl))
  · exact Or.inl hi
  · exact Or.inl hj
  · exact Or.inr (Or.inr (Or.inr rfl))
  · exact Or.inl hk
  · exact Or.inl hl
  · exact Or.inr (Or.inr (Or.inr rfl))
  · exact Or.inl hm
  · exact Or.inl hn

theorem ne_of_not_digit (c x : Char) (hc : isDigitC c = false)
    (hx : isDigitC x = true) : (c = x) = False := by
  apply eq_false
  intro he
  rw [he] at hc
  rw [hc] at hx
  exact Bool.false_ne_true hx

theorem stage1_spec (t : Tok) (hwf : t.wfStrict = true) :
    substP matchHex "<hex>".data false t.render = stage1Tok t := by
  cases t with
  | lit s =>
      obtain ⟨-, hall⟩ := wf_lit hwf
      show substP matchHex "<hex>".data false s = s
      refine substP_id_of matchHex _ (fun l => ∀ c ∈ l, (c = '0') = False)
        (fun c cs hP c₁ hc₁ => hP c₁ (by simp [hc₁])) matchHex_none_noZero
        s false ?_
      intro c hc
      exact ne_of_not_digit c '0' (litChar_not_digit c (hall c hc)) (by decide)
  | hexTok h =>
      obtain ⟨hne, hall⟩ := wf_hex hwf
      exact substP_hex_rep _ h hne hall
  | seqTok d =>
      obtain ⟨-, hall⟩ := wf_seq hwf
      rw [List.all_eq_true] at hall
      show substP matchHex "<hex>".data false ('s' :: 'e' :: 'q' :: '=' :: d)
        = 's' :: 'e' :: 'q' :: '=' :: d
      refine substP_id_of matchHex _ (fun l => ∀ c ∈ l, (c = 'x') = False)
        (fun c cs hP c₁ hc₁ => hP c₁ (by simp [hc₁])) matchHex_none_noX
        _ false ?_
      intro c hc
      simp only [List.mem_cons] at hc
      rcases hc with rfl | rfl | rfl | rfl | hc
      · decide
      · decide
      · decide
      · decide
      · exact digit_ne_of c 'x' (by simpa using hall c hc) (by decide)
  | tsTok a b c d e f g h i j k l m n =>
      rw [Tok.wfStrict] at hwf
      have hchars := ts_render_chars a b c d e f g h i j k l m n hwf
      show substP matchHex "<hex>".data false
        (Tok.render (.tsTok a b c d e f g h i j k l m n))
        = Tok.render (.tsTok a b c d e f g h i j k l m n)
      refine substP_id_of matchHex _ (fun l => ∀ x ∈ l, (x = 'x') = False)
        (fun c₁ cs hP x hx => hP x (by simp [hx])) matchHex_none_noX
        _ false ?_
      intro x hx
      rcases hchars x hx with hd | rfl | rfl | rfl
      · exact digit_ne_of x 'x' hd (by decide)
      · decide
      · decide
      · decide
  | hashTok h₁ =>
      obtain ⟨hall, -, -⟩ := wf_hash hwf
      rw [List.all_eq_true] at hall
      show substP matchHex "<hex>".data false h₁ = h₁
      refine substP_id_of matchHex _ (fun l => ∀ c ∈ l, (c = 'x') = False)
        (fun c cs hP c₁ hc₁ => hP c₁ (by simp [hc₁])) matchHex_none_noX
        _ false ?_
      intro c hc
      exact hex_ne_of c 'x' (by simpa using hall c hc) (by decide)
  | numTok d =>
      obtain ⟨hall, -, -⟩ := wf_num hwf
      rw [List.all_eq_true] at hall
      show substP matchHex "<hex>".data false d = d
      refine substP_id_of matchHex _ (fun l => ∀ c ∈ l, (c = 'x') = False)
        (fun c cs hP c₁ hc₁ => hP c₁ (by simp [hc₁])) matchHex_none_noX
        _ false ?_
      intro c hc
      exact digit_ne_of c 'x' (by simpa using hall c hc) (by decide)

theorem stage2_spec (t : Tok) (hwf : t.wfStrict = true) :
    substP matchSeq "seq=<N>".data false (stage1Tok t) = stage2Tok t := by
  cases t with
  | lit s =>
      obtain ⟨-, hall⟩ := wf_lit hwf
      show substP matchSeq "seq=<N>".data false s = s
      refine substP_id_of matchSeq _ (fun l => ∀ c ∈ l, isDigitC c = false)
        (fun c cs hP c₁ hc₁ => hP c₁ (by simp [hc₁])) matchSeq_none_noDigit
        s false ?_
      intro c hc
      exact litChar_not_digit c (hall c hc)
  | hexTok h =>
      show substP matchSeq "seq=<N>".data false "<hex>".data = "<hex>".data
      refine substP_id_of matchSeq _ (fun l => ∀ c ∈ l, (c = 's') = False)
        (fun c cs hP c₁ hc₁ => hP c₁ (by simp [hc₁])) matchSeq_none_noS
        _ false ?_
      rw [hexRep_chars]
      decide
  | seqTok d =>
      obtain ⟨hne, hall⟩ := wf_seq hwf
      exact substP_seq_rep _ d hne hall
  | tsTok a b c d e f g h i j k l m n =>
      rw [Tok.wfStrict] at hwf
      have hchars := ts_render_chars a b c d e f g h i j k l m n hwf
      show substP matchSeq "seq=<N>".data false
        (Tok.render (.tsTok a b c d e f g h i j k l m n))
        = Tok.render (.tsTok a b c d e f g h i j k l m n)
      refine substP_id_of matchSeq _ (fun l => ∀ x ∈ l, (x = 's') = False)
        (fun c₁ cs hP x hx => hP x (by simp [hx])) matchSeq_none_noS
        _ false ?_
      intro x hx
      rcases hchars x hx with hd | rfl | rfl | rfl
      · exact digit_ne_of x 's' hd (by decide)
      · decide
      · decide
      · decide
  | hashTok h₁ =>
      obtain ⟨hall, -, -⟩ := wf_hash hwf
      rw [List.all_eq_true] at hall
      show substP matchSeq "seq=<N>".data false h₁ = h₁
      refine substP_id_of matchSeq _ (fun l => ∀ c ∈ l, (c = 's') = False)
        (fun c cs hP c₁ hc₁ => hP c₁ (by simp [hc₁])) matchSeq_none_noS
        _ false ?_
      intro c hc
      exact hex_ne_of c 's' (by simpa using hall c hc) (by decide)
  | numTok d =>
      obtain ⟨hall, -, -⟩ := wf_num hwf
      rw [List.all_eq_true] at hall
      show substP matchSeq "seq=<N>".data false d = d
      refine substP_id_of matchSeq _ (fun l => ∀ c ∈ l, (c = 's') = False)
        (fun c cs hP c₁ hc₁ => hP c₁ (by simp [hc₁])) matchSeq_none_noS
        _ false ?_
      intro c hc
      exact digit_ne_of c 's' (by simpa using hall c hc) (by decide)

theorem stage3_spec (t : Tok) (hwf : t.wfStrict = true) :
    substP matchTs "<timestamp>".data false (stage2Tok t) = stage3Tok t := by
  cases t with
  | lit s =>
      obtain ⟨-, hall⟩ := wf_lit hwf
      show substP matchTs "<timestamp>".data false s = s
      refine substP_id_of matchTs _ (fun l => ∀ c ∈ l, isDigitC c = false)
        (fun c cs hP c₁ hc₁ => hP c₁ (by simp [hc₁])) matchTs_none_noDigit
        s false ?_
      intro c hc
      exact litChar_not_digit c (hall c hc)
  | hexTok h =>
      show substP matchTs "<timestamp>".data false "<hex>".data = "<hex>".data
      refine substP_id_of matchTs _ (fun l => ∀ c ∈ l, isDigitC c = false)
        (fun c cs hP c₁ hc₁ => hP c₁ (by simp [hc₁])) matchTs_none_noDigit
        _ false ?_
      rw [hexRep_chars]
      decide
  | seqTok d =>
      show substP matchTs "<timestamp>".data false "seq=<N>".data = "seq=<N>".data
      refine substP_id_of matchTs _ (fun l => ∀ c ∈ l, isDigitC c = false)
        (fun c cs hP c₁ hc₁ => hP c₁ (by simp [hc₁])) matchTs_none_noDigit
        _ false ?_
      rw [seqRep_chars]
      decide
  | tsTok a b c d e f g h i j k l m n =>
      rw [Tok.wfStrict] at hwf
      exact substP_ts_rep _ a b c d e f g h i j k l m n hwf
  | hashTok h₁ =>
      obtain ⟨hall, -, -⟩ := wf_hash hwf
      rw [List.all_eq_true] at hall
      show substP matchTs "<timestamp>".data false h₁ = h₁
      refine substP_id_of matchTs _ (fun l => ∀ c ∈ l, (c = '-') = False)
        (fun c cs hP c₁ hc₁ => hP c₁ (by simp [hc₁])) matchTs_none_noDash
        _ false ?_
      intro c hc
      exact hex_ne_of c '-' (by simpa using hall c hc) (by decide)
  | numTok d =>
      obtain ⟨hall, -, -⟩ := wf_num hwf
      rw [List.all_eq_true] at hall
      show substP matchTs "<timestamp>".data false d = d
      refine substP_id_of matchTs _ (fun l => ∀ c ∈ l, (c = '-') = False)
        (fun c cs hP c₁ hc₁ => hP c₁ (by simp [hc₁])) matchTs_none_noDash
        _ false ?_
      intro c hc
      exact digit_ne_of c '-' (by simpa using hall c hc) (by decide)

theorem all_digit_all_hex (l : List Char) (h : l.all isDigitC = true) :
    l.all isHexC = true := by
  rw [List.all_eq_true] at h ⊢
  intro c hc
  exact digit_isHex c (by simpa using h c hc)

theorem stage4_spec (t : Tok) (hwf : t.wfStrict = true) :
    substP matchHash "<hash>".data false (stage3Tok t) = stage4Tok t := by
  cases t with
  | lit s => rfl
  | hexTok h =>
      show substP matchHash "<hash>".data false "<hex>".data = "<hex>".data
      refine substP_id_of matchHash _ (fun l => l.length < 40)
        (fun c cs hP => by simp at hP ⊢; omega) matchHash_none_short
        _ false (by rw [hexRep_chars]; decide)
  | seqTok d =>
      show substP matchHash "<hash>".data false "seq=<N>".data = "seq=<N>".data
      refine substP_id_of matchHash _ (fun l => l.length < 40)
        (fun c cs hP => by simp at hP ⊢; omega) matchHash_none_short
        _ false (by rw [seqRep_chars]; decide)
  | tsTok a b c d e f g h i j k l m n =>
      show substP matchHash "<hash>".data false "<timestamp>".data
        = "<timestamp>".data
      refine substP_id_of matchHash _ (fun l => l.length < 40)
        (fun c cs hP => by simp at hP ⊢; omega) matchHash_none_short
        _ false (by rw [tsRep_chars]; decide)
  | hashTok h₁ =>
      obtain ⟨hall, h40, h64⟩ := wf_hash hwf
      exact substP_hash_rep _ h₁ hall h40 h64
  | numTok d =>
      obtain ⟨hall, h6, hlen⟩ := wf_num hwf
      show substP matchHash "<hash>".data false d = d
      rcases hlen with hlt | hgt
      · refine substP_id_of matchHash _ (fun l => l.length < 40)
          (fun c cs hP => by simp at hP ⊢; omega) matchHash_none_short
          _ false hlt
      · exact substP_hash_id_long _ d false (all_digit_all_hex d hall)
          (Or.inr hgt)

theorem stage5_spec (t : Tok) (hwf : t.wfStrict = true) :
    substP matchNum "<N>".data false (stage4Tok t) = tokNorm t := by
  cases t with
  | lit s =>
      obtain ⟨-, hall⟩ := wf_lit hwf
      show substP matchNum "<N>".data false
        (substP matchHash "<hash>".data false s)
        = substP matchHash "<hash>".data false s
      refine substP_id_of matchNum _ (fun l => ∀ c ∈ l, isDigitC c = false)
        (fun c cs hP c₁ hc₁ => hP c₁ (by simp [hc₁])) matchNum_none_noDigit
        _ false ?_
      intro c hc
      rcases substP_chars matchHash "<hash>".data false s c hc with h₁ | h₁
      · exact litChar_not_digit c (hall c h₁)
      · rw [hashRep_chars] at h₁
        simp only [List.mem_cons, List.not_mem_nil, or_false] at h₁
        rcases h₁ with rfl | rfl | rfl | rfl | rfl | rfl
        · decide
        · decide
        · decide
        · decide
        · decide
        · decide
  | hexTok h =>
      show substP matchNum "<N>".data false "<hex>".data = "<hex>".data
      refine substP_id_of matchNum _ (fun l => ∀ c ∈ l, isDigitC c = false)
        (fun c cs hP c₁ hc₁ => hP c₁ (by simp [hc₁])) matchNum_none_noDigit
        _ false (by rw [hexRep_chars]; decide)
  | seqTok d =>
      show substP matchNum "<N>".data false "seq=<N>".data = "seq=<N>".data
      refine substP_id_of matchNum _ (fun l => ∀ c ∈ l, isDigitC c = false)
        (fun c cs hP c₁ hc₁ => hP c₁ (by simp [hc₁])) matchNum_none_noDigit
        _ false (by rw [seqRep_chars]; decide)
  | tsTok a b c d e f g h i j k l m n =>
      show substP matchNum "<N>".data false "<timestamp>".data
        = "<timestamp>".data
      refine substP_id_of matchNum _ (fun l => ∀ c ∈ l, isDigitC c = false)
        (fun c cs hP c₁ hc₁ => hP c₁ (by simp [hc₁])) matchNum_none_noDigit
        _ false (by rw [tsRep_chars]; decide)
  | hashTok h₁ =>
      show substP matchNum "<N>".data false "<hash>".data = "<hash>".data
      refine substP_id_of matchNum _ (fun l => ∀ c ∈ l, isDigitC c = false)
        (fun c cs hP c₁ hc₁ => hP c₁ (by simp [hc₁])) matchNum_none_noDigit
        _ false (by rw [hashRep_chars]; decide)
  | numTok d =>
      obtain ⟨hall, h6, -⟩ := wf_num hwf
      exact substP_num_rep _ d hall h6

/-! ## Lifting the passes over a whole token list -/

theorem substP_joinSp (M : Bool → List Char → Option Nat) (rep : List Char)
    (hb : ∀ pw l n, M pw l = some n → 1 ≤ n ∧ n ≤ l.length)
    (hsp : ∀ ys pw xs, M pw (xs ++ ' ' :: ys) = M pw xs)
    (f g : Tok → List Char) :
    ∀ ts : List Tok, (∀ t ∈ ts, substP M rep false (f t) = g t) →
      substP M rep false (joinSp (ts.map f)) = joinSp (ts.map g) := by
  intro ts
  induction ts with
  | nil => intro _; rfl
  | cons t ts₁ ih =>
      intro h
      rw [List.map_cons, joinSp,
        substP_append_space M rep (joinSp (ts₁.map f)) (hsp _) hb
          (f t).length (f t) false (le_refl _),
        h t (by simp), ih fun t₁ ht₁ => h t₁ (by simp [ht₁]),
        List.map_cons, joinSp]

theorem tsTail8_head (c : Char) (cs : List Char) (h : isDigitC c = false) :
    tsTail8 (c :: cs) = false := by
  rw [tsTail8, show tsTail8Shape = isDigitC :: tsTail8Shape.tail from rfl,
    matchesShape, h, Bool.false_and]

theorem tsTail8_third (c₁ c₂ c₃ : Char) (cs : List Char)
    (h : (c₃ = ':') = False) : tsTail8 (c₁ :: c₂ :: c₃ :: cs) = false := by
  have hd : decide (c₃ = ':') = false :=
    decide_eq_false fun hp => (h ▸ hp : False)
  rw [tsTail8, show tsTail8Shape = isDigitC :: isDigitC ::
      (fun c => decide (c = ':')) :: (tsTail8Shape.drop 3) from rfl,
    matchesShape, matchesShape, matchesShape, hd]
  simp

theorem stage2_tsTail8 (t : Tok) (hwf : t.wfStrict = true) (r : List Char) :
    tsTail8 (stage2Tok t ++ r) = false := by
  cases t with
  | lit s =>
      obtain ⟨hne, hall⟩ := wf_lit hwf
      cases s with
      | nil => exact absurd rfl hne
      | cons c s₁ =>
          rw [show stage2Tok (.lit (c :: s₁)) = c :: s₁ from rfl,
            List.cons_append]
          exact tsTail8_head c _ (litChar_not_digit c (hall c (by simp)))
  | hexTok h =>
      rw [show stage2Tok (.hexTok h) = "<hex>".data from rfl, hexRep_chars,
        List.cons_append]
      exact tsTail8_head '<' _ (by decide)
  | seqTok d =>
      rw [show stage2Tok (.seqTok d) = "seq=<N>".data from rfl, seqRep_chars,
        List.cons_append]
      exact tsTail8_head 's' _ (by decide)
  | tsTok a b c d e f g h i j k l m n =>
      rw [Tok.wfStrict] at hwf
      simp only [List.all_cons, List.all_nil, Bool.and_eq_true,
        Bool.and_true] at hwf
      rw [show stage2Tok (.tsTok a b c d e f g h i j k l m n)
          = Tok.render (.tsTok a b c d e f g h i j k l m n) from rfl,
        Tok.render, List.cons_append, List.cons_append, List.cons_append]
      exact tsTail8_third a b c _ (digit_ne_of c ':' hwf.2.2.1 (by decide))
  | hashTok h₁ =>
      obtain ⟨hall, h40, -⟩ := wf_hash hwf
      rw [List.all_eq_true] at hall
      rcases h₁ with _ | ⟨c₁, _ | ⟨c₂, _ | ⟨c₃, rest⟩⟩⟩
      · simp at h40
      · simp at h40
      · simp at h40
      · rw [show stage2Tok (.hashTok (c₁ :: c₂ :: c₃ :: rest))
            = c₁ :: c₂ :: c₃ :: rest from rfl,
          List.cons_append, List.cons_append, List.cons_append]
        exact tsTail8_third c₁ c₂ c₃ _
          (hex_ne_of c₃ ':' (by simpa using hall c₃ (by simp)) (by decide))
  | numTok d =>
      obtain ⟨hall, h6, -⟩ := wf_num hwf
      rw [List.all_eq_true] at hall
      rcases d with _ | ⟨c₁, _ | ⟨c₂, _ | ⟨c₃, rest⟩⟩⟩
      · simp at h6
      · simp at h6
      · simp at h6
      · rw [show stage2Tok (.numTok (c₁ :: c₂ :: c₃ :: rest))
            = c₁ :: c₂ :: c₃ :: rest from rfl,
          List.cons_append, List.cons_append, List.cons_append]
        exact tsTail8_third c₁ c₂ c₃ _
          (digit_ne_of c₃ ':' (by simpa using hall c₃ (by simp)) (by decide))

theorem substP_joinSp_ts (rep : List Char) (g : Tok → List Char) :
    ∀ ts : List Tok, (∀ t ∈ ts, Tok.wfStrict t = true) →
      (∀ t ∈ ts, substP matchTs rep false (stage2Tok t) = g t) →
      substP matchTs rep false (joinSp (ts.map stage2Tok)) = joinSp (ts.map g) := by
  intro ts
  induction ts with
  | nil => intro _ _; rfl
  | cons t ts₁ ih =>
      intro hw h
      have hys : tsTail8 (joinSp (ts₁.map stage2Tok)) = false := by
        cases ts₁ with
        | nil => rfl
        | cons t₁ ts₂ =>
            rw [List.map_cons, joinSp]
            exact stage2_tsTail8 t₁ (hw t₁ (by simp)) _
      rw [List.map_cons, joinSp,
        substP_append_space matchTs rep (joinSp (ts₁.map stage2Tok))
          (matchTs_append_space _ hys) matchTs_bound
          (stage2Tok t).length (stage2Tok t) false (le_refl _),
        h t (by simp),
        ih (fun t₁ ht₁ => hw t₁ (by simp [ht₁]))
          (fun t₁ ht₁ => h t₁ (by simp [ht₁])),
        List.map_cons, joinSp]

/-- The five passes turn a rendered token list into the join of the
per-token normal forms. -/
theorem passes_joinSp (ts : List Tok) (hwf : ∀ t ∈ ts, t.wfStrict = true) :
    pass5 (pass4 (pass3 (pass2 (pass1 (renderToks ts)))))
      = joinSp (ts.map tokNorm) := by
  rw [renderToks, pass1, subst_eq_substP,
    substP_joinSp matchHex "<hex>".data matchHex_bound
      (fun ys pw xs => matchHex_append_space pw xs ys) Tok.render stage1Tok ts
      (fun t ht => stage1_spec t (hwf t ht)),
    pass2, subst_eq_substP,
    substP_joinSp matchSeq "seq=<N>".data matchSeq_bound
      (fun ys pw xs => matchSeq_append_space pw xs ys) stage1Tok stage2Tok ts
      (fun t ht => stage2_spec t (hwf t ht)),
    pass3, subst_eq_substP,
    substP_joinSp_ts "<timestamp>".data stage3Tok ts hwf
      (fun t ht => stage3_spec t (hwf t ht)),
    pass4, subst_eq_substP,
    substP_joinSp matchHash "<hash>".data matchHash_bound
      (fun ys pw xs => matchHash_append_space pw xs ys) stage3Tok stage4Tok ts
      (fun t ht => stage4_spec t (hwf t ht)),
    pass5, subst_eq_substP,
    substP_joinSp matchNum "<N>".data matchNum_bound
      (fun ys pw xs => matchNum_append_space pw xs ys) stage4Tok tokNorm ts
      (fun t ht => stage5_spec t (hwf t ht))]

theorem normalizeL_renderToks (ts : List Tok)
    (hwf : ∀ t ∈ ts, t.wfStrict = true) :
    normalizeL (renderToks ts) = stripL (joinSp (ts.map tokNorm)) := by
  rw [normalizeL, passes_joinSp ts hwf]

theorem tokNorm_congr (t₁ t₂ : Tok) (h : t₁.sameShape t₂ = true) :
    tokNorm t₁ = tokNorm t₂ := by
  cases t₁ <;> cases t₂ <;> simp_all [Tok.sameShape, tokNorm]

theorem map_tokNorm_eq :
    ∀ ts₁ ts₂ : List Tok, sameShapeL ts₁ ts₂ = true →
      ts₁.map tokNorm = ts₂.map tokNorm := by
  intro ts₁
  induction ts₁ with
  | nil =>
      intro ts₂ h
      cases ts₂ with
      | nil => rfl
      | cons t ts => simp [sameShapeL] at h
  | cons t ts₁₁ ih =>
      intro ts₂ h
      cases ts₂ with
      | nil => simp [sameShapeL] at h
      | cons t₂ ts₂₁ =>
          rw [sameShapeL, Bool.and_eq_true] at h
          rw [List.map_cons, List.map_cons, tokNorm_congr t t₂ h.1,
            ih ts₂₁ h.2]

/-- C2 (amended): two messages made of the same literal words with
volatile fields of the same kinds at the same slots — hex literals,
`seq=` markers, timestamps, hash strings, and digit runs of 6+ digits
whose length is not in the hash range 40–64 — normalize identically,
whatever the payloads. -/
theorem claim_C2_volatile_fields_collapse (ts₁ ts₂ : List Tok)
    (h₁ : ∀ t ∈ ts₁, t.wfStrict = true) (h₂ : ∀ t ∈ ts₂, t.wfStrict = true)
    (hs : sameShapeL ts₁ ts₂ = true) :
    normalizeMessage ⟨renderToks ts₁⟩ = normalizeMessage ⟨renderToks ts₂⟩ := by
  show (⟨normalizeL (renderToks ts₁)⟩ : String) = ⟨normalizeL (renderToks ts₂)⟩
  rw [normalizeL_renderToks ts₁ h₁, normalizeL_renderToks ts₂ h₂,
    map_tokNorm_eq ts₁ ts₂ hs]

/-- C2 witness: two messages differing in a hex literal and a sequence
number normalize to the same key. -/
theorem claim_C2_volatile_fields_collapse_witness :
    normalizeMessage
      ⟨renderToks [Tok.lit "peer".data, Tok.hexTok "ff".data,
        Tok.seqTok "17".data]⟩
      = normalizeMessage
        ⟨renderToks [Tok.lit "peer".data, Tok.hexTok "ABC123".data,
          Tok.seqTok "99182".data]⟩ :=
  claim_C2_volatile_fields_collapse _ _ (by decide) (by decide) (by decide)

/-- C2 counterexample: under the claim's own volatile classes (any digit
run of 6 or more digits), two messages differing only in a bare digit run
do not always normalize alike: a 6-digit run becomes `<N>` while a
40-digit run is captured by the hash pattern and becomes `<hash>`. -/
theorem claim_C2_counterexample :
    (∀ t ∈ [Tok.lit "node".data, Tok.numTok "123456".data],
        t.wfClaim = true)
    ∧ (∀ t ∈ [Tok.lit "node".data,
        Tok.numTok "1111111111111111111111111111111111111111".data],
        t.wfClaim = true)
    ∧ sameShapeL [Tok.lit "node".data, Tok.numTok "123456".data]
        [Tok.lit "node".data,
         Tok.numTok "1111111111111111111111111111111111111111".data] = true
    ∧ normalizeMessage
        ⟨renderToks [Tok.lit "node".data, Tok.numTok "123456".data]⟩
      ≠ normalizeMessage
        ⟨renderToks [Tok.lit "node".data,
          Tok.numTok "1111111111111111111111111111111111111111".data]⟩ := by
  exact ⟨by decide, by decide, by decide, by decide⟩

/-! ## Injectivity of the joined normal form (for no-false-merging) -/

/-- Join with single separating spaces and no trailing space. -/
def joinSp2 : List (List Char) → List Char
  | [] => []
  | [x] => x
  | x :: xs => x ++ ' ' :: joinSp2 xs

theorem joinSp_eq_joinSp2 :
    ∀ A : List (List Char), A ≠ [] → joinSp A = joinSp2 A ++ [' '] := by
  intro A
  induction A with
  | nil => intro h; exact absurd rfl h
  | cons x xs ih =>
      intro _
      cases xs with
      | nil => rfl
      | cons y ys =>
          rw [joinSp, ih (by simp), show joinSp2 (x :: y :: ys)
            = x ++ ' ' :: joinSp2 (y :: ys) from rfl]
          simp

theorem dropWhile_append_left (p : Char → Bool) :
    ∀ (l m : List Char), l.dropWhile p ≠ [] →
      (l ++ m).dropWhile p = l.dropWhile p ++ m := by
  intro l
  induction l with
  | nil => intro m h; exact absurd rfl h
  | cons c cs ih =>
      intro m h
      rw [List.cons_append]
      simp only [List.dropWhile_cons] at h ⊢
      cases hp : p c with
      | true =>
          simp only [hp, if_true] at h ⊢
          exact ih m h
      | false =>
          simp only [hp, Bool.false_eq_true, if_false]
          rfl

theorem dropWhile_ne_nil_of_mem (p : Char → Bool) :
    ∀ l : List Char, (∃ c ∈ l, p c = false) → l.dropWhile p ≠ [] := by
  intro l
  induction l with
  | nil => rintro ⟨c, hc, -⟩; simp at hc
  | cons c cs ih =>
      rintro ⟨c₁, hc₁, hp₁⟩
      rw [List.dropWhile_cons]
      cases hp : p c with
      | false => simp
      | true =>
          simp only [if_pos rfl]
          apply ih
          rcases List.mem_cons.mp hc₁ with rfl | h₁
          · rw [hp] at hp₁; exact absurd hp₁ (by simp)
          · exact ⟨c₁, h₁, hp₁⟩

theorem stripL_append_space (l : List Char)
    (h : ∃ c ∈ l, isSpaceC c = false) : stripL (l ++ [' ']) = stripL l := by
  rw [stripL, stripL,
    dropWhile_append_left isSpaceC l [' '] (dropWhile_ne_nil_of_mem _ l h),
    List.reverse_append]
  rw [show [' '].reverse = [' '] from rfl, List.singleton_append,
    List.dropWhile_cons, if_pos (by decide)]

theorem stripL_id (l : List Char) (h1 : l.dropWhile isSpaceC = l)
    (h2 : l.reverse.dropWhile isSpaceC = l.reverse) : stripL l = l := by
  rw [stripL, h1, h2, List.reverse_reverse]

theorem joinSp2_head (A : List (List Char))
    (hA : ∀ x ∈ A, x ≠ [] ∧ ∀ c ∈ x, isSpaceC c = false) :
    (joinSp2 A).dropWhile isSpaceC = joinSp2 A := by
  cases A with
  | nil => rfl
  | cons x xs =>
      obtain ⟨hne, hsp⟩ := hA x (by simp)
      cases x with
      | nil => exact absurd rfl hne
      | cons c cs =>
          have hhd : joinSp2 ((c :: cs) :: xs)
              = c :: (cs ++ (match xs with | [] => [] | _ => ' ' :: joinSp2 xs)) := by
            cases xs with
            | nil => simp [joinSp2]
            | cons y ys => simp [joinSp2]
          rw [hhd, List.dropWhile_cons, if_neg]
          rw [hsp c (by simp)]
          simp

theorem joinSp2_revlast :
    ∀ A : List (List Char), A ≠ [] →
      (∀ x ∈ A, x ≠ [] ∧ ∀ c ∈ x, isSpaceC c = false) →
      ∃ c r, (joinSp2 A).reverse = c :: r ∧ isSpaceC c = false := by
  intro A
  induction A with
  | nil => intro h; exact absurd rfl h
  | cons x xs ih =>
      intro _ hA
      cases xs with
      | nil =>
          obtain ⟨hne, hsp⟩ := hA x (by simp)
          have : x.reverse ≠ [] := by simpa using hne
          cases hr : x.reverse with
          | nil => exact absurd hr this
          | cons c r =>
              refine ⟨c, r, by simp [joinSp2, hr], ?_⟩
              have : c ∈ x := by
                rw [← List.mem_reverse, hr]
                simp
              exact hsp c this
      | cons y ys =>
          obtain ⟨c, r, hcr, hc⟩ := ih (by simp)
            (fun t ht => hA t (by simp [ht]))
          refine ⟨c, r ++ [' '] ++ x.reverse, ?_, hc⟩
          rw [show joinSp2 (x :: y :: ys) = x ++ ' ' :: joinSp2 (y :: ys)
            from rfl, List.reverse_append, List.reverse_cons, hcr]
          simp

theorem stripL_joinSp (A : List (List Char))
    (hA : ∀ x ∈ A, x ≠ [] ∧ ∀ c ∈ x, isSpaceC c = false) :
    stripL (joinSp A) = joinSp2 A := by
  cases A with
  | nil => rfl
  | cons x xs =>
      rw [joinSp_eq_joinSp2 (x :: xs) (by simp)]
      have hmem : ∃ c ∈ joinSp2 (x :: xs), isSpaceC c = false := by
        obtain ⟨hne, hsp⟩ := hA x (by simp)
        cases x with
        | nil => exact absurd rfl hne
        | cons c cs =>
            refine ⟨c, ?_, hsp c (by simp)⟩
            cases xs with
            | nil => simp [joinSp2]
            | cons y ys => simp [joinSp2]
      rw [stripL_append_space _ hmem]
      obtain ⟨c, r, hcr, hc⟩ := joinSp2_revlast (x :: xs) (by simp) hA
      refine stripL_id _ (joinSp2_head _ hA) ?_
      rw [hcr, List.dropWhile_cons, if_neg]
      rw [hc]
      simp

theorem append_space_inj :
    ∀ (x y J₁ J₂ : List Char),
      (∀ c ∈ x, isSpaceC c = false) → (∀ c ∈ y, isSpaceC c = false) →
      x ++ ' ' :: J₁ = y ++ ' ' :: J₂ → x = y ∧ J₁ = J₂ := by
  intro x
  induction x with
  | nil =>
      intro y J₁ J₂ _ hy h
      cases y with
      | nil => simpa using h
      | cons c y₁ =>
          rw [List.nil_append, List.cons_append, List.cons_eq_cons] at h
          exfalso
          have := hy c (by simp)
          rw [← h.1] at this
          simp [isSpaceC] at this
  | cons c x₁ ih =>
      intro y J₁ J₂ hx hy h
      cases y with
      | nil =>
          rw [List.nil_append, List.cons_append, List.cons_eq_cons] at h
          exfalso
          have := hx c (by simp)
          rw [h.1] at this
          simp [isSpaceC] at this
      | cons c₂ y₁ =>
          rw [List.cons_append, List.cons_append, List.cons_eq_cons] at h
          obtain ⟨h₁, h₂⟩ := ih y₁ J₁ J₂ (fun a ha => hx a (by simp [ha]))
            (fun a ha => hy a (by simp [ha])) h.2
          exact ⟨by rw [h.1, h₁], h₂⟩

theorem joinSp2_inj :
    ∀ A B : List (List Char),
      (∀ x ∈ A, x ≠ [] ∧ ∀ c ∈ x, isSpaceC c = false) →
      (∀ x ∈ B, x ≠ [] ∧ ∀ c ∈ x, isSpaceC c = false) →
      joinSp2 A = joinSp2 B → A = B := by
  intro A
  induction A with
  | nil =>
      intro B _ hB h
      cases B with
      | nil => rfl
      | cons y ys =>
          exfalso
          obtain ⟨hne, -⟩ := hB y (by simp)
          cases ys with
          | nil => exact hne (by simpa [joinSp2] using h.symm)
          | cons z zs =>
              rw [show joinSp2 (y :: z :: zs) = y ++ ' ' :: joinSp2 (z :: zs)
                from rfl] at h
              cases y with
              | nil => simp [joinSp2] at h
              | cons c y₁ => simp [joinSp2] at h
  | cons x xs ih =>
      intro B hA hB h
      cases B with
      | nil =>
          exfalso
          obtain ⟨hne, -⟩ := hA x (by simp)
          cases xs with
          | nil => exact hne (by simpa [joinSp2] using h)
          | cons z zs =>
              rw [show joinSp2 (x :: z :: zs) = x ++ ' ' :: joinSp2 (z :: zs)
                from rfl] at h
              cases x with
              | nil => simp [joinSp2] at h
              | cons c x₁ => simp [joinSp2] at h
      | cons y ys =>
          cases xs with
          | nil =>
              cases ys with
              | nil =>
                  rw [show joinSp2 [x] = x from rfl,
                    show joinSp2 [y] = y from rfl] at h
                  rw [h]
              | cons z zs =>
                  exfalso
                  rw [show joinSp2 [x] = x from rfl,
                    show joinSp2 (y :: z :: zs) = y ++ ' ' :: joinSp2 (z :: zs)
                      from rfl] at h
                  have hsp : ' ' ∈ x := by
                    rw [h]
                    simp
                  have := (hA x (by simp)).2 ' ' hsp
                  simp [isSpaceC] at this
          | cons w ws =>
              cases ys with
              | nil =>
                  exfalso
                  rw [show joinSp2 [y] = y from rfl,
                    show joinSp2 (x :: w :: ws) = x ++ ' ' :: joinSp2 (w :: ws)
                      from rfl] at h
                  have hsp : ' ' ∈ y := by
                    rw [← h]
                    simp
                  have := (hB y (by simp)).2 ' ' hsp
                  simp [isSpaceC] at this
              | cons z zs =>
                  rw [show joinSp2 (x :: w :: ws) = x ++ ' ' :: joinSp2 (w :: ws)
                    from rfl, show joinSp2 (y :: z :: zs)
                    = y ++ ' ' :: joinSp2 (z :: zs) from rfl] at h
                  obtain ⟨h₁, h₂⟩ := append_space_inj x y _ _
                    ((hA x (by simp)).2) ((hB y (by simp)).2) h
                  have htl : (w :: ws) = (z :: zs) :=
                    ih (z :: zs) (fun t ht => hA t (by simp [ht]))
                      (fun t ht => hB t (by simp [ht])) h₂
                  rw [h₁, htl]

/-! ## Claim C3: normalization does not merge distinct non-volatile content -/

/-- Literal words for the no-false-merging direction: non-digit,
non-hex-letter, non-whitespace characters, so that no substitution pass
and no strip can touch them. -/
def Tok.wfPlain : Tok → Bool
  | .lit s => decide (s ≠ []) && s.all plainChar
  | t => t.wfStrict

theorem plainChar_elim (c : Char) (h : plainChar c = true) :
    litChar c = true ∧ isHexC c = false ∧ isSpaceC c = false := by
  rw [plainChar, Bool.and_eq_true, Bool.and_eq_true, Bool.not_eq_true',
    Bool.not_eq_true'] at h
  exact ⟨h.1.1, h.1.2, h.2⟩

theorem wfPlain_lit {s : List Char} (h : Tok.wfPlain (.lit s) = true) :
    s ≠ [] ∧ ∀ c ∈ s, plainChar c = true := by
  rw [Tok.wfPlain, Bool.and_eq_true, decide_eq_true_eq, List.all_eq_true] at h
  exact ⟨h.1, fun c hc => by simpa using h.2 c hc⟩

theorem wfPlain_strict (t : Tok) (h : t.wfPlain = true) : t.wfStrict = true := by
  cases t with
  | lit s =>
      obtain ⟨hne, hp⟩ := wfPlain_lit h
      rw [Tok.wfStrict, Bool.and_eq_true, decide_eq_true_eq, List.all_eq_true]
      exact ⟨hne, fun c hc => by simpa using (plainChar_elim c (hp c hc)).1⟩
  | hexTok a => exact h
  | seqTok a => exact h
  | tsTok _ _ _ _ _ _ _ _ _ _ _ _ _ _ => exact h
  | hashTok a => exact h
  | numTok a => exact h

theorem tokNorm_lit_plain (s : List Char)
    (h : ∀ c ∈ s, plainChar c = true) : tokNorm (.lit s) = s := by
  show substP matchHash "<hash>".data false s = s
  exact substP_id_of matchHash _ (fun l => ∀ c ∈ l, isHexC c = false)
    (fun c cs hP x hx => hP x (by simp [hx]))
    (fun pw l hP => matchHash_none_noHex pw l hP) s false
    (fun c hc => (plainChar_elim c (h c hc)).2.1)

theorem tokNorm_conds (t : Tok) (h : t.wfPlain = true) :
    tokNorm t ≠ [] ∧ ∀ c ∈ tokNorm t, isSpaceC c = false := by
  cases t with
  | lit s =>
      obtain ⟨hne, hp⟩ := wfPlain_lit h
      rw [tokNorm_lit_plain s hp]
      exact ⟨hne, fun c hc => (plainChar_elim c (hp c hc)).2.2⟩
  | hexTok a =>
      rw [show tokNorm (Tok.hexTok a) = "<hex>".data from rfl]
      exact ⟨by decide, by decide⟩
  | seqTok a =>
      rw [show tokNorm (Tok.seqTok a) = "seq=<N>".data from rfl]
      exact ⟨by decide, by decide⟩
  | tsTok p₁ p₂ p₃ p₄ p₅ p₆ p₇ p₈ p₉ q₁ q₂ q₃ q₄ q₅ =>
      rw [show tokNorm (Tok.tsTok p₁ p₂ p₃ p₄ p₅ p₆ p₇ p₈ p₉ q₁ q₂ q₃ q₄ q₅)
        = "<timestamp>".data from rfl]
      exact ⟨by decide, by decide⟩
  | hashTok a =>
      rw [show tokNorm (Tok.hashTok a) = "<hash>".data from rfl]
      exact ⟨by decide, by decide⟩
  | numTok a =>
      rw [show tokNorm (Tok.numTok a) = "<N>".data from rfl]
      exact ⟨by decide, by decide⟩

theorem sameShape_of_eq_norm (t₁ t₂ : Tok)
    (h₁ : t₁.wfPlain = true) (h₂ : t₂.wfPlain = true)
    (hk : t₁.kindEq t₂ = true) (hn : tokNorm t₁ = tokNorm t₂) :
    t₁.sameShape t₂ = true := by
  cases t₁ with
  | lit s =>
      cases t₂ with
      | lit t =>
          obtain ⟨-, hp₁⟩ := wfPlain_lit h₁
          obtain ⟨-, hp₂⟩ := wfPlain_lit h₂
          rw [tokNorm_lit_plain s hp₁, tokNorm_lit_plain t hp₂] at hn
          rw [Tok.sameShape, hn, decide_eq_true_eq]
      | hexTok b => simp [Tok.kindEq] at hk
      | seqTok b => simp [Tok.kindEq] at hk
      | tsTok _ _ _ _ _ _ _ _ _ _ _ _ _ _ => simp [Tok.kindEq] at hk
      | hashTok b => simp [Tok.kindEq] at hk
      | numTok b => simp [Tok.kindEq] at hk
  | hexTok a => cases t₂ <;> simp_all [Tok.kindEq, Tok.sameShape]
  | seqTok a => cases t₂ <;> simp_all [Tok.kindEq, Tok.sameShape]
  | tsTok _ _ _ _ _ _ _ _ _ _ _ _ _ _ =>
      cases t₂ <;> simp_all [Tok.kindEq, Tok.sameShape]
  | hashTok a => cases t₂ <;> simp_all [Tok.kindEq, Tok.sameShape]
  | numTok a => cases t₂ <;> simp_all [Tok.kindEq, Tok.sameShape]

theorem sameShapeL_of_norm :
    ∀ ts₁ ts₂ : List Tok,
      (∀ t ∈ ts₁, t.wfPlain = true) → (∀ t ∈ ts₂, t.wfPlain = true) →
      kindEqL ts₁ ts₂ = true → ts₁.map tokNorm = ts₂.map tokNorm →
      sameShapeL ts₁ ts₂ = true := by
  intro ts₁
  induction ts₁ with
  | nil =>
      intro ts₂ _ _ hk _
      cases ts₂ with
      | nil => rfl
      | cons t ts => simp [kindEqL] at hk
  | cons t ts₁₁ ih =>
      intro ts₂ hp₁ hp₂ hk hn
      cases ts₂ with
      | nil => simp [kindEqL] at hk
      | cons t₂ ts₂₁ =>
          rw [kindEqL, Bool.and_eq_true] at hk
          rw [List.map_cons, List.map_cons, List.cons_eq_cons] at hn
          rw [sameShapeL, Bool.and_eq_true]
          exact ⟨sameShape_of_eq_norm t t₂ (hp₁ t (by simp)) (hp₂ t₂ (by simp))
              hk.1 hn.1,
            ih ts₂₁ (fun x hx => hp₁ x (by simp [hx]))
              (fun x hx => hp₂ x (by simp [hx])) hk.2 hn.2⟩

/-- C3 (amended): two messages built from the same kinds of volatile
fields at the same slots but with literal words drawn from plain
characters — no digits, no hex letters, no whitespace — that differ in
at least one literal word normalize to different keys.  As stated the
claim is false: messages may also differ in substrings no volatile
pattern matches which normalization still erases, e.g. trailing
whitespace removed by the final strip. -/
theorem claim_C3_no_false_merging (ts₁ ts₂ : List Tok)
    (h₁ : ∀ t ∈ ts₁, t.wfPlain = true) (h₂ : ∀ t ∈ ts₂, t.wfPlain = true)
    (hk : kindEqL ts₁ ts₂ = true) (hd : sameShapeL ts₁ ts₂ = false) :
    normalizeMessage ⟨renderToks ts₁⟩ ≠ normalizeMessage ⟨renderToks ts₂⟩ := by
  intro heq
  have hw₁ : ∀ t ∈ ts₁, t.wfStrict = true :=
    fun t ht => wfPlain_strict t (h₁ t ht)
  have hw₂ : ∀ t ∈ ts₂, t.wfStrict = true :=
    fun t ht => wfPlain_strict t (h₂ t ht)
  have hdata : normalizeL (renderToks ts₁) = normalizeL (renderToks ts₂) :=
    congrArg String.data heq
  rw [normalizeL_renderToks ts₁ hw₁, normalizeL_renderToks ts₂ hw₂] at hdata
  have hc₁ : ∀ x ∈ ts₁.map tokNorm, x ≠ [] ∧ ∀ c ∈ x, isSpaceC c = false := by
    intro x hx
    obtain ⟨t, ht, rfl⟩ := List.mem_map.mp hx
    exact tokNorm_conds t (h₁ t ht)
  have hc₂ : ∀ x ∈ ts₂.map tokNorm, x ≠ [] ∧ ∀ c ∈ x, isSpaceC c = false := by
    intro x hx
    obtain ⟨t, ht, rfl⟩ := List.mem_map.mp hx
    exact tokNorm_conds t (h₂ t ht)
  rw [stripL_joinSp _ hc₁, stripL_joinSp _ hc₂] at hdata
  have hmap : ts₁.map tokNorm = ts₂.map tokNorm :=
    joinSp2_inj _ _ hc₁ hc₂ hdata
  rw [sameShapeL_of_norm ts₁ ts₂ h₁ h₂ hk hmap] at hd
  exact Bool.false_ne_true hd.symm

/-- C3 witness: two messages that differ in one plain literal word keep
distinct normalized keys. -/
theorem claim_C3_no_false_merging_witness :
    normalizeMessage
      ⟨renderToks [Tok.lit "spin".data, Tok.hexTok "ff".data]⟩
      ≠ normalizeMessage
        ⟨renderToks [Tok.lit "worn".data, Tok.hexTok "AB".data]⟩ :=
  claim_C3_no_false_merging _ _ (by decide) (by decide) (by decide) (by decide)

/-- C3 counterexample: the messages differ only in a trailing space,
which none of the five volatile-field patterns matches, yet they
normalize to the same key because of the final strip. -/
theorem claim_C3_counterexample :
    ("x " ≠ "x")
    ∧ matchHex false [' '] = none ∧ matchSeq false [' '] = none
    ∧ matchTs false [' '] = none ∧ matchHash false [' '] = none
    ∧ matchNum false [' '] = none
    ∧ normalizeMessage "x " = normalizeMessage "x" :=
  ⟨by decide, by decide, by decide, by decide, by decide, by decide, by decide⟩

/-! ## Claim C10: idempotence of normalization.

The key invariants: after each pass, the text admits no match of that
pass's pattern at any position (in the suffix sense for the patterns
without word boundaries, and in a scan-threaded sense for the two
`\b`-guarded patterns), and later passes and the final strip preserve
these.  A second normalization then changes nothing. -/

/-- Head shape of a `0x...` hex-literal match: the three characters that
decide whether `matchHex` fires. -/
def hexShape : List (Char → Bool) := [(· = '0'), (· = 'x'), isHexC]

/-- Head shape of a `seq=` marker match: the five deciding characters. -/
def seqShape : List (Char → Bool) :=
  [(· = 's'), (· = 'e'), (· = 'q'), (· = '='), isDigitC]

theorem matchHex_none_iff (pw : Bool) (l : List Char) :
    matchHex pw l = none ↔ matchesShape hexShape l = false := by
  rcases l with _ | ⟨c₁, _ | ⟨c₂, _ | ⟨c₃, rest⟩⟩⟩ <;>
    simp [matchHex, matchesShape, hexShape, runLen] <;>
    split_ifs <;> simp_all

theorem matchSeq_none_iff (pw : Bool) (l : List Char) :
    matchSeq pw l = none ↔ matchesShape seqShape l = false := by
  rcases l with _ | ⟨c₁, _ | ⟨c₂, _ | ⟨c₃, _ | ⟨c₄, _ | ⟨c₅, rest⟩⟩⟩⟩⟩ <;>
    simp [matchSeq, matchesShape, seqShape, runLen] <;>
    split_ifs <;> simp_all

theorem matchTs_none_iff (pw : Bool) (l : List Char) :
    matchTs pw l = none ↔ matchesShape tsShape l = false := by
  rw [matchTs]
  split_ifs with h <;> simp [h]

theorem matchesShape_take :
    ∀ (ps : List (Char → Bool)) (l : List Char),
      matchesShape ps (l.take ps.length) = matchesShape ps l := by
  intro ps
  induction ps with
  | nil => intro l; rfl
  | cons p ps ih =>
      intro l
      cases l with
      | nil => rfl
      | cons c cs =>
          rw [show (c :: cs).take (p :: ps).length = c :: cs.take ps.length
            from rfl, matchesShape, matchesShape, ih cs]

theorem matchesShape_bad :
    ∀ (ps : List (Char → Bool)) (p t : List Char) (r₀ : Char),
      p.length < ps.length → (∀ q ∈ ps, q r₀ = false) →
      matchesShape ps (p ++ r₀ :: t) = false := by
  intro ps
  induction ps with
  | nil => intro p t r₀ h _; simp at h
  | cons q ps ih =>
      intro p t r₀ h hq
      cases p with
      | nil =>
          rw [List.nil_append, matchesShape, hq q (by simp)]
          simp
      | cons c p₁ =>
          rw [List.cons_append, matchesShape,
            ih p₁ t r₀ (by simpa using h) (fun x hx => hq x (by simp [hx]))]
          simp

theorem matchesShape_bad2 :
    ∀ (ps : List (Char → Bool)) (p t : List Char) (r₀ : Char),
      p ≠ [] → p.length < ps.length → (∀ q ∈ ps.drop 1, q r₀ = false) →
      matchesShape ps (p ++ r₀ :: t) = false := by
  intro ps
  induction ps with
  | nil => intro p t r₀ _ h _; simp at h
  | cons q ps ih =>
      intro p t r₀ hne h hq
      cases p with
      | nil => exact absurd rfl hne
      | cons c p₁ =>
          rw [List.cons_append, matchesShape]
          cases p₁ with
          | nil =>
              cases ps with
              | nil => simp at h
              | cons q₁ ps₁ =>
                  rw [List.nil_append, matchesShape, hq q₁ (by simp)]
                  simp
          | cons c₂ p₂ =>
              have hq₁ : ∀ x ∈ ps.drop 1, x r₀ = false := by
                intro x hx
                exact hq x (List.mem_of_mem_drop hx)
              rw [ih (c₂ :: p₂) t r₀ (by simp) (by simpa using h) hq₁]
              simp

theorem matchesShape_ext (ps : List (Char → Bool)) (l₁ l₂ : List Char)
    (h : l₁.take ps.length = l₂.take ps.length) :
    matchesShape ps l₁ = matchesShape ps l₂ := by
  rw [← matchesShape_take ps l₁, ← matchesShape_take ps l₂, h]

/-- No match of `M` at any position of `l` (for the patterns that ignore
the previous-character flag). -/
def SufNone (M : Bool → List Char → Option Nat) (l : List Char) : Prop :=
  ∀ i : Nat, M false (l.drop i) = none

theorem sufNone_cons {M : Bool → List Char → Option Nat} {c : Char}
    {cs : List Char} (h : M false (c :: cs) = none) (ht : SufNone M cs) :
    SufNone M (c :: cs) := by
  intro i
  cases i with
  | zero => exact h
  | succ j => exact ht j

theorem sufNone_tail {M : Bool → List Char → Option Nat} {c : Char}
    {cs : List Char} (h : SufNone M (c :: cs)) : SufNone M cs :=
  fun i => h (i + 1)

theorem sufNone_drop {M : Bool → List Char → Option Nat} {l : List Char}
    (h : SufNone M l) (n : Nat) : SufNone M (l.drop n) := by
  intro i
  rw [List.drop_drop]
  exact h (n + i)

theorem sufNone_append {M : Bool → List Char → Option Nat}
    {A B : List Char}
    (hA : ∀ i, i < A.length → M false (A.drop i ++ B) = none)
    (hB : SufNone M B) : SufNone M (A ++ B) := by
  intro i
  by_cases hi : i < A.length
  · rw [List.drop_append_of_le_length (le_of_lt hi)]
    exact hA i hi
  · rw [show i = A.length + (i - A.length) from by omega, List.drop_append]
    exact hB (i - A.length)

/-- The output of a substitution scan is the input unchanged, or splits
as an input prefix, the replacement, and a remainder. -/
theorem substP_prefix_or (M : Bool → List Char → Option Nat)
    (rep : List Char) :
    ∀ (n : Nat) (l : List Char) (pw : Bool), l.length ≤ n →
      substP M rep pw l = l ∨
        ∃ p s t, l = p ++ s ∧ substP M rep pw l = p ++ rep ++ t := by
  intro n
  induction n with
  | zero =>
      intro l pw h
      have : l = [] := List.length_eq_zero.mp (Nat.le_zero.mp h)
      subst this
      exact Or.inl rfl
  | succ m ih =>
      intro l pw h
      cases l with
      | nil => exact Or.inl rfl
      | cons c cs =>
          rcases hM : M pw (c :: cs) with - | k
          · rw [substP_cons_none M rep pw c cs hM]
            rcases ih cs (isWordC c) (by simpa using h) with h₁ | ⟨p, s, t, hps, ho⟩
            · exact Or.inl (by rw [h₁])
            · exact Or.inr ⟨c :: p, s, t, by rw [hps]; rfl,
                by rw [ho]; rfl⟩
          · cases k with
            | zero =>
                have e : substP M rep pw (c :: cs)
                    = c :: substP M rep (isWordC c) cs := by
                  rw [substP, show (c :: cs).length = cs.length + 1 from rfl]
                  simp only [substF, hM]
                  rw [substP]
                rw [e]
                rcases ih cs (isWordC c) (by simpa using h) with h₁ | ⟨p, s, t, hps, ho⟩
                · exact Or.inl (by rw [h₁])
                · exact Or.inr ⟨c :: p, s, t, by rw [hps]; rfl,
                    by rw [ho]; rfl⟩
            | succ k₁ =>
                rw [substP_cons_some M rep pw c cs k₁ hM]
                exact Or.inr ⟨[], c :: cs, _, rfl, rfl⟩

/-- Master preservation lemma: a pattern `M` whose match decision is a
character shape at the head finds nothing in the output of any
substitution scan, provided it finds nothing in the input (for a
self-scan, the scan's own misses provide this), the replacement's head
character fails every shape position, and no suffix of the replacement
can start a match. -/
theorem sufNone_substP_master
    (M M₂ : Bool → List Char → Option Nat)
    (shp : List (Char → Bool)) (r₀ : Char) (rt : List Char)
    (hshp : shp ≠ [])
    (hiff : ∀ pw l, M pw l = none ↔ matchesShape shp l = false)
    (hbadc : ∀ q ∈ shp.drop 1, q r₀ = false)
    (hsuf : ∀ i t, i < (r₀ :: rt).length →
      M false ((r₀ :: rt).drop i ++ t) = none)
    (hM0 : ∀ pw l, M₂ pw l ≠ some 0) :
    ∀ (n : Nat) (l : List Char) (pw : Bool), l.length ≤ n →
      (∀ i pw₂, M₂ pw₂ (l.drop i) = none → M false (l.drop i) = none) →
      SufNone M (substP M₂ (r₀ :: rt) pw l) := by
  intro n
  induction n with
  | zero =>
      intro l pw h _
      have hl : l = [] := List.length_eq_zero.mp (Nat.le_zero.mp h)
      subst hl
      intro i
      rw [show substP M₂ (r₀ :: rt) pw [] = [] from rfl, List.drop_nil,
        hiff]
      cases shp with
      | nil => exact absurd rfl hshp
      | cons q ps => rfl
  | succ m ih =>
      intro l pw h hmix
      cases l with
      | nil =>
          intro i
          rw [show substP M₂ (r₀ :: rt) pw [] = [] from rfl, List.drop_nil,
            hiff]
          cases shp with
          | nil => exact absurd rfl hshp
          | cons q ps => rfl
      | cons c cs =>
          rcases hM : M₂ pw (c :: cs) with - | k
          · rw [substP_cons_none M₂ (r₀ :: rt) pw c cs hM]
            have hc : M false (c :: cs) = none := by
              have h0 := hmix 0 pw
              rw [List.drop_zero] at h0
              exact h0 hM
            refine sufNone_cons ?_ ?_
            · rcases substP_prefix_or M₂ (r₀ :: rt) cs.length cs (isWordC c)
                (le_refl _) with ho | ⟨p, s, t, hps, ho⟩
              · rw [ho]; exact hc
              · rw [ho]
                have hform : c :: (p ++ (r₀ :: rt) ++ t)
                    = (c :: p) ++ r₀ :: (rt ++ t) := by simp
                rw [hform, hiff]
                by_cases hlen : (c :: p).length < shp.length
                · exact matchesShape_bad2 shp (c :: p) (rt ++ t) r₀
                    (by simp) hlen hbadc
                · have heq : ((c :: p) ++ r₀ :: (rt ++ t)).take shp.length
                      = (c :: cs).take shp.length := by
                    rw [hps, show c :: (p ++ s) = (c :: p) ++ s from rfl,
                      List.take_append_of_le_length (by omega),
                      List.take_append_of_le_length (by omega)]
                  rw [matchesShape_ext shp _ _ heq]
                  exact (hiff false (c :: cs)).mp hc
            · refine ih cs (isWordC c) (by simpa using h) ?_
              intro i pw₂ h2
              have h3 := hmix (i + 1) pw₂
              rw [List.drop_succ_cons] at h3
              exact h3 h2
          · cases k with
            | zero => exact absurd hM (hM0 pw (c :: cs))
            | succ k₁ =>
                rw [substP_cons_some M₂ (r₀ :: rt) pw c cs k₁ hM]
                refine sufNone_append (fun i hi => hsuf i _ hi) ?_
                refine ih (cs.drop k₁) _
                  (by rw [List.length_drop]; simp at h; omega) ?_
                intro i pw₂ h2
                rw [List.drop_drop] at h2 ⊢
                have h3 := hmix (k₁ + i + 1) pw₂
                rw [List.drop_succ_cons] at h3
                exact h3 h2

theorem matchHex_ne_some0 (pw : Bool) (l : List Char) :
    matchHex pw l ≠ some 0 := by
  rcases l with _ | ⟨a, _ | ⟨b, r⟩⟩ <;> simp [matchHex] <;>
    split_ifs <;> simp <;> omega

theorem matchSeq_ne_some0 (pw : Bool) (l : List Char) :
    matchSeq pw l ≠ some 0 := by
  rcases l with _ | ⟨a, _ | ⟨b, _ | ⟨c, _ | ⟨d, r⟩⟩⟩⟩ <;> simp [matchSeq] <;>
    split_ifs <;> simp <;> omega

theorem matchTs_ne_some0 (pw : Bool) (l : List Char) :
    matchTs pw l ≠ some 0 := by
  rw [matchTs]
  split_ifs <;> simp

theorem matchHash_ne_some0 (pw : Bool) (l : List Char) :
    matchHash pw l ≠ some 0 := by
  rw [matchHash]
  split_ifs with h1 h2
  · simp
  · intro h
    simp only [Option.some.injEq] at h
    rw [h] at h2
    simp at h2
  · simp

theorem matchNum_ne_some0 (pw : Bool) (l : List Char) :
    matchNum pw l ≠ some 0 := by
  rw [matchNum]
  split_ifs with h1 h2
  · simp
  · intro h
    simp only [Option.some.injEq] at h
    rw [h] at h2
    simp at h2
  · simp

theorem hsuf_hex_hexrep : ∀ (i : Nat) (t : List Char),
    i < (['<', 'h', 'e', 'x', '>'] : List Char).length →
    matchHex false ((['<', 'h', 'e', 'x', '>'] : List Char).drop i ++ t) = none := by
  intro i t hi
  rw [matchHex_none_iff]
  simp only [List.length_cons, List.length_nil] at hi
  interval_cases i <;> simp [matchesShape, hexShape] <;> decide

theorem hsuf_hex_seqrep : ∀ (i : Nat) (t : List Char),
    i < (['s', 'e', 'q', '=', '<', 'N', '>'] : List Char).length →
    matchHex false ((['s', 'e', 'q', '=', '<', 'N', '>'] : List Char).drop i ++ t) = none := by
  intro i t hi
  rw [matchHex_none_iff]
  simp only [List.length_cons, List.length_nil] at hi
  interval_cases i <;> simp [matchesShape, hexShape] <;> decide

theorem hsuf_hex_tsrep : ∀ (i : Nat) (t : List Char),
    i < ("<timestamp>".data).length →
    matchHex false (("<timestamp>".data).drop i ++ t) = none := by
  intro i t hi
  rw [tsRep_chars] at hi ⊢
  rw [matchHex_none_iff]
  simp only [List.length_cons, List.length_nil] at hi
  interval_cases i <;> simp [matchesShape, hexShape] <;> decide

theorem hsuf_hex_hashrep : ∀ (i : Nat) (t : List Char),
    i < (['<', 'h', 'a', 's', 'h', '>'] : List Char).length →
    matchHex false ((['<', 'h', 'a', 's', 'h', '>'] : List Char).drop i ++ t) = none := by
  intro i t hi
  rw [matchHex_none_iff]
  simp only [List.length_cons, List.length_nil] at hi
  interval_cases i <;> simp [matchesShape, hexShape] <;> decide

theorem hsuf_hex_numrep : ∀ (i : Nat) (t : List Char),
    i < (['<', 'N', '>'] : List Char).length →
    matchHex false ((['<', 'N', '>'] : List Char).drop i ++ t) = none := by
  intro i t hi
  rw [matchHex_none_iff]
  simp only [List.length_cons, List.length_nil] at hi
  interval_cases i <;> simp [matchesShape, hexShape] <;> decide

theorem hsuf_seq_seqrep : ∀ (i : Nat) (t : List Char),
    i < (['s', 'e', 'q', '=', '<', 'N', '>'] : List Char).length →
    matchSeq false ((['s', 'e', 'q', '=', '<', 'N', '>'] : List Char).drop i ++ t) = none := by
  intro i t hi
  rw [matchSeq_none_iff]
  simp only [List.length_cons, List.length_nil] at hi
  interval_cases i <;> simp [matchesShape, seqShape] <;> decide

theorem hsuf_seq_tsrep : ∀ (i : Nat) (t : List Char),
    i < ("<timestamp>".data).length →
    matchSeq false (("<timestamp>".data).drop i ++ t) = none := by
  intro i t hi
  rw [tsRep_chars] at hi ⊢
  rw [matchSeq_none_iff]
  simp only [List.length_cons, List.length_nil] at hi
  interval_cases i <;> simp [matchesShape, seqShape] <;> decide

theorem hsuf_seq_hashrep : ∀ (i : Nat) (t : List Char),
    i < (['<', 'h', 'a', 's', 'h', '>'] : List Char).length →
    matchSeq false ((['<', 'h', 'a', 's', 'h', '>'] : List Char).drop i ++ t) = none := by
  intro i t hi
  rw [matchSeq_none_iff]
  simp only [List.length_cons, List.length_nil] at hi
  interval_cases i <;> simp [matchesShape, seqShape] <;> decide

theorem hsuf_seq_numrep : ∀ (i : Nat) (t : List Char),
    i < (['<', 'N', '>'] : List Char).length →
    matchSeq false ((['<', 'N', '>'] : List Char).drop i ++ t) = none := by
  intro i t hi
  rw [matchSeq_none_iff]
  simp only [List.length_cons, List.length_nil] at hi
  interval_cases i <;> simp [matchesShape, seqShape] <;> decide

theorem matchesShape_ts_nonDigit (c : Char) (t : List Char)
    (h : isDigitC c = false) : matchesShape tsShape (c :: t) = false := by
  rw [tsShape, matchesShape, h]
  simp

theorem hsuf_ts_tsrep : ∀ (i : Nat) (t : List Char),
    i < ("<timestamp>".data).length →
    matchTs false (("<timestamp>".data).drop i ++ t) = none := by
  intro i t hi
  rw [tsRep_chars] at hi ⊢
  rw [matchTs_none_iff]
  simp only [List.length_cons, List.length_nil] at hi
  interval_cases i <;> exact matchesShape_ts_nonDigit _ _ (by decide)

theorem hsuf_ts_hashrep : ∀ (i : Nat) (t : List Char),
    i < (['<', 'h', 'a', 's', 'h', '>'] : List Char).length →
    matchTs false ((['<', 'h', 'a', 's', 'h', '>'] : List Char).drop i ++ t) = none := by
  intro i t hi
  rw [matchTs_none_iff]
  simp only [List.length_cons, List.length_nil] at hi
  interval_cases i <;> exact matchesShape_ts_nonDigit _ _ (by decide)

theorem hsuf_ts_numrep : ∀ (i : Nat) (t : List Char),
    i < (['<', 'N', '>'] : List Char).length →
    matchTs false ((['<', 'N', '>'] : List Char).drop i ++ t) = none := by
  intro i t hi
  rw [matchTs_none_iff]
  simp only [List.length_cons, List.length_nil] at hi
  interval_cases i <;> exact matchesShape_ts_nonDigit _ _ (by decide)

theorem matchesShape_append_true :
    ∀ (ps : List (Char → Bool)) (l t : List Char),
      matchesShape ps l = true → matchesShape ps (l ++ t) = true := by
  intro ps
  induction ps with
  | nil => intro l t _; rfl
  | cons p ps ih =>
      intro l t h
      cases l with
      | nil => simp [matchesShape] at h
      | cons c cs =>
          rw [matchesShape, Bool.and_eq_true] at h
          rw [show (c :: cs) ++ t = c :: (cs ++ t) from rfl, matchesShape,
            Bool.and_eq_true]
          exact ⟨h.1, ih cs t h.2⟩

theorem sufNone_unappend (M : Bool → List Char → Option Nat)
    (shp : List (Char → Bool))
    (hiff : ∀ pw l, M pw l = none ↔ matchesShape shp l = false)
    (A B : List Char) (h : SufNone M (A ++ B)) : SufNone M A := by
  intro i
  by_cases hi : i ≤ A.length
  · have h2 := h i
    rw [List.drop_append_of_le_length hi] at h2
    rw [hiff] at h2 ⊢
    by_contra hc
    have ht : matchesShape shp (A.drop i) = true := by
      cases hx : matchesShape shp (A.drop i)
      · exact absurd hx hc
      · rfl
    rw [matchesShape_append_true shp _ B ht] at h2
    exact absurd h2 (by simp)
  · rw [List.drop_eq_nil_of_le (by omega)]
    have h2 := h (A.length + B.length)
    rw [List.drop_eq_nil_of_le (by simp)] at h2
    exact h2

theorem dropWhile_eq_drop (p : Char → Bool) :
    ∀ l : List Char, ∃ a, l.dropWhile p = l.drop a := by
  intro l
  induction l with
  | nil => exact ⟨0, rfl⟩
  | cons c cs ih =>
      rw [List.dropWhile_cons]
      by_cases h : p c = true
      · rw [if_pos h]
        obtain ⟨a, ha⟩ := ih
        exact ⟨a + 1, by rw [ha]; rfl⟩
      · rw [if_neg h]
        exact ⟨0, rfl⟩

theorem rev_dropWhile_decomp (p : Char → Bool) (l : List Char) :
    l = (l.reverse.dropWhile p).reverse ++ (l.reverse.takeWhile p).reverse := by
  have h := List.takeWhile_append_dropWhile (p := p) (l := l.reverse)
  calc l = l.reverse.reverse := (l.reverse_reverse).symm
  _ = (l.reverse.takeWhile p ++ l.reverse.dropWhile p).reverse := by rw [h]
  _ = (l.reverse.dropWhile p).reverse ++ (l.reverse.takeWhile p).reverse := by
      rw [List.reverse_append]

theorem sufNone_stripL (M : Bool → List Char → Option Nat)
    (shp : List (Char → Bool))
    (hiff : ∀ pw l, M pw l = none ↔ matchesShape shp l = false)
    (l : List Char) (h : SufNone M l) : SufNone M (stripL l) := by
  rw [stripL]
  obtain ⟨a, ha⟩ := dropWhile_eq_drop isSpaceC l
  have h1 : SufNone M (l.dropWhile isSpaceC) := by
    rw [ha]; exact sufNone_drop h a
  have hdec := rev_dropWhile_decomp isSpaceC (l.dropWhile isSpaceC)
  rw [hdec] at h1
  exact sufNone_unappend M shp hiff _ _ h1

theorem substP_id_of_sufNone (M : Bool → List Char → Option Nat)
    (hpw : ∀ pw l, M pw l = M false l) (rep : List Char) (l : List Char)
    (pw : Bool) (h : SufNone M l) : substP M rep pw l = l :=
  substP_id_of M rep (SufNone M) (fun c cs hs => sufNone_tail hs)
    (fun pw2 l2 hP => by
      rw [hpw pw2 l2]
      have h0 := hP 0
      rwa [List.drop_zero] at h0) l pw h

theorem matchHex_pwfree (pw : Bool) (l : List Char) :
    matchHex pw l = matchHex false l := rfl

theorem matchSeq_pwfree (pw : Bool) (l : List Char) :
    matchSeq pw l = matchSeq false l := rfl

theorem matchTs_pwfree (pw : Bool) (l : List Char) :
    matchTs pw l = matchTs false l := rfl

theorem hbadc_hex_lt : ∀ q ∈ hexShape, q '<' = false := by
  intro q hq
  simp only [hexShape, List.mem_cons, List.not_mem_nil, or_false] at hq
  rcases hq with rfl | rfl | rfl <;> decide

theorem hbadc_hex_s : ∀ q ∈ hexShape, q 's' = false := by
  intro q hq
  simp only [hexShape, List.mem_cons, List.not_mem_nil, or_false] at hq
  rcases hq with rfl | rfl | rfl <;> decide

theorem hbadc_seq_lt : ∀ q ∈ seqShape, q '<' = false := by
  intro q hq
  simp only [seqShape, List.mem_cons, List.not_mem_nil, or_false] at hq
  rcases hq with rfl | rfl | rfl | rfl | rfl <;> decide

theorem hbadc_ts_lt : ∀ q ∈ tsShape, q '<' = false := by
  intro q hq
  simp only [tsShape, List.mem_cons, List.not_mem_nil, or_false] at hq
  rcases hq with rfl | rfl | rfl | rfl | rfl | rfl | rfl | rfl | rfl | rfl |
    rfl | rfl | rfl | rfl | rfl | rfl | rfl | rfl | rfl <;> decide

theorem hbadc1_hex_lt : ∀ q ∈ hexShape.drop 1, q '<' = false :=
  fun q hq => hbadc_hex_lt q (List.mem_of_mem_drop hq)

theorem hbadc1_hex_s : ∀ q ∈ hexShape.drop 1, q 's' = false :=
  fun q hq => hbadc_hex_s q (List.mem_of_mem_drop hq)

theorem hbadc1_seq_lt : ∀ q ∈ seqShape.drop 1, q '<' = false :=
  fun q hq => hbadc_seq_lt q (List.mem_of_mem_drop hq)

theorem hbadc1_seq_s : ∀ q ∈ seqShape.drop 1, q 's' = false := by
  intro q hq
  simp only [seqShape, List.drop_succ_cons, List.drop_zero, List.mem_cons,
    List.not_mem_nil, or_false] at hq
  rcases hq with rfl | rfl | rfl | rfl <;> decide

theorem hbadc1_ts_lt : ∀ q ∈ tsShape.drop 1, q '<' = false :=
  fun q hq => hbadc_ts_lt q (List.mem_of_mem_drop hq)

theorem sufNone_hex_norm (l : List Char) : SufNone matchHex (normalizeL l) := by
  have hshp : hexShape ≠ [] := by simp [hexShape]
  have h1 : SufNone matchHex (pass1 l) := by
    rw [pass1, subst_eq_substP, hexRep_chars]
    exact sufNone_substP_master matchHex matchHex hexShape '<'
      ['h', 'e', 'x', '>'] hshp matchHex_none_iff hbadc1_hex_lt
      hsuf_hex_hexrep matchHex_ne_some0 l.length l false (le_refl _)
      (fun i pw₂ h => by rw [matchHex_pwfree] at h; exact h)
  have h2 : SufNone matchHex (pass2 (pass1 l)) := by
    rw [pass2, subst_eq_substP, seqRep_chars]
    exact sufNone_substP_master matchHex matchSeq hexShape 's'
      ['e', 'q', '=', '<', 'N', '>'] hshp matchHex_none_iff hbadc1_hex_s
      hsuf_hex_seqrep matchSeq_ne_some0 _ _ false (le_refl _)
      (fun i pw₂ _ => h1 i)
  have h3 : SufNone matchHex (pass3 (pass2 (pass1 l))) := by
    rw [pass3, subst_eq_substP, tsRep_chars]
    exact sufNone_substP_master matchHex matchTs hexShape '<'
      ['t', 'i', 'm', 'e', 's', 't', 'a', 'm', 'p', '>'] hshp
      matchHex_none_iff hbadc1_hex_lt hsuf_hex_tsrep matchTs_ne_some0
      _ _ false (le_refl _) (fun i pw₂ _ => h2 i)
  have h4 : SufNone matchHex (pass4 (pass3 (pass2 (pass1 l)))) := by
    rw [pass4, subst_eq_substP, hashRep_chars]
    exact sufNone_substP_master matchHex matchHash hexShape '<'
      ['h', 'a', 's', 'h', '>'] hshp matchHex_none_iff hbadc1_hex_lt
      hsuf_hex_hashrep matchHash_ne_some0 _ _ false (le_refl _)
      (fun i pw₂ _ => h3 i)
  have h5 : SufNone matchHex (pass5 (pass4 (pass3 (pass2 (pass1 l))))) := by
    rw [pass5, subst_eq_substP, numRep_chars]
    exact sufNone_substP_master matchHex matchNum hexShape '<'
      ['N', '>'] hshp matchHex_none_iff hbadc1_hex_lt
      hsuf_hex_numrep matchNum_ne_some0 _ _ false (le_refl _)
      (fun i pw₂ _ => h4 i)
  rw [normalizeL]
  exact sufNone_stripL matchHex hexShape matchHex_none_iff _ h5

theorem sufNone_seq_norm (l : List Char) :
    SufNone matchSeq (normalizeL l) := by
  have hshp : seqShape ≠ [] := by simp [seqShape]
  have h2 : SufNone matchSeq (pass2 (pass1 l)) := by
    rw [pass2, subst_eq_substP, seqRep_chars]
    exact sufNone_substP_master matchSeq matchSeq seqShape 's'
      ['e', 'q', '=', '<', 'N', '>'] hshp matchSeq_none_iff hbadc1_seq_s
      hsuf_seq_seqrep matchSeq_ne_some0 _ _ false (le_refl _)
      (fun i pw₂ h => by rw [matchSeq_pwfree] at h; exact h)
  have h3 : SufNone matchSeq (pass3 (pass2 (pass1 l))) := by
    rw [pass3, subst_eq_substP, tsRep_chars]
    exact sufNone_substP_master matchSeq matchTs seqShape '<'
      ['t', 'i', 'm', 'e', 's', 't', 'a', 'm', 'p', '>'] hshp
      matchSeq_none_iff hbadc1_seq_lt hsuf_seq_tsrep matchTs_ne_some0
      _ _ false (le_refl _) (fun i pw₂ _ => h2 i)
  have h4 : SufNone matchSeq (pass4 (pass3 (pass2 (pass1 l)))) := by
    rw [pass4, subst_eq_substP, hashRep_chars]
    exact sufNone_substP_master matchSeq matchHash seqShape '<'
      ['h', 'a', 's', 'h', '>'] hshp matchSeq_none_iff hbadc1_seq_lt
      hsuf_seq_hashrep matchHash_ne_some0 _ _ false (le_refl _)
      (fun i pw₂ _ => h3 i)
  have h5 : SufNone matchSeq (pass5 (pass4 (pass3 (pass2 (pass1 l))))) := by
    rw [pass5, subst_eq_substP, numRep_chars]
    exact sufNone_substP_master matchSeq matchNum seqShape '<'
      ['N', '>'] hshp matchSeq_none_iff hbadc1_seq_lt
      hsuf_seq_numrep matchNum_ne_some0 _ _ false (le_refl _)
      (fun i pw₂ _ => h4 i)
  rw [normalizeL]
  exact sufNone_stripL matchSeq seqShape matchSeq_none_iff _ h5

theorem sufNone_ts_norm (l : List Char) : SufNone matchTs (normalizeL l) := by
  have hshp : tsShape ≠ [] := by simp [tsShape]
  have h3 : SufNone matchTs (pass3 (pass2 (pass1 l))) := by
    rw [pass3, subst_eq_substP, tsRep_chars]
    exact sufNone_substP_master matchTs matchTs tsShape '<'
      ['t', 'i', 'm', 'e', 's', 't', 'a', 'm', 'p', '>'] hshp
      matchTs_none_iff hbadc1_ts_lt hsuf_ts_tsrep matchTs_ne_some0
      _ _ false (le_refl _)
      (fun i pw₂ h => by rw [matchTs_pwfree] at h; exact h)
  have h4 : SufNone matchTs (pass4 (pass3 (pass2 (pass1 l)))) := by
    rw [pass4, subst_eq_substP, hashRep_chars]
    exact sufNone_substP_master matchTs matchHash tsShape '<'
      ['h', 'a', 's', 'h', '>'] hshp matchTs_none_iff hbadc1_ts_lt
      hsuf_ts_hashrep matchHash_ne_some0 _ _ false (le_refl _)
      (fun i pw₂ _ => h3 i)
  have h5 : SufNone matchTs (pass5 (pass4 (pass3 (pass2 (pass1 l))))) := by
    rw [pass5, subst_eq_substP, numRep_chars]
    exact sufNone_substP_master matchTs matchNum tsShape '<'
      ['N', '>'] hshp matchTs_none_iff hbadc1_ts_lt
      hsuf_ts_numrep matchNum_ne_some0 _ _ false (le_refl _)
      (fun i pw₂ _ => h4 i)
  rw [normalizeL]
  exact sufNone_stripL matchTs tsShape matchTs_none_iff _ h5

/-- No match of `M` at any position of `l` when scanned with the
previous-character word flag threaded from `pw`, exactly as the
substitution engine threads it. -/
def NoMat (M : Bool → List Char → Option Nat) : Bool → List Char → Prop
  | _, [] => True
  | pw, c :: cs => M pw (c :: cs) = none ∧ NoMat M (isWordC c) cs

theorem noMat_retune (M : Bool → List Char → Option Nat) :
    ∀ (l : List Char) (pw₁ pw₂ : Bool), NoMat M pw₁ l →
      (∀ c cs, l = c :: cs → M pw₂ (c :: cs) = none) → NoMat M pw₂ l := by
  intro l pw₁ pw₂ h hh
  cases l with
  | nil => trivial
  | cons c cs => exact ⟨hh c cs rfl, h.2⟩

theorem substP_id_of_noMat (M : Bool → List Char → Option Nat)
    (rep : List Char) :
    ∀ (l : List Char) (pw : Bool), NoMat M pw l → substP M rep pw l = l := by
  intro l
  induction l with
  | nil => intro pw _; rfl
  | cons c cs ih =>
      intro pw h
      rw [substP_cons_none M rep pw c cs h.1, ih (isWordC c) h.2]

/-- The word flag after scanning a block of characters. -/
def pwEnd (pw : Bool) : List Char → Bool
  | [] => pw
  | c :: cs => pwEnd (isWordC c) cs

theorem noMat_append (M : Bool → List Char → Option Nat) :
    ∀ (A B : List Char) (pw : Bool), NoMat M pw (A ++ B) →
      NoMat M (pwEnd pw A) B := by
  intro A
  induction A with
  | nil => intro B pw h; exact h
  | cons a A₁ ih =>
      intro B pw h
      exact ih B (isWordC a) h.2

theorem pwEnd_false_nonword :
    ∀ (A : List Char), (∀ a ∈ A, isWordC a = false) → pwEnd false A = false := by
  intro A
  induction A with
  | nil => intro _; rfl
  | cons a A₁ ih =>
      intro h
      rw [pwEnd, h a (by simp)]
      exact ih (fun x hx => h x (by simp [hx]))

theorem runLen_take (p : Char → Bool) :
    ∀ l : List Char, ∀ a ∈ l.take (runLen p l), p a = true := by
  intro l
  induction l with
  | nil => intro a ha; simp at ha
  | cons c cs ih =>
      intro a ha
      rw [runLen] at ha
      by_cases hc : p c = true
      · rw [if_pos hc] at ha
        rw [List.take_succ_cons] at ha
        rcases List.mem_cons.mp ha with rfl | h₁
        · exact hc
        · exact ih a h₁
      · rw [if_neg hc] at ha
        simp at ha

theorem runLen_drop_head (p : Char → Bool) :
    ∀ l : List Char, l.drop (runLen p l) = [] ∨
      ∃ x xs, l.drop (runLen p l) = x :: xs ∧ p x = false := by
  intro l
  induction l with
  | nil => exact Or.inl rfl
  | cons c cs ih =>
      rw [runLen]
      by_cases hc : p c = true
      · rw [if_pos hc, List.drop_succ_cons]
        exact ih
      · rw [if_neg hc, List.drop_zero]
        exact Or.inr ⟨c, cs, rfl, by
          cases h : p c
          · rfl
          · exact absurd h hc⟩

theorem runLen_exact (p : Char → Bool) :
    ∀ (A : List Char) (x : Char) (B : List Char),
      (∀ a ∈ A, p a = true) → p x = false →
      runLen p (A ++ x :: B) = A.length := by
  intro A
  induction A with
  | nil =>
      intro x B _ hx
      rw [List.nil_append, runLen, if_neg (by rw [hx]; simp)]
      rfl
  | cons a A₁ ih =>
      intro x B hA hx
      rw [List.cons_append, runLen, if_pos (hA a (by simp)),
        ih x B (fun y hy => hA y (by simp [hy])) hx, List.length_cons]

theorem runLen_append_all (p : Char → Bool) :
    ∀ (A B : List Char), (∀ a ∈ A, p a = true) →
      runLen p (A ++ B) = A.length + runLen p B := by
  intro A
  induction A with
  | nil => intro B _; simp
  | cons a A₁ ih =>
      intro B hA
      rw [List.cons_append, runLen, if_pos (hA a (by simp)),
        ih B (fun y hy => hA y (by simp [hy])), List.length_cons]
      omega

theorem runLen_getD (p : Char → Bool) :
    ∀ (l : List Char) (i : Nat) (d : Char), i < runLen p l →
      p (l.getD i d) = true := by
  intro l
  induction l with
  | nil => intro i d h; simp [runLen] at h
  | cons c cs ih =>
      intro i d h
      rw [runLen] at h
      by_cases hc : p c = true
      · rw [if_pos hc] at h
        cases i with
        | zero => exact hc
        | succ j => exact ih j d (by omega)
      · rw [if_neg hc] at h
        omega

theorem digit_isWord (c : Char) (h : isDigitC c = true) : isWordC c = true := by
  rw [isWordC, h]
  simp

theorem nonword_nonhex (x : Char) (h : isWordC x = false) :
    isHexC x = false := by
  cases hx : isHexC x
  · rfl
  · rw [hex_isWord x hx] at h
    exact absurd h (by simp)

theorem nonword_nondigit (x : Char) (h : isWordC x = false) :
    isDigitC x = false := by
  cases hx : isDigitC x
  · rfl
  · rw [digit_isWord x hx] at h
    exact absurd h (by simp)

theorem space_not_word (c : Char) (h : isSpaceC c = true) :
    isWordC c = false := by
  rw [isSpaceC] at h
  simp only [Bool.or_eq_true, decide_eq_true_eq] at h
  rcases h with ⟨⟨⟨⟨rfl | rfl⟩ | rfl⟩ | rfl⟩ | rfl⟩ | rfl <;> decide

theorem matchHash_true_none (l : List Char) : matchHash true l = none := by
  rw [matchHash, if_pos rfl]

theorem matchNum_true_none (l : List Char) : matchNum true l = none := by
  rw [matchNum, if_pos rfl]

theorem matchHash_nonhex_head (pw : Bool) (x : Char) (t : List Char)
    (h : isHexC x = false) : matchHash pw (x :: t) = none := by
  rw [matchHash]
  cases pw with
  | true => rw [if_pos rfl]
  | false =>
      rw [if_neg Bool.false_ne_true, if_neg]
      rw [runLen, if_neg (by rw [h]; simp)]
      simp

theorem matchNum_nondigit_head (pw : Bool) (x : Char) (t : List Char)
    (h : isDigitC x = false) : matchNum pw (x :: t) = none := by
  rw [matchNum]
  cases pw with
  | true => rw [if_pos rfl]
  | false =>
      rw [if_neg Bool.false_ne_true, if_neg]
      rw [runLen, if_neg (by rw [h]; simp)]
      simp

theorem matchHash_nonword_head (pw : Bool) (x : Char) (t : List Char)
    (h : isWordC x = false) : matchHash pw (x :: t) = none :=
  matchHash_nonhex_head pw x t (nonword_nonhex x h)

theorem matchNum_nonword_head (pw : Bool) (x : Char) (t : List Char)
    (h : isWordC x = false) : matchNum pw (x :: t) = none :=
  matchNum_nondigit_head pw x t (nonword_nondigit x h)

theorem substP_copy_words (M : Bool → List Char → Option Nat)
    (rep : List Char) (hguard : ∀ l, M true l = none) :
    ∀ (A B : List Char), (∀ a ∈ A, isWordC a = true) →
      substP M rep true (A ++ B) = A ++ substP M rep true B := by
  intro A
  induction A with
  | nil => intro B _; rfl
  | cons a A₁ ih =>
      intro B hA
      rw [List.cons_append, substP_cons_none M rep true a (A₁ ++ B) (hguard _),
        hA a (by simp), ih B (fun x hx => hA x (by simp [hx]))]
      rfl

/-- The match conditions of `matchHash` in usable form. -/
theorem matchHash_false_eq (l : List Char) :
    matchHash false l =
      (if 40 ≤ runLen isHexC l && runLen isHexC l ≤ 64
          && nonWordAt (l.drop (runLen isHexC l))
        then some (runLen isHexC l) else none) := by
  rw [matchHash, if_neg Bool.false_ne_true]

theorem matchNum_false_eq (l : List Char) :
    matchNum false l =
      (if 6 ≤ runLen isDigitC l && nonWordAt (l.drop (runLen isDigitC l))
        then some (runLen isDigitC l) else none) := by
  rw [matchNum, if_neg Bool.false_ne_true]

theorem drop_len_append (A X : List Char) (k : Nat) (hA : A.length = k) :
    (A ++ X).drop k = X := by
  rw [← hA, List.drop_left]

theorem matchHash_none_transfer (M₂ : Bool → List Char → Option Nat)
    (rep : List Char) (hguard : ∀ l, M₂ true l = none)
    (pw : Bool) (c : Char) (cs : List Char)
    (h : matchHash pw (c :: cs) = none) :
    matchHash pw (c :: substP M₂ rep (isWordC c) cs) = none := by
  cases pw with
  | true => exact matchHash_true_none _
  | false =>
      by_cases hc : isHexC c = true
      · have hw : isWordC c = true := hex_isWord c hc
        rw [hw]
        have hsplit : substP M₂ rep true cs
            = cs.take (runLen isHexC cs)
              ++ substP M₂ rep true (cs.drop (runLen isHexC cs)) := by
          conv_lhs => rw [← List.take_append_drop (runLen isHexC cs) cs]
          exact substP_copy_words M₂ rep hguard _ _
            (fun a ha => hex_isWord a (runLen_take isHexC cs a ha))
        rcases runLen_drop_head isHexC cs with hnil | ⟨x, xs, hxx, hx⟩
        · have hlen : cs.length ≤ runLen isHexC cs := by
            have hl := congrArg List.length hnil
            rw [List.length_drop] at hl
            simp only [List.length_nil] at hl
            omega
          rw [hsplit, hnil, show substP M₂ rep true [] = [] from rfl,
            List.append_nil, List.take_of_length_le hlen]
          exact h
        · rw [hsplit, hxx, substP_cons_none M₂ rep true x xs (hguard _)]
          rw [matchHash_false_eq] at h ⊢
          have hkle : (cs.take (runLen isHexC cs)).length = runLen isHexC cs := by
            rw [List.length_take]
            have := runLen_le_length isHexC cs
            omega
          have e₁ : runLen isHexC
              (c :: (cs.take (runLen isHexC cs)
                ++ x :: substP M₂ rep (isWordC x) xs))
              = runLen isHexC cs + 1 := by
            rw [runLen, if_pos hc, runLen_exact isHexC _ x _
              (fun a ha => runLen_take isHexC cs a ha) hx, hkle]
          have e₂ : runLen isHexC (c :: cs) = runLen isHexC cs + 1 := by
            rw [runLen, if_pos hc]
          rw [e₂, List.drop_succ_cons, hxx] at h
          rw [e₁, List.drop_succ_cons, drop_len_append _ _ _ hkle]
          rw [show nonWordAt (x :: substP M₂ rep (isWordC x) xs)
            = nonWordAt (x :: xs) from rfl]
          exact h
      · have hc₂ : isHexC c = false := by
          cases hcc : isHexC c
          · rfl
          · exact absurd hcc hc
        rw [matchHash_false_eq, runLen, if_neg (by rw [hc₂]; simp)]

theorem matchNum_none_transfer (M₂ : Bool → List Char → Option Nat)
    (rep : List Char) (hguard : ∀ l, M₂ true l = none)
    (pw : Bool) (c : Char) (cs : List Char)
    (h : matchNum pw (c :: cs) = none) :
    matchNum pw (c :: substP M₂ rep (isWordC c) cs) = none := by
  cases pw with
  | true => exact matchNum_true_none _
  | false =>
      by_cases hc : isDigitC c = true
      · have hw : isWordC c = true := digit_isWord c hc
        rw [hw]
        have hsplit : substP M₂ rep true cs
            = cs.take (runLen isDigitC cs)
              ++ substP M₂ rep true (cs.drop (runLen isDigitC cs)) := by
          conv_lhs => rw [← List.take_append_drop (runLen isDigitC cs) cs]
          exact substP_copy_words M₂ rep hguard _ _
            (fun a ha => digit_isWord a (runLen_take isDigitC cs a ha))
        rcases runLen_drop_head isDigitC cs with hnil | ⟨x, xs, hxx, hx⟩
        · have hlen : cs.length ≤ runLen isDigitC cs := by
            have hl := congrArg List.length hnil
            rw [List.length_drop] at hl
            simp only [List.length_nil] at hl
            omega
          rw [hsplit, hnil, show substP M₂ rep true [] = [] from rfl,
            List.append_nil, List.take_of_length_le hlen]
          exact h
        · rw [hsplit, hxx, substP_cons_none M₂ rep true x xs (hguard _)]
          rw [matchNum_false_eq] at h ⊢
          have hkle : (cs.take (runLen isDigitC cs)).length
              = runLen isDigitC cs := by
            rw [List.length_take]
            have := runLen_le_length isDigitC cs
            omega
          have e₁ : runLen isDigitC
              (c :: (cs.take (runLen isDigitC cs)
                ++ x :: substP M₂ rep (isWordC x) xs))
              = runLen isDigitC cs + 1 := by
            rw [runLen, if_pos hc, runLen_exact isDigitC _ x _
              (fun a ha => runLen_take isDigitC cs a ha) hx, hkle]
          have e₂ : runLen isDigitC (c :: cs) = runLen isDigitC cs + 1 := by
            rw [runLen, if_pos hc]
          rw [e₂, List.drop_succ_cons, hxx] at h
          rw [e₁, List.drop_succ_cons, drop_len_append _ _ _ hkle]
          rw [show nonWordAt (x :: substP M₂ rep (isWordC x) xs)
            = nonWordAt (x :: xs) from rfl]
          exact h
      · have hc₂ : isDigitC c = false := by
          cases hcc : isDigitC c
          · rfl
          · exact absurd hcc hc
        rw [matchNum_false_eq, runLen, if_neg (by rw [hc₂]; simp)]

theorem matchHash_some_elim (pw : Bool) (c : Char) (cs : List Char) (n : Nat)
    (h : matchHash pw (c :: cs) = some (n + 1)) :
    pw = false ∧ runLen isHexC (c :: cs) = n + 1
      ∧ nonWordAt (cs.drop n) = true := by
  cases pw with
  | true => rw [matchHash_true_none] at h; exact absurd h (by simp)
  | false =>
      rw [matchHash_false_eq] at h
      split_ifs at h with hcond
      · simp only [Option.some.injEq] at h
        rw [Bool.and_eq_true, Bool.and_eq_true] at hcond
        refine ⟨rfl, h, ?_⟩
        have := hcond.2
        rw [h] at this
        rw [show (c :: cs).drop (n + 1) = cs.drop n from rfl] at this
        exact this

theorem matchNum_some_elim (pw : Bool) (c : Char) (cs : List Char) (n : Nat)
    (h : matchNum pw (c :: cs) = some (n + 1)) :
    pw = false ∧ runLen isDigitC (c :: cs) = n + 1
      ∧ nonWordAt (cs.drop n) = true := by
  cases pw with
  | true => rw [matchNum_true_none] at h; exact absurd h (by simp)
  | false =>
      rw [matchNum_false_eq] at h
      split_ifs at h with hcond
      · simp only [Option.some.injEq] at h
        rw [Bool.and_eq_true] at hcond
        refine ⟨rfl, h, ?_⟩
        have := hcond.2
        rw [h] at this
        rw [show (c :: cs).drop (n + 1) = cs.drop n from rfl] at this
        exact this

theorem matchHash_some_last (pw : Bool) (c : Char) (cs : List Char) (n : Nat)
    (h : matchHash pw (c :: cs) = some (n + 1)) :
    isWordC ((c :: cs).getD n c) = true := by
  obtain ⟨-, hrun, -⟩ := matchHash_some_elim pw c cs n h
  exact hex_isWord _ (runLen_getD isHexC (c :: cs) n c (by omega))

theorem matchNum_some_last (pw : Bool) (c : Char) (cs : List Char) (n : Nat)
    (h : matchNum pw (c :: cs) = some (n + 1)) :
    isWordC ((c :: cs).getD n c) = true := by
  obtain ⟨-, hrun, -⟩ := matchNum_some_elim pw c cs n h
  exact digit_isWord _ (runLen_getD isDigitC (c :: cs) n c (by omega))

theorem matchHash_some_after (pw : Bool) (c : Char) (cs : List Char) (n : Nat)
    (h : matchHash pw (c :: cs) = some (n + 1)) :
    cs.drop n = [] ∨ ∃ x xs, cs.drop n = x :: xs ∧ isWordC x = false := by
  obtain ⟨-, -, hnw⟩ := matchHash_some_elim pw c cs n h
  cases hd : cs.drop n with
  | nil => exact Or.inl rfl
  | cons x xs =>
      rw [hd, nonWordAt] at hnw
      exact Or.inr ⟨x, xs, rfl, by
        rw [Bool.not_eq_eq_eq_not] at hnw
        simpa using hnw⟩

theorem matchNum_some_after (pw : Bool) (c : Char) (cs : List Char) (n : Nat)
    (h : matchNum pw (c :: cs) = some (n + 1)) :
    cs.drop n = [] ∨ ∃ x xs, cs.drop n = x :: xs ∧ isWordC x = false := by
  obtain ⟨-, -, hnw⟩ := matchNum_some_elim pw c cs n h
  cases hd : cs.drop n with
  | nil => exact Or.inl rfl
  | cons x xs =>
      rw [hd, nonWordAt] at hnw
      exact Or.inr ⟨x, xs, rfl, by
        rw [Bool.not_eq_eq_eq_not] at hnw
        simpa using hnw⟩

/-- Self-cleaning of a `\b`-guarded pass: its own pattern finds nothing
in its output, scanned from the same starting flag. -/
theorem noMat_substP_self (M : Bool → List Char → Option Nat)
    (rep : List Char)
    (hguard : ∀ l, M true l = none)
    (htransfer : ∀ pw c cs, M pw (c :: cs) = none →
      M pw (c :: substP M rep (isWordC c) cs) = none)
    (hlast : ∀ pw c cs n, M pw (c :: cs) = some (n + 1) →
      isWordC ((c :: cs).getD n c) = true)
    (hafter : ∀ pw c cs n, M pw (c :: cs) = some (n + 1) →
      cs.drop n = [] ∨ ∃ x xs, cs.drop n = x :: xs ∧ isWordC x = false)
    (hnw : ∀ pw x t, isWordC x = false → M pw (x :: t) = none)
    (hM0 : ∀ pw l, M pw l ≠ some 0)
    (hblock : ∀ pw T, NoMat M false T → NoMat M pw (rep ++ T)) :
    ∀ (n : Nat) (l : List Char) (pw : Bool), l.length ≤ n →
      NoMat M pw (substP M rep pw l) := by
  intro n
  induction n with
  | zero =>
      intro l pw h
      have hl : l = [] := List.length_eq_zero.mp (Nat.le_zero.mp h)
      subst hl
      trivial
  | succ m ih =>
      intro l pw h
      cases l with
      | nil => trivial
      | cons c cs =>
          rcases hM : M pw (c :: cs) with - | k
          · rw [substP_cons_none M rep pw c cs hM]
            exact ⟨htransfer pw c cs hM, ih cs (isWordC c) (by simpa using h)⟩
          · cases k with
            | zero => exact absurd hM (hM0 pw (c :: cs))
            | succ k₁ =>
                rw [substP_cons_some M rep pw c cs k₁ hM,
                  hlast pw c cs k₁ hM]
                refine hblock pw _ ?_
                have hout : NoMat M true (substP M rep true (cs.drop k₁)) :=
                  ih (cs.drop k₁) true
                    (by rw [List.length_drop]; simp at h; omega)
                rcases hafter pw c cs k₁ hM with hnil | ⟨x, xs, hxx, hxw⟩
                · rw [hnil]
                  trivial
                · rw [hxx] at hout ⊢
                  rw [substP_cons_none M rep true x xs (hguard _)] at hout ⊢
                  exact ⟨hnw false x _ hxw, hout.2⟩

/-- Preservation of a `\b`-guarded pattern's absence under a later
`\b`-guarded pass. -/
theorem noMat_substP_pres (M M₂ : Bool → List Char → Option Nat)
    (rep : List Char)
    (hMg : ∀ l, M true l = none)
    (hM₂g : ∀ l, M₂ true l = none)
    (htransfer : ∀ pw c cs, M pw (c :: cs) = none →
      M pw (c :: substP M₂ rep (isWordC c) cs) = none)
    (hlast₂ : ∀ pw c cs n, M₂ pw (c :: cs) = some (n + 1) →
      isWordC ((c :: cs).getD n c) = true)
    (hafter₂ : ∀ pw c cs n, M₂ pw (c :: cs) = some (n + 1) →
      cs.drop n = [] ∨ ∃ x xs, cs.drop n = x :: xs ∧ isWordC x = false)
    (hnw : ∀ pw x t, isWordC x = false → M pw (x :: t) = none)
    (hM0₂ : ∀ pw l, M₂ pw l ≠ some 0)
    (hblock : ∀ pw T, NoMat M false T → NoMat M pw (rep ++ T)) :
    ∀ (n : Nat) (l : List Char) (pw : Bool), l.length ≤ n →
      NoMat M pw l → NoMat M pw (substP M₂ rep pw l) := by
  intro n
  induction n with
  | zero =>
      intro l pw h _
      have hl : l = [] := List.length_eq_zero.mp (Nat.le_zero.mp h)
      subst hl
      trivial
  | succ m ih =>
      intro l pw h hIn
      cases l with
      | nil => trivial
      | cons c cs =>
          rcases hM : M₂ pw (c :: cs) with - | k
          · rw [substP_cons_none M₂ rep pw c cs hM]
            exact ⟨htransfer pw c cs hIn.1,
              ih cs (isWordC c) (by simpa using h) hIn.2⟩
          · cases k with
            | zero => exact absurd hM (hM0₂ pw (c :: cs))
            | succ k₁ =>
                rw [substP_cons_some M₂ rep pw c cs k₁ hM,
                  hlast₂ pw c cs k₁ hM]
                refine hblock pw _ ?_
                have hsplit : c :: cs = (c :: cs.take k₁) ++ cs.drop k₁ := by
                  rw [List.cons_append, List.take_append_drop]
                have h1 : NoMat M (pwEnd pw (c :: cs.take k₁)) (cs.drop k₁) := by
                  apply noMat_append
                  rw [← hsplit]
                  exact hIn
                have h2 : NoMat M true (cs.drop k₁) :=
                  noMat_retune M _ _ true h1 (fun a as _ => hMg (a :: as))
                have hout : NoMat M true (substP M₂ rep true (cs.drop k₁)) :=
                  ih (cs.drop k₁) true
                    (by rw [List.length_drop]; simp at h; omega) h2
                rcases hafter₂ pw c cs k₁ hM with hnil | ⟨x, xs, hxx, hxw⟩
                · rw [hnil]
                  trivial
                · rw [hxx] at hout ⊢
                  rw [substP_cons_none M₂ rep true x xs (hM₂g _)] at hout ⊢
                  exact ⟨hnw false x _ hxw, hout.2⟩

theorem hash_block_hashrep (pw : Bool) (T : List Char)
    (hT : NoMat matchHash false T) :
    NoMat matchHash pw (['<', 'h', 'a', 's', 'h', '>'] ++ T) := by
  simp only [List.cons_append, List.nil_append, NoMat,
    show isWordC '<' = false from by decide,
    show isWordC 'h' = true from by decide,
    show isWordC 'a' = true from by decide,
    show isWordC 's' = true from by decide,
    show isWordC '>' = false from by decide]
  exact ⟨matchHash_nonhex_head _ _ _ (by decide),
    matchHash_nonhex_head _ _ _ (by decide),
    matchHash_true_none _, matchHash_true_none _, matchHash_true_none _,
    matchHash_true_none _, hT⟩

theorem hash_block_numrep (pw : Bool) (T : List Char)
    (hT : NoMat matchHash false T) :
    NoMat matchHash pw (['<', 'N', '>'] ++ T) := by
  simp only [List.cons_append, List.nil_append, NoMat,
    show isWordC '<' = false from by decide,
    show isWordC 'N' = true from by decide,
    show isWordC '>' = false from by decide]
  exact ⟨matchHash_nonhex_head _ _ _ (by decide),
    matchHash_nonhex_head _ _ _ (by decide),
    matchHash_true_none _, hT⟩

theorem num_block_numrep (pw : Bool) (T : List Char)
    (hT : NoMat matchNum false T) :
    NoMat matchNum pw (['<', 'N', '>'] ++ T) := by
  simp only [List.cons_append, List.nil_append, NoMat,
    show isWordC '<' = false from by decide,
    show isWordC 'N' = true from by decide,
    show isWordC '>' = false from by decide]
  exact ⟨matchNum_nondigit_head _ _ _ (by decide),
    matchNum_nondigit_head _ _ _ (by decide),
    matchNum_true_none _, hT⟩

theorem runLen_append_allfalse (p : Char → Bool) :
    ∀ (t sfx : List Char), (∀ s ∈ sfx, p s = false) →
      runLen p (t ++ sfx) = runLen p t := by
  intro t
  induction t with
  | nil =>
      intro sfx hs
      cases sfx with
      | nil => rfl
      | cons s ss =>
          rw [List.nil_append]
          simp [runLen, hs s (by simp)]
  | cons c t₁ ih =>
      intro sfx hs
      rw [List.cons_append, runLen, runLen, ih sfx hs]

theorem matchHash_unappend_spaces (t sfx : List Char)
    (hs : ∀ s ∈ sfx, isSpaceC s = true) (pw : Bool)
    (h : matchHash pw (t ++ sfx) = none) : matchHash pw t = none := by
  cases pw with
  | true => exact matchHash_true_none _
  | false =>
      have hhex : ∀ s ∈ sfx, isHexC s = false :=
        fun s hm => nonword_nonhex s (space_not_word s (hs s hm))
      rw [matchHash_false_eq] at h ⊢
      rw [runLen_append_allfalse isHexC t sfx hhex,
        List.drop_append_of_le_length (runLen_le_length isHexC t)] at h
      have hnw : nonWordAt (t.drop (runLen isHexC t) ++ sfx)
          = nonWordAt (t.drop (runLen isHexC t)) := by
        cases hd : t.drop (runLen isHexC t) with
        | nil =>
            cases sfx with
            | nil => rfl
            | cons s ss =>
                rw [List.nil_append,
                  show nonWordAt (s :: ss) = !isWordC s from rfl,
                  space_not_word s (hs s (by simp))]
                rfl
        | cons x xs => rfl
      rw [hnw] at h
      exact h

theorem matchNum_unappend_spaces (t sfx : List Char)
    (hs : ∀ s ∈ sfx, isSpaceC s = true) (pw : Bool)
    (h : matchNum pw (t ++ sfx) = none) : matchNum pw t = none := by
  cases pw with
  | true => exact matchNum_true_none _
  | false =>
      have hdig : ∀ s ∈ sfx, isDigitC s = false :=
        fun s hm => nonword_nondigit s (space_not_word s (hs s hm))
      rw [matchNum_false_eq] at h ⊢
      rw [runLen_append_allfalse isDigitC t sfx hdig,
        List.drop_append_of_le_length (runLen_le_length isDigitC t)] at h
      have hnw : nonWordAt (t.drop (runLen isDigitC t) ++ sfx)
          = nonWordAt (t.drop (runLen isDigitC t)) := by
        cases hd : t.drop (runLen isDigitC t) with
        | nil =>
            cases sfx with
            | nil => rfl
            | cons s ss =>
                rw [List.nil_append,
                  show nonWordAt (s :: ss) = !isWordC s from rfl,
                  space_not_word s (hs s (by simp))]
                rfl
        | cons x xs => rfl
      rw [hnw] at h
      exact h

theorem noMat_unappend (M : Bool → List Char → Option Nat) (sfx : List Char)
    (htr : ∀ (t : List Char) (pw : Bool), M pw (t ++ sfx) = none →
      M pw t = none) :
    ∀ (l : List Char) (pw : Bool), NoMat M pw (l ++ sfx) → NoMat M pw l := by
  intro l
  induction l with
  | nil => intro pw _; trivial
  | cons c r ih =>
      intro pw h
      exact ⟨htr (c :: r) pw h.1, ih (isWordC c) h.2⟩

theorem noMat_stripL (M : Bool → List Char → Option Nat)
    (htr : ∀ (t sfx : List Char), (∀ s ∈ sfx, isSpaceC s = true) →
      ∀ pw, M pw (t ++ sfx) = none → M pw t = none)
    (l : List Char) (h : NoMat M false l) : NoMat M false (stripL l) := by
  have hdec1 := List.takeWhile_append_dropWhile (p := isSpaceC) (l := l)
  have h1 : NoMat M false (l.dropWhile isSpaceC) := by
    have ha : NoMat M (pwEnd false (l.takeWhile isSpaceC))
        (l.dropWhile isSpaceC) := by
      apply noMat_append
      rw [hdec1]
      exact h
    rw [pwEnd_false_nonword _ (fun a hm =>
      space_not_word a (List.mem_takeWhile_imp hm))] at ha
    exact ha
  have hdec2 := rev_dropWhile_decomp isSpaceC (l.dropWhile isSpaceC)
  rw [hdec2] at h1
  have hsp : ∀ s ∈ ((l.dropWhile isSpaceC).reverse.takeWhile isSpaceC).reverse,
      isSpaceC s = true := by
    intro s hm
    rw [List.mem_reverse] at hm
    exact List.mem_takeWhile_imp hm
  exact noMat_unappend M _ (fun t pw => htr t _ hsp pw) _ false h1

theorem dropWhile_head_false (p : Char → Bool) :
    ∀ (l : List Char) (c : Char) (cs : List Char),
      l.dropWhile p = c :: cs → p c = false := by
  intro l
  induction l with
  | nil => intro c cs h; simp at h
  | cons a l₁ ih =>
      intro c cs h
      rw [List.dropWhile_cons] at h
      by_cases ha : p a = true
      · rw [if_pos ha] at h
        exact ih c cs h
      · rw [if_neg ha] at h
        rw [List.cons_eq_cons] at h
        rw [← h.1]
        cases hx : p a
        · rfl
        · exact absurd hx ha

theorem dropWhile_dropWhile (p : Char → Bool) (l : List Char) :
    (l.dropWhile p).dropWhile p = l.dropWhile p := by
  cases hd : l.dropWhile p with
  | nil => rfl
  | cons c cs =>
      rw [List.dropWhile_cons,
        if_neg (by rw [dropWhile_head_false p l c cs hd]; simp)]

theorem stripL_stripL (l : List Char) : stripL (stripL l) = stripL l := by
  refine stripL_id _ ?_ ?_
  · cases hA : stripL l with
    | nil => rfl
    | cons c cs =>
        have hdec := rev_dropWhile_decomp isSpaceC (l.dropWhile isSpaceC)
        rw [show ((l.dropWhile isSpaceC).reverse.dropWhile isSpaceC).reverse
            = stripL l from rfl, hA] at hdec
        rw [List.dropWhile_cons,
          if_neg (by rw [dropWhile_head_false isSpaceC l c _ hdec]; simp)]
  · rw [show (stripL l).reverse
        = (l.dropWhile isSpaceC).reverse.dropWhile isSpaceC from by
      rw [stripL, List.reverse_reverse]]
    exact dropWhile_dropWhile isSpaceC _

theorem noMat_hash_norm (l : List Char) :
    NoMat matchHash false (normalizeL l) := by
  have h4 : NoMat matchHash false (pass4 (pass3 (pass2 (pass1 l)))) := by
    rw [pass4, subst_eq_substP, hashRep_chars]
    exact noMat_substP_self matchHash _ matchHash_true_none
      (matchHash_none_transfer matchHash _ matchHash_true_none)
      matchHash_some_last matchHash_some_after matchHash_nonword_head
      matchHash_ne_some0 hash_block_hashrep _ _ false (le_refl _)
  have h5 : NoMat matchHash false (pass5 (pass4 (pass3 (pass2 (pass1 l))))) := by
    rw [pass5, subst_eq_substP, numRep_chars]
    exact noMat_substP_pres matchHash matchNum _ matchHash_true_none
      matchNum_true_none
      (matchHash_none_transfer matchNum _ matchNum_true_none)
      matchNum_some_last matchNum_some_after matchHash_nonword_head
      matchNum_ne_some0 hash_block_numrep _ _ false (le_refl _) h4
  rw [normalizeL]
  exact noMat_stripL matchHash matchHash_unappend_spaces _ h5

theorem noMat_num_norm (l : List Char) :
    NoMat matchNum false (normalizeL l) := by
  have h5 : NoMat matchNum false (pass5 (pass4 (pass3 (pass2 (pass1 l))))) := by
    rw [pass5, subst_eq_substP, numRep_chars]
    exact noMat_substP_self matchNum _ matchNum_true_none
      (matchNum_none_transfer matchNum _ matchNum_true_none)
      matchNum_some_last matchNum_some_after matchNum_nonword_head
      matchNum_ne_some0 num_block_numrep _ _ false (le_refl _)
  rw [normalizeL]
  exact noMat_stripL matchNum matchNum_unappend_spaces _ h5

theorem normalizeL_idem (l : List Char) :
    normalizeL (normalizeL l) = normalizeL l := by
  have hhex := sufNone_hex_norm l
  have hseq := sufNone_seq_norm l
  have hts := sufNone_ts_norm l
  have hhash := noMat_hash_norm l
  have hnum := noMat_num_norm l
  conv_lhs => rw [normalizeL]
  rw [show pass1 (normalizeL l) = normalizeL l from by
      rw [pass1, subst_eq_substP]
      exact substP_id_of_sufNone matchHex matchHex_pwfree _ _ _ hhex]
  rw [show pass2 (normalizeL l) = normalizeL l from by
      rw [pass2, subst_eq_substP]
      exact substP_id_of_sufNone matchSeq matchSeq_pwfree _ _ _ hseq]
  rw [show pass3 (normalizeL l) = normalizeL l from by
      rw [pass3, subst_eq_substP]
      exact substP_id_of_sufNone matchTs matchTs_pwfree _ _ _ hts]
  rw [show pass4 (normalizeL l) = normalizeL l from by
      rw [pass4, subst_eq_substP]
      exact substP_id_of_noMat matchHash _ _ _ hhash]
  rw [show pass5 (normalizeL l) = normalizeL l from by
      rw [pass5, subst_eq_substP]
      exact substP_id_of_noMat matchNum _ _ _ hnum]
  rw [normalizeL, stripL_stripL]

/-- C10: `_normalize_message` is idempotent: normalizing an already
normalized message changes nothing, because no inserted placeholder or
junction re-matches any of the five substitution patterns and the final
strip is idempotent. -/
theorem claim_C10_normalize_idempotent (s : String) :
    normalizeMessage (normalizeMessage s) = normalizeMessage s := by
  show (⟨normalizeL (normalizeL s.data)⟩ : String) = ⟨normalizeL s.data⟩
  rw [normalizeL_idem]
